import Mathlib

/-!
A verification development for an ordered associative container
implemented as a red-black tree (src/src/map.hpp).  The C++ node graph
(nodes carrying a color, two children and a parent back-pointer) is
embedded shallowly: a heap node becomes a constructor of an inductive
tree, a node pointer becomes the path from the root to the node, and
the parent pointer is recovered from that path, so climbing to the
parent in the code becomes dropping the innermost path element here.
Imperative loops become structural, fueled or well-founded recursion,
and the exception mechanism becomes an Except value.
-/

set_option linter.unusedVariables false

namespace sjtu

/-- The two exception types thrown by map.hpp: index_out_of_bound from
at, invalid_iterator from cursor misuse and erase.  (exceptions.hpp is
an external collaborator of the repository; only the two conditions it
distinguishes matter here.) -/
inductive MapError where
  | index_out_of_bound
  | invalid_iterator
deriving DecidableEq

/-- A child direction; a pointer to a node is represented by the list
of directions leading from the root to the node. -/
inductive Dir where
  | left
  | right
deriving DecidableEq

/-- struct Node and the subtree it spans.  color true = RED, false =
BLACK, exactly as the bool in the code; nil is the null pointer.  The
parent pointer is represented implicitly by the path machinery
below. -/
inductive Tree (K V : Type) where
  | nil
  | node (color : Bool) (left : Tree K V) (key : K) (val : V) (right : Tree K V)
deriving DecidableEq

namespace Tree

variable {K V : Type}

/-- is_red(x): null is not red. -/
def isRed : Tree K V → Bool
  | nil => false
  | node c _ _ _ _ => c

/-- x == nullptr. -/
def isNil : Tree K V → Bool
  | nil => true
  | node _ _ _ _ _ => false

/-- x->left read through a possibly-null pointer (the code guards such
reads with null checks; on nil this yields nil, matching the guarded
expression w ? w->left : nullptr). -/
def leftc : Tree K V → Tree K V
  | nil => nil
  | node _ l _ _ _ => l

/-- x->right read as in leftc. -/
def rightc : Tree K V → Tree K V
  | nil => nil
  | node _ _ _ _ r => r

/-- x->color = c written through a possibly-null pointer: the code
always guards the write with if (x), so painting nil is the
identity. -/
def paint (c : Bool) : Tree K V → Tree K V
  | nil => nil
  | node _ l k v r => node c l k v r

/-- the in-order sequence of stored entries. -/
def inorder : Tree K V → List (K × V)
  | nil => []
  | node _ l k v r => inorder l ++ (k, v) :: inorder r

/-- black height measured along the left spine (the canonical black
height once BH holds); a red root adds 0, a black node adds 1, nil
is 0. -/
def bh : Tree K V → Nat
  | nil => 0
  | node c l _ _ _ => bh l + (if c then 0 else 1)

/-- the black-node counts of all root-to-null paths. -/
def blackHeights : Tree K V → List Nat
  | nil => [0]
  | node c l _ _ r =>
      (blackHeights l ++ blackHeights r).map (· + (if c then 0 else 1))

/-- black-height consistency: at every node both subtrees agree. -/
def BH : Tree K V → Prop
  | nil => True
  | node _ l _ _ r => BH l ∧ BH r ∧ bh l = bh r

/-- no red node has a red child (equivalently: no red node has a red
parent, reading each child edge from the other end). -/
def noRR : Tree K V → Prop
  | nil => True
  | node c l _ _ r =>
      noRR l ∧ noRR r ∧ (c = true → isRed l = false ∧ isRed r = false)

/-- the children are internally red-red free but the root color is
unconstrained; the erase fixup target transiently satisfies only
this. -/
def AlmostNoRR : Tree K V → Prop
  | nil => True
  | node _ l _ _ r => noRR l ∧ noRR r

/-- the red-black invariant: black (or absent) root, no red-red, equal
black heights on all root-to-null paths. -/
def RB (t : Tree K V) : Prop := isRed t = false ∧ noRR t ∧ BH t

/-- min_node as a path: one left step per left child. -/
def minPath : Tree K V → List Dir
  | nil => []
  | node _ l _ _ _ => if l.isNil then [] else Dir.left :: minPath l

/-- max_node as a path. -/
def maxPath : Tree K V → List Dir
  | nil => []
  | node _ _ _ _ r => if r.isNil then [] else Dir.right :: maxPath r

/-- dereference a path to the subtree it denotes. -/
def subtreeAt : Tree K V → List Dir → Option (Tree K V)
  | t, [] => some t
  | nil, _ :: _ => none
  | node _ l _ _ _, Dir.left :: p => subtreeAt l p
  | node _ _ _ _ r, Dir.right :: p => subtreeAt r p

/-- the entry stored at a path (none if the path leads to null or off
the tree). -/
def nodeAt (t : Tree K V) (p : List Dir) : Option (K × V) :=
  match subtreeAt t p with
  | some (node _ _ k v _) => some (k, v)
  | _ => none

end Tree

/-- one ancestor level of a focused node: which child the focus is
(dir), plus the ancestor's color, payload and other child.  A node
pointer together with its chain of parent pointers is rendered as the
focused subtree plus the stack of these frames, innermost first. -/
structure Frame (K V : Type) where
  dir : Dir
  color : Bool
  key : K
  val : V
  sibling : Tree K V
deriving DecidableEq

variable {K V : Type}

/-- rebuild one ancestor node around a subtree. -/
def rebuild (f : Frame K V) (t : Tree K V) : Tree K V :=
  match f.dir with
  | Dir.left => Tree.node f.color t f.key f.val f.sibling
  | Dir.right => Tree.node f.color f.sibling f.key f.val t

/-- rebuild the whole tree from a focus and its ancestor frames. -/
def plug : Tree K V → List (Frame K V) → Tree K V
  | t, [] => t
  | t, f :: fs => plug (rebuild f t) fs

/-- left_rotate acting on the subtree rooted at the rotated node; the
relinking of the rotated node into its own parent is performed by the
surrounding frame machinery.  The code requires a right child and never
calls it otherwise; without one this is the identity. -/
def left_rotate : Tree K V → Tree K V
  | Tree.node c a k v (Tree.node c2 b k2 v2 d) =>
      Tree.node c2 (Tree.node c a k v b) k2 v2 d
  | t => t

/-- right_rotate, mirror of left_rotate. -/
def right_rotate : Tree K V → Tree K V
  | Tree.node c (Tree.node c2 a k2 v2 b) k v d =>
      Tree.node c2 a k2 v2 (Tree.node c b k v d)
  | t => t

/-- the while loop of insert_fix: z is the focus (the freshly inserted
red node, or the grandparent the loop recolored red), the frames are
its ancestors.  Each iteration classifies by the side of the parent
under the grandparent (f2.dir), the uncle color, and the side of z
under the parent (f1.dir), exactly as the code does. -/
def insert_fix_loop : Tree K V → List (Frame K V) → Tree K V
  | z, [] => z
  | z, f1 :: rest =>
    if f1.color = false then
      -- parent black: the loop guard z->parent->color fails
      plug z (f1 :: rest)
    else
      match rest with
      | [] =>
        -- a red parent that is the root: the code would dereference a
        -- null grandparent here; unreachable because the root is black
        plug z (f1 :: rest)
      | f2 :: rest2 =>
        let p_sub := rebuild f1 z
        match f2.dir with
        | Dir.left =>
          if f2.sibling.isRed then
            -- uncle red: recolor parent and uncle black, grandparent
            -- red, continue from the grandparent
            insert_fix_loop
              (Tree.node true (p_sub.paint false) f2.key f2.val
                (f2.sibling.paint false)) rest2
          else
            -- uncle black: on the inner case first rotate the parent
            -- (z = p; left_rotate(z)), then recolor and rotate the
            -- grandparent; afterwards the loop guard fails
            let p2 := if f1.dir = Dir.right then left_rotate p_sub else p_sub
            plug (right_rotate
              (Tree.node true (p2.paint false) f2.key f2.val f2.sibling))
              rest2
        | Dir.right =>
          if f2.sibling.isRed then
            insert_fix_loop
              (Tree.node true (f2.sibling.paint false) f2.key f2.val
                (p_sub.paint false)) rest2
          else
            let p2 := if f1.dir = Dir.left then right_rotate p_sub else p_sub
            plug (left_rotate
              (Tree.node true f2.sibling f2.key f2.val (p2.paint false)))
              rest2

/-- insert_fix: the loop, then the unconditional root blackening
if (root) root->color = false. -/
def insert_fix (z : Tree K V) (fs : List (Frame K V)) : Tree K V :=
  (insert_fix_loop z fs).paint false

/-- erase-fix case 2 rebuild (x on the left): sibling recolored red,
x moves to the parent. -/
def case2L (x : Tree K V) (f1 : Frame K V) : Tree K V :=
  Tree.node f1.color x f1.key f1.val (f1.sibling.paint true)

/-- erase-fix case 2 rebuild (x on the right). -/
def case2R (x : Tree K V) (f1 : Frame K V) : Tree K V :=
  Tree.node f1.color (f1.sibling.paint true) f1.key f1.val x

/-- erase-fix case 3 (x on the left): near child red, far child black:
blacken the near child, redden the sibling, right-rotate the
sibling. -/
def case3L : Tree K V → Tree K V
  | Tree.node _ (Tree.node _ a lk lv b) wk wv wr =>
      right_rotate (Tree.node true (Tree.node false a lk lv b) wk wv wr)
  | t => t

/-- erase-fix case 3 (x on the right), the mirror. -/
def case3R : Tree K V → Tree K V
  | Tree.node _ wl wk wv (Tree.node _ a rk rv b) =>
      left_rotate (Tree.node true wl wk wv (Tree.node false a rk rv b))
  | t => t

/-- erase-fix case 4 (x on the left): the sibling takes the parent
color, parent and far child become black, the parent is left-rotated;
the loop then exits with x = root, and the trailing
if (x) x->color = false blackens the root. -/
def case4L (x : Tree K V) (f1 : Frame K V) (w : Tree K V)
    (rest : List (Frame K V)) : Tree K V :=
  match w with
  | Tree.node _ wl wk wv wr =>
      (plug (left_rotate
        (Tree.node false x f1.key f1.val
          (Tree.node f1.color wl wk wv (wr.paint false)))) rest).paint false
  | Tree.nil =>
      -- a null w here would make left_rotate(x_parent) dereference null
      -- in the code; unreachable, since the sibling of a
      -- black-deficient child is never null
      (plug (Tree.node false x f1.key f1.val Tree.nil) rest).paint false

/-- erase-fix case 4 (x on the right), the mirror. -/
def case4R (x : Tree K V) (f1 : Frame K V) (w : Tree K V)
    (rest : List (Frame K V)) : Tree K V :=
  match w with
  | Tree.node _ wl wk wv wr =>
      (plug (right_rotate
        (Tree.node false
          (Tree.node f1.color (wl.paint false) wk wv wr) f1.key f1.val x))
        rest).paint false
  | Tree.nil =>
      (plug (Tree.node false Tree.nil f1.key f1.val x) rest).paint false

/-- cases 2-4 of the erase fixup with x on the left, entered after the
possible case-1 transformation; the sibling w is f1.sibling.  inl:
continue the loop from the rebuilt parent (case 2); inr: the loop is
finished and the fully rebuilt, root-blackened tree is returned
(cases 3/4). -/
def eraseStepL (x : Tree K V) (f1 : Frame K V) (rest : List (Frame K V)) :
    Tree K V ⊕ Tree K V :=
  let w := f1.sibling
  if !w.leftc.isRed && !w.rightc.isRed then
    Sum.inl (case2L x f1)
  else if !w.rightc.isRed then
    Sum.inr (case4L x f1 (case3L w) rest)
  else
    Sum.inr (case4L x f1 w rest)

/-- cases 2-4 with x on the right, the mirror. -/
def eraseStepR (x : Tree K V) (f1 : Frame K V) (rest : List (Frame K V)) :
    Tree K V ⊕ Tree K V :=
  let w := f1.sibling
  if !w.rightc.isRed && !w.leftc.isRed then
    Sum.inl (case2R x f1)
  else if !w.leftc.isRed then
    Sum.inr (case4R x f1 (case3R w) rest)
  else
    Sum.inr (case4R x f1 w rest)

/-- the test x == x_parent->left of the erase fixup is a pointer
comparison: true when x is the left child, and also when x is a null
right child whose parent's left child is null too (both sides are then
nullptr).  In that degenerate situation the two loop branches act
identically, as both children are null. -/
def xIsLeft (x : Tree K V) (f1 : Frame K V) : Bool :=
  match f1.dir with
  | Dir.left => true
  | Dir.right => x.isNil && f1.sibling.isNil

/-- the while loop of erase_fix, fueled: each iteration either pops a
frame (case 2) or turns the focus red after pushing one frame (case 1
followed by case 2), so 2*depth+2 fuel always suffices and the
out-of-fuel branch is never reached (the master lemma below proves
this).  Every exit applies the trailing if (x) x->color = false of the
code to the node x held at that exit. -/
def erase_fix_loop : Nat → Tree K V → List (Frame K V) → Tree K V
  | 0, x, fs => plug x fs
  | _ + 1, x, [] => x.paint false
  | fuel + 1, x, f1 :: rest =>
    if x.isRed then
      plug (x.paint false) (f1 :: rest)
    else if xIsLeft x f1 then
      match f1.sibling with
      | Tree.node true wl wk wv wr =>
        -- case 1: blacken the sibling, redden the parent, left-rotate
        -- the parent; x keeps its parent but the old sibling becomes
        -- its grandparent, and the new sibling is the old near child
        let f1' : Frame K V := ⟨Dir.left, true, f1.key, f1.val, wl⟩
        let f2' : Frame K V := ⟨Dir.left, false, wk, wv, wr⟩
        match eraseStepL x f1' (f2' :: rest) with
        | Sum.inl y => erase_fix_loop fuel y (f2' :: rest)
        | Sum.inr t => t
      | _ =>
        match eraseStepL x f1 rest with
        | Sum.inl y => erase_fix_loop fuel y rest
        | Sum.inr t => t
    else
      match f1.sibling with
      | Tree.node true wl wk wv wr =>
        let f1' : Frame K V := ⟨Dir.right, true, f1.key, f1.val, wr⟩
        let f2' : Frame K V := ⟨Dir.right, false, wk, wv, wl⟩
        match eraseStepR x f1' (f2' :: rest) with
        | Sum.inl y => erase_fix_loop fuel y (f2' :: rest)
        | Sum.inr t => t
      | _ =>
        match eraseStepR x f1 rest with
        | Sum.inl y => erase_fix_loop fuel y rest
        | Sum.inr t => t

/-- erase_fix with the sufficient fuel. -/
def erase_fix (x : Tree K V) (fs : List (Frame K V)) : Tree K V :=
  erase_fix_loop (2 * fs.length + 2) x fs

section Ops

variable (cmp : K → K → Bool)

/-- find_node, returning the path to the matching node. -/
def find_node : Tree K V → K → Option (List Dir)
  | Tree.nil, _ => none
  | Tree.node _ l k2 _ r, k =>
    if cmp k k2 then (find_node l k).map (Dir.left :: ·)
    else if cmp k2 k then (find_node r k).map (Dir.right :: ·)
    else some []

/-- find_node, returning the stored pair. -/
def find_data : Tree K V → K → Option (K × V)
  | Tree.nil, _ => none
  | Tree.node _ l k2 v2 r, k =>
    if cmp k k2 then find_data l k
    else if cmp k2 k then find_data r k
    else some (k2, v2)

/-- the insertion descent shared by insert and operator[]: walk down
comparing, remembering the ancestors; inl: fell off at a null child
(the insertion point and its ancestors), inr: met an equivalent key
(its ancestors and its stored pair). -/
def descend (k : K) :
    Tree K V → List (Frame K V) →
    List (Frame K V) ⊕ (List (Frame K V) × K × V)
  | Tree.nil, acc => Sum.inl acc
  | Tree.node c l k2 v2 r, acc =>
    if cmp k k2 then descend k l (⟨Dir.left, c, k2, v2, r⟩ :: acc)
    else if cmp k2 k then descend k r (⟨Dir.right, c, k2, v2, l⟩ :: acc)
    else Sum.inr (acc, k2, v2)

end Ops

/-- the map object: root and node_count (the comparison object is
stateless and is passed to each operation). -/
structure map (K V : Type) where
  root : Tree K V
  node_count : Nat
deriving DecidableEq

/-- the root path of the node whose ancestor frames are given. -/
def pathOfFrames (fs : List (Frame K V)) : List Dir :=
  (fs.map Frame.dir).reverse

section Ops2

variable (cmp : K → K → Bool)

/-- insert: the new map, the position of the entry for the key, and the
inserted flag.  The code returns an iterator holding the node pointer;
on a duplicate that is the met node, and for a fresh node we name its
final position (where the pointer ends up after the fixup) through
find_node. -/
def insert (m : map K V) (k : K) (v : V) :
    map K V × Option (List Dir) × Bool :=
  match descend cmp k m.root [] with
  | Sum.inr (ctx, _, _) => (m, some (pathOfFrames ctx), false)
  | Sum.inl ctx =>
    let t2 := insert_fix (Tree.node true Tree.nil k v Tree.nil) ctx
    ({ root := t2, node_count := m.node_count + 1 }, find_node cmp t2 k, true)

/-- operator[] (mutable): the same descent as insert,
default-constructing the value on a miss (dflt stands for T()); returns
the map and the value the returned reference reads. -/
def op_index (dflt : V) (m : map K V) (k : K) : map K V × V :=
  match descend cmp k m.root [] with
  | Sum.inr (_, _, v2) => (m, v2)
  | Sum.inl ctx =>
    let t2 := insert_fix (Tree.node true Tree.nil k dflt Tree.nil) ctx
    ({ root := t2, node_count := m.node_count + 1 }, dflt)

/-- at: throws index_out_of_bound when the key is absent. -/
def at' (m : map K V) (k : K) : Except MapError V :=
  match find_data cmp m.root k with
  | none => Except.error MapError.index_out_of_bound
  | some e => Except.ok e.2

/-- const operator[]: return at(key) verbatim (line 379). -/
def op_index_const (m : map K V) (k : K) : Except MapError V := at' cmp m k

/-- count: 0 or 1 by find_node. -/
def count (m : map K V) (k : K) : Nat :=
  match find_data cmp m.root k with
  | none => 0
  | some _ => 1

/-- find: an iterator at the node, or the end iterator (no node). -/
def find (m : map K V) (k : K) : Option (List Dir) :=
  find_node cmp m.root k

end Ops2

/-- walk a path from the root, collecting the ancestor frames of the
target, innermost first. -/
def zipTo : Tree K V → List Dir → Option (Tree K V × List (Frame K V))
  | t, [] => some (t, [])
  | Tree.nil, _ :: _ => none
  | Tree.node c l k v r, Dir.left :: p =>
    (zipTo l p).map (fun z => (z.1, z.2 ++ [⟨Dir.left, c, k, v, r⟩]))
  | Tree.node c l k v r, Dir.right :: p =>
    (zipTo r p).map (fun z => (z.1, z.2 ++ [⟨Dir.right, c, k, v, l⟩]))

/-- removal of the leftmost node, the successor y = min_node(z->right)
of the erase code: y's color, key and value, y's right child x (the
fixup target), and the frames from the subtree root down to y's
position, innermost first. -/
def delMin : Tree K V → Option (Bool × K × V × Tree K V × List (Frame K V))
  | Tree.nil => none
  | Tree.node c l k v r =>
    match delMin l with
    | none => some (c, k, v, r, [])
    | some (yc, yk, yv, x, fs) =>
        some (yc, yk, yv, x, fs ++ [⟨Dir.left, c, k, v, r⟩])

/-- the body of erase after the iterator checks: the three splice cases
of the code (no left child, no right child, two children via the
in-order successor), then erase_fix when the color removed from the
tree was black, then the unconditional root blackening. -/
def erase_at (t : Tree K V) (p : List Dir) : Tree K V :=
  match zipTo t p with
  | none => t
  | some (Tree.nil, _) => t
  | some (Tree.node zc zl zk zv zr, ctx) =>
    if zl.isNil then
      (if zc then plug zr ctx else erase_fix zr ctx).paint false
    else if zr.isNil then
      (if zc then plug zl ctx else erase_fix zl ctx).paint false
    else
      match delMin zr with
      | none => t
      | some (yc, yk, yv, x, fs) =>
        let ctx2 := fs ++ ⟨Dir.right, zc, yk, yv, zl⟩ :: ctx
        (if yc then plug x ctx2 else erase_fix x ctx2).paint false

/-- erase at map level: splice and fix, and --node_count. -/
def erase_map (m : map K V) (p : List Dir) : map K V :=
  ⟨erase_at m.root p, m.node_count - 1⟩

/-- the cursor: owner is the identity of the owning map object (none
for a default-constructed iterator, whose owner pointer is null), cur
the node position (none at the end position). -/
structure iterator where
  owner : Option Nat
  cur : Option (List Dir)
deriving DecidableEq

/-- a default-constructed iterator: bound to no tree, holding no
node. -/
def iterDefault : iterator := ⟨none, none⟩

/-- the climb of next_node over the reversed path: pop while the node
is a right child; reaching a left step yields that parent, running out
of ancestors yields null. -/
def climbR : List Dir → Option (List Dir)
  | [] => none
  | Dir.right :: p => climbR p
  | Dir.left :: p => some p

/-- the climb of prev_node, the mirror. -/
def climbL : List Dir → Option (List Dir)
  | [] => none
  | Dir.left :: p => climbL p
  | Dir.right :: p => some p

/-- next_node: leftmost of the right subtree if there is one, else the
first ancestor reached from the left. -/
def next_node (t : Tree K V) (p : List Dir) : Option (List Dir) :=
  match Tree.subtreeAt t p with
  | some (Tree.node _ _ _ _ r) =>
    if r.isNil then (climbR p.reverse).map List.reverse
    else some (p ++ Dir.right :: r.minPath)
  | _ => none

/-- prev_node, the mirror. -/
def prev_node (t : Tree K V) (p : List Dir) : Option (List Dir) :=
  match Tree.subtreeAt t p with
  | some (Tree.node _ l _ _ _) =>
    if l.isNil then (climbL p.reverse).map List.reverse
    else some (p ++ Dir.left :: l.maxPath)
  | _ => none

/-- begin(): iterator(this, min_node(root)); the pointer is null when
the tree is empty. -/
def begin (mid : Nat) (t : Tree K V) : iterator :=
  ⟨some mid, if t.isNil then none else some t.minPath⟩

/-- end(): iterator(this, nullptr). -/
def end' (mid : Nat) : iterator := ⟨some mid, none⟩

/-- prefix operator++: throws on an unbound iterator and on end,
otherwise moves to the successor (null beyond the maximum). -/
def iter_inc (t : Tree K V) (it : iterator) : Except MapError iterator :=
  match it.owner with
  | none => Except.error MapError.invalid_iterator
  | some o =>
    match it.cur with
    | none => Except.error MapError.invalid_iterator
    | some p => Except.ok ⟨some o, next_node t p⟩

/-- prefix operator--: on end of a non-empty tree, the maximum node;
throws on an unbound iterator, on end of an empty tree, and on a node
without predecessor. -/
def iter_dec (t : Tree K V) (it : iterator) : Except MapError iterator :=
  match it.owner with
  | none => Except.error MapError.invalid_iterator
  | some o =>
    match it.cur with
    | none =>
      if t.isNil then Except.error MapError.invalid_iterator
      else Except.ok ⟨some o, some t.maxPath⟩
    | some p =>
      match prev_node t p with
      | none => Except.error MapError.invalid_iterator
      | some q => Except.ok ⟨some o, some q⟩

/-- operator*: throws iff cur is null; otherwise returns the data the
pointer reads (none models a dangling pointer, whose read the code
leaves undefined). -/
def iter_deref (t : Tree K V) (it : iterator) :
    Except MapError (Option (K × V)) :=
  match it.cur with
  | none => Except.error MapError.invalid_iterator
  | some p => Except.ok (Tree.nodeAt t p)

/-- operator->: declared noexcept and performing no check at all: it
returns the address &cur->data unconditionally (here: the position the
cursor holds), so it never signals an error. -/
def iter_arrow (it : iterator) : Except MapError (Option (List Dir)) :=
  Except.ok it.cur

/-- erase(pos): throws iff the owner is a different map object or cur
is null, before any mutation; otherwise removes the referenced
entry. -/
def erase_iter (mid : Nat) (m : map K V) (it : iterator) :
    Except MapError (map K V) :=
  match it.cur with
  | none => Except.error MapError.invalid_iterator
  | some p =>
    if it.owner = some mid then Except.ok (erase_map m p)
    else Except.error MapError.invalid_iterator

/-- clone_subtree threading node_count (the code does ++node_count per
cloned node, after cloning both children). -/
def clone_subtree : Tree K V → Nat → Tree K V × Nat
  | Tree.nil, n => (Tree.nil, n)
  | Tree.node c l k v r, n =>
    let lc := clone_subtree l n
    let rc := clone_subtree r lc.2
    (Tree.node c lc.1 k v rc.1, rc.2 + 1)

/-- copy construction: a fresh map with count 0, then a deep clone of
the source. -/
def copyMap (m : map K V) : map K V :=
  let c := clone_subtree m.root 0
  ⟨c.1, c.2⟩

/-- copy assignment: clear() on the target, then a clone of the source
(self-assignment returns the target unchanged, which coincides). -/
def assignMap (_target source : map K V) : map K V := copyMap source

/-- clear(): teardown of the whole node graph, count reset. -/
def clearMap (_m : map K V) : map K V := ⟨Tree.nil, 0⟩

/-- size(): the maintained count. -/
def size (m : map K V) : Nat := m.node_count

/-- empty(). -/
def emptyb (m : map K V) : Bool := m.node_count == 0

/-- trees with node identities, used to state that clone_subtree
allocates fresh nodes: each new Node(...) of the clone receives an
address the source tree never uses, which is what makes the copy
structurally independent of the original. -/
inductive ATree (K V : Type) where
  | nil
  | node (addr : Nat) (color : Bool) (left : ATree K V) (key : K) (val : V)
      (right : ATree K V)

namespace ATree

variable {K V : Type}

/-- the addresses of all nodes. -/
def addrs : ATree K V → List Nat
  | nil => []
  | node a _ l _ _ r => a :: (addrs l ++ addrs r)

/-- forget the addresses. -/
def strip : ATree K V → Tree K V
  | nil => Tree.nil
  | node _ c l k v r => Tree.node c (strip l) k v (strip r)

/-- clone_subtree with the allocator made explicit: f is the next fresh
address and every new Node consumes one. -/
def clone_alloc : ATree K V → Nat → ATree K V × Nat
  | nil, f => (nil, f)
  | node _ c l k v r, f =>
    let lc := clone_alloc l (f + 1)
    let rc := clone_alloc r lc.2
    (node f c lc.1 k v rc.1, rc.2)

end ATree

/-- repeatedly dereference and advance, as the loop from begin() that
stops at end; the fuel bounds the number of steps. -/
def visitFrom (t : Tree K V) : Option (List Dir) → Nat → List (K × V)
  | _, 0 => []
  | none, _ + 1 => []
  | some p, fuel + 1 =>
    match Tree.nodeAt t p with
    | none => []
    | some e => e :: visitFrom t (next_node t p) fuel

/-- the entries visited by iterating from begin() to end() by
successive increments. -/
def traversal (t : Tree K V) : List (K × V) :=
  visitFrom t (if t.isNil then none else some t.minPath) (t.inorder.length + 1)

/-- the root paths of the nodes of a tree, listed in in-order; the
reference enumeration against which the iterator walk is checked. -/
def inorderPaths : Tree K V → List (List Dir)
  | Tree.nil => []
  | Tree.node _ l _ _ r =>
    (inorderPaths l).map (Dir.left :: ·) ++
      [[]] ++ (inorderPaths r).map (Dir.right :: ·)

/-- strict weak ordering: the assumption the container places on the
caller-supplied comparison predicate. -/
structure IsSWO (cmp : K → K → Bool) : Prop where
  irrefl : ∀ a, cmp a a = false
  trans : ∀ a b c, cmp a b = true → cmp b c = true → cmp a c = true
  incomp_trans : ∀ a b c, cmp a b = false → cmp b a = false →
    cmp b c = false → cmp c b = false → cmp a c = false ∧ cmp c a = false

/-- the usual strict order on Nat as a comparison object, used to
instantiate the development on concrete maps. -/
def natLt : Nat → Nat → Bool := fun a b => decide (a < b)

/-- maps reachable from the default-constructed map by the public
mutating operations: insert, operator[], erase at a valid cursor,
clear, and copy construction (copy assignment produces the same map as
copy construction from the source, so it is covered by cpy). -/
inductive Reachable (cmp : K → K → Bool) : map K V → Prop where
  | empty : Reachable cmp ⟨Tree.nil, 0⟩
  | ins (m : map K V) (k : K) (v : V) :
      Reachable cmp m → Reachable cmp (insert cmp m k v).1
  | idx (m : map K V) (k : K) (dflt : V) :
      Reachable cmp m → Reachable cmp (op_index cmp dflt m k).1
  | ers (m : map K V) (p : List Dir) :
      (Tree.nodeAt m.root p).isSome = true → Reachable cmp m →
      Reachable cmp (erase_map m p)
  | clr (m : map K V) : Reachable cmp m → Reachable cmp (clearMap m)
  | cpy (m : map K V) : Reachable cmp m → Reachable cmp (copyMap m)

/-- strictly increasing entries under the ordering predicate. -/
def sortedLt (cmp : K → K → Bool) (l : List (K × V)) : Prop :=
  l.Pairwise (fun a b => cmp a.1 b.1 = true)

/-- the representation invariant of a map object: red-black shape,
strictly sorted in-order sequence, and an accurate count. -/
def Valid (cmp : K → K → Bool) (m : map K V) : Prop :=
  Tree.RB m.root ∧ sortedLt cmp m.root.inorder ∧
    m.node_count = m.root.inorder.length

/-! ### Basic structural lemmas -/

@[simp] theorem Tree.isRed_nil : (Tree.nil : Tree K V).isRed = false := rfl

@[simp] theorem Tree.isRed_node (c : Bool) (l : Tree K V) (k : K) (v : V)
    (r : Tree K V) : (Tree.node c l k v r).isRed = c := rfl

@[simp] theorem Tree.isNil_nil : (Tree.nil : Tree K V).isNil = true := rfl

@[simp] theorem Tree.isNil_node (c : Bool) (l : Tree K V) (k : K) (v : V)
    (r : Tree K V) : (Tree.node c l k v r).isNil = false := rfl

@[simp] theorem Tree.paint_nil (c : Bool) :
    (Tree.nil : Tree K V).paint c = Tree.nil := rfl

@[simp] theorem Tree.paint_node (c c0 : Bool) (l : Tree K V) (k : K) (v : V)
    (r : Tree K V) :
    (Tree.node c0 l k v r).paint c = Tree.node c l k v r := rfl

@[simp] theorem Tree.inorder_nil : (Tree.nil : Tree K V).inorder = [] := rfl

@[simp] theorem Tree.inorder_node (c : Bool) (l : Tree K V) (k : K) (v : V)
    (r : Tree K V) :
    (Tree.node c l k v r).inorder = l.inorder ++ (k, v) :: r.inorder := rfl

@[simp] theorem Tree.inorder_paint (c : Bool) (t : Tree K V) :
    (t.paint c).inorder = t.inorder := by cases t <;> rfl

@[simp] theorem Tree.isRed_paint_false (t : Tree K V) :
    (t.paint false).isRed = false := by cases t <;> rfl

@[simp] theorem Tree.bh_nil : (Tree.nil : Tree K V).bh = 0 := rfl

@[simp] theorem Tree.bh_node (c : Bool) (l : Tree K V) (k : K) (v : V)
    (r : Tree K V) :
    (Tree.node c l k v r).bh = l.bh + (if c then 0 else 1) := rfl

@[simp] theorem Tree.bh_node_red (l : Tree K V) (k : K) (v : V)
    (r : Tree K V) : (Tree.node true l k v r).bh = l.bh := by
  simp [Tree.bh]

@[simp] theorem Tree.bh_node_black (l : Tree K V) (k : K) (v : V)
    (r : Tree K V) : (Tree.node false l k v r).bh = l.bh + 1 := by
  simp [Tree.bh]

theorem Tree.BH_node_iff (c : Bool) (l : Tree K V) (k : K) (v : V)
    (r : Tree K V) :
    Tree.BH (Tree.node c l k v r) ↔ Tree.BH l ∧ Tree.BH r ∧ l.bh = r.bh :=
  Iff.rfl

theorem Tree.noRR_node_iff (c : Bool) (l : Tree K V) (k : K) (v : V)
    (r : Tree K V) :
    Tree.noRR (Tree.node c l k v r) ↔
      Tree.noRR l ∧ Tree.noRR r ∧
        (c = true → l.isRed = false ∧ r.isRed = false) :=
  Iff.rfl

@[simp] theorem Tree.BH_nil : Tree.BH (Tree.nil : Tree K V) := trivial

@[simp] theorem Tree.noRR_nil : Tree.noRR (Tree.nil : Tree K V) := trivial

@[simp] theorem Tree.AlmostNoRR_nil : Tree.AlmostNoRR (Tree.nil : Tree K V) :=
  trivial

theorem Tree.noRR_almost {t : Tree K V} (h : Tree.noRR t) :
    Tree.AlmostNoRR t := by
  cases t with
  | nil => trivial
  | node c l k v r => exact ⟨h.1, h.2.1⟩

theorem Tree.almost_noRR_of_black {t : Tree K V} (h : Tree.AlmostNoRR t)
    (hb : t.isRed = false) : Tree.noRR t := by
  cases t with
  | nil => trivial
  | node c l k v r =>
    refine ⟨h.1, h.2, ?_⟩
    intro hc
    simp [Tree.isRed] at hb
    simp [hb] at hc

theorem Tree.noRR_paint_false {t : Tree K V} (h : Tree.AlmostNoRR t) :
    Tree.noRR (t.paint false) := by
  cases t with
  | nil => trivial
  | node c l k v r => exact ⟨h.1, h.2, by simp⟩

theorem Tree.BH_paint {t : Tree K V} (c : Bool) (h : Tree.BH t) :
    Tree.BH (t.paint c) := by
  cases t with
  | nil => trivial
  | node c0 l k v r => exact h

theorem Tree.bh_paint_false (t : Tree K V) :
    (t.paint false).bh = t.bh + (if t.isRed then 1 else 0) := by
  cases t with
  | nil => rfl
  | node c l k v r => cases c <;> simp [Tree.paint, Tree.bh, Tree.isRed]

theorem Tree.isRed_node_inv {t : Tree K V} (h : t.isRed = true) :
    ∃ l k v r, t = Tree.node true l k v r := by
  cases t with
  | nil => simp [Tree.isRed] at h
  | node c l k v r =>
    simp [Tree.isRed] at h
    exact ⟨l, k, v, r, by rw [h]⟩

theorem Tree.isNil_iff {t : Tree K V} : t.isNil = true ↔ t = Tree.nil := by
  cases t <;> simp [Tree.isNil]

theorem Tree.not_isNil_inv {t : Tree K V} (h : t.isNil = false) :
    ∃ c l k v r, t = Tree.node c l k v r := by
  cases t with
  | nil => simp [Tree.isNil] at h
  | node c l k v r => exact ⟨c, l, k, v, r, rfl⟩

@[simp] theorem rebuild_left (c : Bool) (k : K) (v : V) (s t : Tree K V) :
    rebuild ⟨Dir.left, c, k, v, s⟩ t = Tree.node c t k v s := rfl

@[simp] theorem rebuild_right (c : Bool) (k : K) (v : V) (s t : Tree K V) :
    rebuild ⟨Dir.right, c, k, v, s⟩ t = Tree.node c s k v t := rfl

@[simp] theorem plug_nilctx (t : Tree K V) : plug t [] = t := rfl

@[simp] theorem plug_cons (t : Tree K V) (f : Frame K V)
    (fs : List (Frame K V)) : plug t (f :: fs) = plug (rebuild f t) fs := rfl

theorem plug_append (t : Tree K V) (a b : List (Frame K V)) :
    plug t (a ++ b) = plug (plug t a) b := by
  induction a generalizing t with
  | nil => rfl
  | cons f fs ih => simp [plug, ih]

/-- the entries contributed by the ancestors to the left of the
hole. -/
def ctxL : List (Frame K V) → List (K × V)
  | [] => []
  | f :: fs =>
    match f.dir with
    | Dir.left => ctxL fs
    | Dir.right => ctxL fs ++ f.sibling.inorder ++ [(f.key, f.val)]

/-- the entries contributed by the ancestors to the right of the
hole. -/
def ctxR : List (Frame K V) → List (K × V)
  | [] => []
  | f :: fs =>
    match f.dir with
    | Dir.left => (f.key, f.val) :: f.sibling.inorder ++ ctxR fs
    | Dir.right => ctxR fs

theorem plug_inorder (t : Tree K V) (fs : List (Frame K V)) :
    (plug t fs).inorder = ctxL fs ++ t.inorder ++ ctxR fs := by
  induction fs generalizing t with
  | nil => simp [ctxL, ctxR]
  | cons f fs ih =>
    obtain ⟨d, c, k, v, s⟩ := f
    cases d <;> simp [ctxL, ctxR, ih, rebuild]

theorem plug_inorder_congr {a b : Tree K V} (fs : List (Frame K V))
    (h : a.inorder = b.inorder) :
    (plug a fs).inorder = (plug b fs).inorder := by
  simp [plug_inorder, h]

@[simp] theorem inorder_left_rotate (t : Tree K V) :
    (left_rotate t).inorder = t.inorder := by
  unfold left_rotate
  split <;> simp

@[simp] theorem inorder_right_rotate (t : Tree K V) :
    (right_rotate t).inorder = t.inorder := by
  unfold right_rotate
  split <;> simp

/-! ### Context validity: the zipper rendering of the red-black
invariant of the surrounding tree -/

/-- black-height contribution of a frame color. -/
def wt (c : Bool) : Nat := if c then 0 else 1

/-- total black-height contribution of an ancestor stack. -/
def ctxW : List (Frame K V) → Nat
  | [] => 0
  | f :: fs => wt f.color + ctxW fs

/-- the innermost frame is black (or there is no frame). -/
def hdBlack : List (Frame K V) → Bool
  | [] => true
  | f :: _ => !f.color

/-- color of the outermost frame (false when there is none). -/
def lastRed : List (Frame K V) → Bool
  | [] => false
  | [f] => f.color
  | _ :: fs => lastRed fs

/-- validity of an ancestor stack expecting a subtree of black height n
in its hole: every sibling is a locally valid red-black subtree of the
height the position requires, and a red frame has a black sibling and a
black parent frame. -/
def CtxOk : List (Frame K V) → Nat → Prop
  | [], _ => True
  | f :: fs, n =>
    f.sibling.bh = n ∧ Tree.BH f.sibling ∧ Tree.noRR f.sibling ∧
    (f.color = true → f.sibling.isRed = false ∧ hdBlack fs = true) ∧
    CtxOk fs (n + wt f.color)

@[simp] theorem CtxOk_nil (n : Nat) : CtxOk ([] : List (Frame K V)) n :=
  trivial

theorem CtxOk_cons_iff (f : Frame K V) (fs : List (Frame K V)) (n : Nat) :
    CtxOk (f :: fs) n ↔
      f.sibling.bh = n ∧ Tree.BH f.sibling ∧ Tree.noRR f.sibling ∧
      (f.color = true → f.sibling.isRed = false ∧ hdBlack fs = true) ∧
      CtxOk fs (n + wt f.color) := Iff.rfl

/-- rebuilding one frame around an admissible subtree preserves local
validity. -/
theorem rebuild_ok {f : Frame K V} {t : Tree K V} {n : Nat}
    (hs : f.sibling.bh = n) (hbs : Tree.BH f.sibling)
    (hns : Tree.noRR f.sibling)
    (hrs : f.color = true → f.sibling.isRed = false)
    (ht : t.bh = n) (hbt : Tree.BH t) (hnt : Tree.noRR t)
    (hrt : t.isRed = true → f.color = false) :
    Tree.BH (rebuild f t) ∧ Tree.noRR (rebuild f t) ∧
      (rebuild f t).bh = n + wt f.color ∧ (rebuild f t).isRed = f.color := by
  obtain ⟨d, c, k, v, s⟩ := f
  simp only at hs hbs hns hrs hrt
  have hcr : c = true → t.isRed = false := by
    intro hc
    cases ht2 : t.isRed with
    | false => rfl
    | true => simp [hrt ht2] at hc
  cases d with
  | left =>
    refine ⟨⟨hbt, hbs, by rw [ht, hs]⟩, ⟨hnt, hns, fun hc => ⟨hcr hc, hrs hc⟩⟩,
      ?_, rfl⟩
    simp [Tree.bh, ht, wt]
  | right =>
    refine ⟨⟨hbs, hbt, by rw [ht, hs]⟩, ⟨hns, hnt, fun hc => ⟨hrs hc, hcr hc⟩⟩,
      ?_, rfl⟩
    simp [Tree.bh, hs, wt]

/-- plugging an admissible subtree into a valid context yields a tree
with consistent black heights and no red-red violation. -/
theorem plug_ok :
    ∀ (fs : List (Frame K V)) (t : Tree K V) (n : Nat), CtxOk fs n →
      t.bh = n → Tree.BH t → Tree.noRR t →
      (t.isRed = true → hdBlack fs = true) →
      Tree.BH (plug t fs) ∧ Tree.noRR (plug t fs)
  | [], t, n, _, _, hbt, hnt, _ => ⟨hbt, hnt⟩
  | f :: fs, t, n, hc, ht, hbt, hnt, hr => by
    obtain ⟨hs, hbs, hns, hred, hrest⟩ := hc
    have hrt : t.isRed = true → f.color = false := by
      intro h2
      have := hr h2
      simp [hdBlack] at this
      exact this
    obtain ⟨h1, h2, h3, h4⟩ :=
      rebuild_ok hs hbs hns (fun hc2 => (hred hc2).1) ht hbt hnt hrt
    refine plug_ok fs (rebuild f t) (n + wt f.color) hrest h3 h1 h2 ?_
    intro h5
    rw [h4] at h5
    exact (hred h5).2

/-! ### insert_fix: order preservation and red-black restoration -/

/-- the outermost frame (the root of the whole tree) is black. -/
def TopB : List (Frame K V) → Prop
  | [] => True
  | [f] => f.color = false
  | _ :: fs => TopB fs

theorem TopB_tail {f : Frame K V} {fs : List (Frame K V)} (h : TopB (f :: fs)) :
    TopB fs := by
  cases fs with
  | nil => trivial
  | cons g gs => exact h

@[simp] theorem hdBlack_nil : hdBlack ([] : List (Frame K V)) = true := rfl

@[simp] theorem hdBlack_cons (f : Frame K V) (fs : List (Frame K V)) :
    hdBlack (f :: fs) = !f.color := rfl

theorem rebuild_bh {f : Frame K V} {t : Tree K V} {n : Nat}
    (hs : f.sibling.bh = n) (ht : t.bh = n) :
    (rebuild f t).bh = n + wt f.color := by
  obtain ⟨d, c, k, v, s⟩ := f
  cases d <;> simp_all [Tree.bh, wt, rebuild]

theorem rebuild_BH {f : Frame K V} {t : Tree K V} {n : Nat}
    (hs : f.sibling.bh = n) (ht : t.bh = n)
    (hbs : Tree.BH f.sibling) (hbt : Tree.BH t) :
    Tree.BH (rebuild f t) := by
  obtain ⟨d, c, k, v, s⟩ := f
  simp only at hs hbs
  cases d <;> exact ⟨by assumption, by assumption, by rw [ht, hs]⟩

theorem rebuild_almost {f : Frame K V} {t : Tree K V}
    (hns : Tree.noRR f.sibling) (hnt : Tree.noRR t) :
    Tree.AlmostNoRR (rebuild f t) := by
  obtain ⟨d, c, k, v, s⟩ := f
  cases d <;> exact ⟨by assumption, by assumption⟩

theorem insert_fix_loop_inorder (z : Tree K V) (fs : List (Frame K V)) :
    (insert_fix_loop z fs).inorder = (plug z fs).inorder := by
  induction z, fs using insert_fix_loop.induct with
  | case1 t => rfl
  | case2 t f fs hf => rw [insert_fix_loop.eq_def]; simp [hf]
  | case3 t f hf =>
    have hc : f.color = true := by simpa using hf
    rw [insert_fix_loop.eq_def]
    simp [hc]
  | case4 t f hf f2 rest2 p_sub hdir hred ih =>
    have hc : f.color = true := by simpa using hf
    rw [insert_fix_loop.eq_def]
    simp only [hc, hdir, hred]
    simp only [Bool.true_eq_false, if_false, eq_self_iff_true, if_true]
    rw [ih]
    refine plug_inorder_congr rest2 ?_
    obtain ⟨d2, c2, k2, v2, s2⟩ := f2
    simp only at hdir
    subst hdir
    simp only [rebuild, Tree.inorder_node, Tree.inorder_paint]
    rfl
  | case5 t f hf f2 rest2 hdir hred =>
    have hc : f.color = true := by simpa using hf
    have hu : f2.sibling.isRed = false := by simpa using hred
    rw [insert_fix_loop.eq_def]
    simp only [hc, hdir, hu]
    simp only [Bool.true_eq_false, Bool.false_eq_true, if_false]
    refine plug_inorder_congr rest2 ?_
    obtain ⟨d2, c2, k2, v2, s2⟩ := f2
    simp only at hdir
    subst hdir
    simp only [rebuild]
    split <;> simp
  | case6 t f hf f2 rest2 p_sub hdir hred ih =>
    have hc : f.color = true := by simpa using hf
    rw [insert_fix_loop.eq_def]
    simp only [hc, hdir, hred]
    simp only [Bool.true_eq_false, if_false, eq_self_iff_true, if_true]
    rw [ih]
    refine plug_inorder_congr rest2 ?_
    obtain ⟨d2, c2, k2, v2, s2⟩ := f2
    simp only at hdir
    subst hdir
    simp only [rebuild, Tree.inorder_node, Tree.inorder_paint]
    rfl
  | case7 t f hf f2 rest2 hdir hred =>
    have hc : f.color = true := by simpa using hf
    have hu : f2.sibling.isRed = false := by simpa using hred
    rw [insert_fix_loop.eq_def]
    simp only [hc, hdir, hu]
    simp only [Bool.true_eq_false, Bool.false_eq_true, if_false]
    refine plug_inorder_congr rest2 ?_
    obtain ⟨d2, c2, k2, v2, s2⟩ := f2
    simp only at hdir
    subst hdir
    simp only [rebuild]
    split <;> simp

theorem insert_fix_inorder (z : Tree K V) (fs : List (Frame K V)) :
    (insert_fix z fs).inorder = (plug z fs).inorder := by
  unfold insert_fix
  rw [Tree.inorder_paint, insert_fix_loop_inorder]

theorem rebuild_isRed (f : Frame K V) (t : Tree K V) :
    (rebuild f t).isRed = f.color := by
  obtain ⟨d, c, k, v, s⟩ := f
  cases d <;> rfl

/-- the invariant of the insert_fix loop: z is red, internally valid,
its context is valid and the root frame is black; the loop then
restores consistency and red-red freedom everywhere. -/
theorem insert_fix_loop_ok :
    ∀ (z : Tree K V) (fs : List (Frame K V)),
      z.isRed = true → Tree.BH z → Tree.noRR z → CtxOk fs z.bh → TopB fs →
      Tree.BH (insert_fix_loop z fs) ∧ Tree.noRR (insert_fix_loop z fs) := by
  intro z fs
  induction z, fs using insert_fix_loop.induct with
  | case1 t =>
    intro hz hbz hnz hctx htop
    exact ⟨hbz, hnz⟩
  | case2 t f fs hf =>
    intro hz hbz hnz hctx htop
    rw [insert_fix_loop.eq_def]
    simp only [hf, eq_self_iff_true, if_true]
    exact plug_ok (f :: fs) t t.bh hctx rfl hbz hnz
      (fun _ => by simp [hf])
  | case3 t f hf =>
    intro hz hbz hnz hctx htop
    exact absurd htop hf
  | case4 t f hf f2 rest2 p_sub hdir hred ih =>
    intro hz hbz hnz hctx htop
    have hc : f.color = true := by simpa using hf
    obtain ⟨hs1, hbs1, hns1, hred1, hrest1⟩ := hctx
    obtain ⟨hsb1, hhd⟩ := hred1 hc
    have hc2 : f2.color = false := by simpa using hhd
    rw [hc] at hrest1
    simp only [wt, if_true, Nat.add_zero] at hrest1
    obtain ⟨hs2, hbs2, hns2, hred2, hrest2⟩ := hrest1
    rw [hc2] at hrest2
    simp only [wt, if_false, Bool.false_eq_true] at hrest2
    -- the rebuilt z for the recursive call
    have hpr : (rebuild f t).isRed = f.color := rebuild_isRed f t
    have hpb : (rebuild f t).bh = t.bh := by
      have := rebuild_bh hs1 (rfl : t.bh = t.bh)
      rw [hc] at this
      simpa [wt] using this
    have hpaintb : ((rebuild f t).paint false).bh = t.bh + 1 := by
      rw [Tree.bh_paint_false, hpr, hc, hpb]
      simp
    have hub : (f2.sibling.paint false).bh = t.bh + 1 := by
      rw [Tree.bh_paint_false, hred, hs2]
      simp
    have hz' :
        (Tree.node true ((rebuild f t).paint false) f2.key f2.val
          (f2.sibling.paint false)).bh = t.bh + 1 := by
      simp [Tree.bh, hpaintb]
    have hres := ih rfl
      ⟨Tree.BH_paint false (rebuild_BH hs1 rfl hbs1 hbz),
       Tree.BH_paint false hbs2, by rw [hpaintb, hub]⟩
      ⟨Tree.noRR_paint_false (rebuild_almost hns1 hnz),
       Tree.noRR_paint_false (Tree.noRR_almost hns2),
       fun _ => ⟨Tree.isRed_paint_false _, Tree.isRed_paint_false _⟩⟩
      (by rw [hz']; exact hrest2)
      (TopB_tail (TopB_tail htop))
    rw [insert_fix_loop.eq_def]
    simp only [hc, hdir, hred]
    simp only [Bool.true_eq_false, if_false, eq_self_iff_true, if_true]
    exact hres
  | case5 t f hf f2 rest2 hdir hred =>
    intro hz hbz hnz hctx htop
    have hc : f.color = true := by simpa using hf
    have hu : f2.sibling.isRed = false := by simpa using hred
    obtain ⟨hs1, hbs1, hns1, hred1, hrest1⟩ := hctx
    obtain ⟨hsb1, hhd⟩ := hred1 hc
    have hc2 : f2.color = false := by simpa using hhd
    rw [hc] at hrest1
    simp only [wt, if_true, Nat.add_zero] at hrest1
    obtain ⟨hs2, hbs2, hns2, hred2, hrest2⟩ := hrest1
    rw [hc2] at hrest2
    simp only [wt, if_false, Bool.false_eq_true] at hrest2
    rw [insert_fix_loop.eq_def]
    simp only [hc, hdir, hu]
    simp only [Bool.true_eq_false, Bool.false_eq_true, if_false]
    obtain ⟨fd, fc, fk, fv, fsib⟩ := f
    simp only at hc hs1 hbs1 hns1 hsb1
    subst hc
    cases fd with
    | left =>
      simp only [rebuild, if_neg (by decide : ¬Dir.left = Dir.right),
        Tree.paint_node, right_rotate]
      refine plug_ok rest2 _ (t.bh + 1) hrest2 ?_ ?_ ?_ ?_
      · simp [Tree.bh]
      · exact ⟨hbz, ⟨hbs1, hbs2, by rw [hs1, hs2]⟩,
          by simp [Tree.bh, hs1]⟩
      · exact ⟨hnz, ⟨hns1, hns2, fun _ => ⟨hsb1, hu⟩⟩, by simp⟩
      · intro h
        simp [Tree.isRed] at h
    | right =>
      obtain ⟨zl, zk, zv, zr, rfl⟩ := Tree.isRed_node_inv hz
      obtain ⟨hbzl, hbzr, hzlr⟩ := hbz
      obtain ⟨hnzl, hnzr, hrr⟩ := hnz
      obtain ⟨hrl, hrr2⟩ := hrr rfl
      have hs1' : fsib.bh = zl.bh := by simpa using hs1
      have hs2' : f2.sibling.bh = zl.bh := by simpa using hs2
      have hrest2' : CtxOk rest2 (zl.bh + 1) := by simpa using hrest2
      simp only [rebuild, eq_self_iff_true, if_true, Tree.paint_node,
        left_rotate, right_rotate]
      refine plug_ok rest2 _ (zl.bh + 1) hrest2' ?_ ?_ ?_ ?_
      · simp only [Tree.bh_node_red, Tree.bh_node_black]
        omega
      · refine ⟨⟨hbs1, hbzl, hs1'⟩, ⟨hbzr, hbs2, by omega⟩, ?_⟩
        simp only [Tree.bh_node_red]
        omega
      · exact ⟨⟨hns1, hnzl, fun _ => ⟨hsb1, hrl⟩⟩,
          ⟨hnzr, hns2, fun _ => ⟨hrr2, hu⟩⟩, by simp⟩
      · intro h
        simp [Tree.isRed] at h
  | case6 t f hf f2 rest2 p_sub hdir hred ih =>
    intro hz hbz hnz hctx htop
    have hc : f.color = true := by simpa using hf
    obtain ⟨hs1, hbs1, hns1, hred1, hrest1⟩ := hctx
    obtain ⟨hsb1, hhd⟩ := hred1 hc
    have hc2 : f2.color = false := by simpa using hhd
    rw [hc] at hrest1
    simp only [wt, if_true, Nat.add_zero] at hrest1
    obtain ⟨hs2, hbs2, hns2, hred2, hrest2⟩ := hrest1
    rw [hc2] at hrest2
    simp only [wt, if_false, Bool.false_eq_true] at hrest2
    have hpr : (rebuild f t).isRed = f.color := rebuild_isRed f t
    have hpb : (rebuild f t).bh = t.bh := by
      have := rebuild_bh hs1 (rfl : t.bh = t.bh)
      rw [hc] at this
      simpa [wt] using this
    have hpaintb : ((rebuild f t).paint false).bh = t.bh + 1 := by
      rw [Tree.bh_paint_false, hpr, hc, hpb]
      simp
    have hub : (f2.sibling.paint false).bh = t.bh + 1 := by
      rw [Tree.bh_paint_false, hred, hs2]
      simp
    have hz' :
        (Tree.node true (f2.sibling.paint false) f2.key f2.val
          ((rebuild f t).paint false)).bh = t.bh + 1 := by
      simp [Tree.bh, hub]
    have hres := ih rfl
      ⟨Tree.BH_paint false hbs2,
       Tree.BH_paint false (rebuild_BH hs1 rfl hbs1 hbz), by rw [hpaintb, hub]⟩
      ⟨Tree.noRR_paint_false (Tree.noRR_almost hns2),
       Tree.noRR_paint_false (rebuild_almost hns1 hnz),
       fun _ => ⟨Tree.isRed_paint_false _, Tree.isRed_paint_false _⟩⟩
      (by rw [hz']; exact hrest2)
      (TopB_tail (TopB_tail htop))
    rw [insert_fix_loop.eq_def]
    simp only [hc, hdir, hred]
    simp only [Bool.true_eq_false, if_false, eq_self_iff_true, if_true]
    exact hres
  | case7 t f hf f2 rest2 hdir hred =>
    intro hz hbz hnz hctx htop
    have hc : f.color = true := by simpa using hf
    have hu : f2.sibling.isRed = false := by simpa using hred
    obtain ⟨hs1, hbs1, hns1, hred1, hrest1⟩ := hctx
    obtain ⟨hsb1, hhd⟩ := hred1 hc
    have hc2 : f2.color = false := by simpa using hhd
    rw [hc] at hrest1
    simp only [wt, if_true, Nat.add_zero] at hrest1
    obtain ⟨hs2, hbs2, hns2, hred2, hrest2⟩ := hrest1
    rw [hc2] at hrest2
    simp only [wt, if_false, Bool.false_eq_true] at hrest2
    rw [insert_fix_loop.eq_def]
    simp only [hc, hdir, hu]
    simp only [Bool.true_eq_false, Bool.false_eq_true, if_false]
    obtain ⟨fd, fc, fk, fv, fsib⟩ := f
    simp only at hc hs1 hbs1 hns1 hsb1
    subst hc
    cases fd with
    | right =>
      simp only [rebuild, if_neg (by decide : ¬Dir.right = Dir.left),
        Tree.paint_node, left_rotate]
      refine plug_ok rest2 _ (t.bh + 1) hrest2 ?_ ?_ ?_ ?_
      · simp only [Tree.bh_node_red, Tree.bh_node_black]
        omega
      · exact ⟨⟨hbs2, hbs1, by omega⟩, hbz,
          by simp only [Tree.bh_node_red]; omega⟩
      · exact ⟨⟨hns2, hns1, fun _ => ⟨hu, hsb1⟩⟩, hnz, by simp⟩
      · intro h
        simp [Tree.isRed] at h
    | left =>
      obtain ⟨zl, zk, zv, zr, rfl⟩ := Tree.isRed_node_inv hz
      obtain ⟨hbzl, hbzr, hzlr⟩ := hbz
      obtain ⟨hnzl, hnzr, hrr⟩ := hnz
      obtain ⟨hrl, hrr2⟩ := hrr rfl
      have hs1' : fsib.bh = zl.bh := by simpa using hs1
      have hs2' : f2.sibling.bh = zl.bh := by simpa using hs2
      have hrest2' : CtxOk rest2 (zl.bh + 1) := by simpa using hrest2
      simp only [rebuild, eq_self_iff_true, if_true, Tree.paint_node,
        right_rotate, left_rotate]
      refine plug_ok rest2 _ (zl.bh + 1) hrest2' ?_ ?_ ?_ ?_
      · simp only [Tree.bh_node_red, Tree.bh_node_black]
        omega
      · refine ⟨⟨hbs2, hbzl, by omega⟩, ⟨hbzr, hbs1, by omega⟩, ?_⟩
        simp only [Tree.bh_node_red]
        omega
      · exact ⟨⟨hns2, hnzl, fun _ => ⟨hu, hrl⟩⟩,
          ⟨hnzr, hns1, fun _ => ⟨hrr2, hsb1⟩⟩, by simp⟩
      · intro h
        simp [Tree.isRed] at h

/-- insert_fix restores the full red-black invariant. -/
theorem insert_fix_ok (z : Tree K V) (fs : List (Frame K V))
    (hz : z.isRed = true) (hbz : Tree.BH z) (hnz : Tree.noRR z)
    (hctx : CtxOk fs z.bh) (htop : TopB fs) :
    Tree.RB (insert_fix z fs) := by
  obtain ⟨hb, hn⟩ := insert_fix_loop_ok z fs hz hbz hnz hctx htop
  exact ⟨Tree.isRed_paint_false _,
    Tree.noRR_paint_false (Tree.noRR_almost hn), Tree.BH_paint false hb⟩

/-! ### The search-tree order seen by the descents -/

/-- every key of the subtree satisfies P. -/
def AllK (P : K → Prop) : Tree K V → Prop
  | Tree.nil => True
  | Tree.node _ l k _ r => AllK P l ∧ P k ∧ AllK P r

theorem AllK_iff_mem (P : K → Prop) :
    ∀ t : Tree K V, AllK P t ↔ ∀ e ∈ t.inorder, P e.1 := by
  intro t
  induction t with
  | nil => simp [AllK]
  | node c l k v r ihl ihr =>
    simp only [AllK, ihl, ihr, Tree.inorder_node]
    constructor
    · rintro ⟨h1, h2, h3⟩ e he
      rcases List.mem_append.1 he with h | h
      · exact h1 e h
      · rcases List.mem_cons.1 h with h | h
        · rw [h]; exact h2
        · exact h3 e h
    · intro h
      exact ⟨fun e he => h e (by simp [he]),
        h (k, v) (by simp),
        fun e he => h e (by simp [he])⟩

/-- the binary-search-tree ordering the descents rely on. -/
def BST (cmp : K → K → Bool) : Tree K V → Prop
  | Tree.nil => True
  | Tree.node _ l k _ r =>
      AllK (fun a => cmp a k = true) l ∧ AllK (fun a => cmp k a = true) r ∧
        BST cmp l ∧ BST cmp r

/-- a strictly sorted in-order sequence makes the tree a search
tree. -/
theorem BST_of_sorted {cmp : K → K → Bool} :
    ∀ t : Tree K V, sortedLt cmp t.inorder → BST cmp t := by
  intro t
  induction t with
  | nil => intro _; trivial
  | node c l k v r ihl ihr =>
    intro h
    unfold sortedLt at h
    rw [Tree.inorder_node, List.pairwise_append] at h
    obtain ⟨hl, hcons, hcross⟩ := h
    rw [List.pairwise_cons] at hcons
    obtain ⟨hkr, hr⟩ := hcons
    refine ⟨?_, ?_, ihl hl, ihr hr⟩
    · rw [AllK_iff_mem]
      intro e he
      exact hcross e he (k, v) (by simp)
    · rw [AllK_iff_mem]
      intro e he
      exact hkr e he

theorem subtreeAt_append (t : Tree K V) (p q : List Dir) :
    Tree.subtreeAt t (p ++ q) =
      (Tree.subtreeAt t p).bind (fun s => Tree.subtreeAt s q) := by
  induction p generalizing t with
  | nil => simp [Tree.subtreeAt]
  | cons d p ih =>
    cases t with
    | nil => simp [Tree.subtreeAt]
    | node c l k v r => cases d <;> simp [Tree.subtreeAt, ih]

@[simp] theorem pathOfFrames_nil : pathOfFrames ([] : List (Frame K V)) = [] :=
  rfl

theorem pathOfFrames_cons (f : Frame K V) (fs : List (Frame K V)) :
    pathOfFrames (f :: fs) = pathOfFrames fs ++ [f.dir] := by
  simp [pathOfFrames]

/-- the path of the frame stack leads from the rebuilt tree back to the
focus: a node pointer and its path denote the same node. -/
theorem subtreeAt_plug (z : Tree K V) :
    ∀ fs : List (Frame K V),
      Tree.subtreeAt (plug z fs) (pathOfFrames fs) = some z := by
  intro fs
  induction fs generalizing z with
  | nil => simp [pathOfFrames, Tree.subtreeAt]
  | cons f fs ih =>
    rw [plug_cons, pathOfFrames_cons, subtreeAt_append, ih]
    obtain ⟨d, c, k, v, s⟩ := f
    cases d <;> simp [rebuild, Tree.subtreeAt]

/-! ### The shared insertion descent -/

theorem descend_inl_plug {cmp : K → K → Bool} (k : K) :
    ∀ (t : Tree K V) (acc ctx : List (Frame K V)),
      descend cmp k t acc = Sum.inl ctx →
      ∃ fs, ctx = fs ++ acc ∧ plug Tree.nil fs = t := by
  intro t
  induction t with
  | nil =>
    intro acc ctx h
    rw [descend] at h
    exact ⟨[], by simpa using h.symm, rfl⟩
  | node c l k2 v2 r ihl ihr =>
    intro acc ctx h
    rw [descend] at h
    by_cases h1 : cmp k k2
    · rw [if_pos h1] at h
      obtain ⟨fs, hctx, hplug⟩ := ihl _ _ h
      refine ⟨fs ++ [⟨Dir.left, c, k2, v2, r⟩], by simp [hctx], ?_⟩
      rw [plug_append, hplug]
      rfl
    · rw [if_neg h1] at h
      by_cases h2 : cmp k2 k
      · rw [if_pos h2] at h
        obtain ⟨fs, hctx, hplug⟩ := ihr _ _ h
        refine ⟨fs ++ [⟨Dir.right, c, k2, v2, l⟩], by simp [hctx], ?_⟩
        rw [plug_append, hplug]
        rfl
      · rw [if_neg h2] at h
        exact absurd h (by simp)

theorem descend_inl_ctxOk {cmp : K → K → Bool} (k : K) :
    ∀ (t : Tree K V) (acc ctx : List (Frame K V)),
      descend cmp k t acc = Sum.inl ctx →
      Tree.noRR t → Tree.BH t → CtxOk acc t.bh →
      (t.isRed = true → hdBlack acc = true) →
      CtxOk ctx 0 := by
  intro t
  induction t with
  | nil =>
    intro acc ctx h _ _ hctx _
    rw [descend] at h
    simp at h
    rw [← h]
    simpa using hctx
  | node c l k2 v2 r ihl ihr =>
    intro acc ctx h hn hb hctx hred
    obtain ⟨hnl, hnr, hcc⟩ := hn
    obtain ⟨hbl, hbr, hlr⟩ := hb
    rw [descend] at h
    by_cases h1 : cmp k k2
    · rw [if_pos h1] at h
      refine ihl _ _ h hnl hbl ⟨hlr.symm, hbr, hnr, ?_, ?_⟩ ?_
      · intro hc
        exact ⟨(hcc hc).2, hred hc⟩
      · have : l.bh + wt c = (Tree.node c l k2 v2 r).bh := by
          cases c <;> simp [wt]
        rw [this]
        exact hctx
      · intro hlred
        cases hc : c with
        | false => simp
        | true => simp [(hcc hc).1] at hlred
    · rw [if_neg h1] at h
      by_cases h2 : cmp k2 k
      · rw [if_pos h2] at h
        refine ihr _ _ h hnr hbr ⟨?_, hbl, hnl, ?_, ?_⟩ ?_
        · exact hlr
        · intro hc
          exact ⟨(hcc hc).1, hred hc⟩
        · have : r.bh + wt c = (Tree.node c l k2 v2 r).bh := by
            cases c <;> simp [wt, hlr]
          rw [this]
          exact hctx
        · intro hrred
          cases hc : c with
          | false => simp
          | true => simp [(hcc hc).2] at hrred
      · rw [if_neg h2] at h
        exact absurd h (by simp)

theorem descend_inl_topB {cmp : K → K → Bool} (k : K) :
    ∀ (t : Tree K V) (acc ctx : List (Frame K V)),
      descend cmp k t acc = Sum.inl ctx →
      TopB acc → (acc = [] → t.isRed = false) →
      TopB ctx := by
  intro t
  induction t with
  | nil =>
    intro acc ctx h htop _
    rw [descend] at h
    simp at h
    rw [← h]
    exact htop
  | node c l k2 v2 r ihl ihr =>
    intro acc ctx h htop hroot
    rw [descend] at h
    have hnewtop : ∀ d s, TopB ((⟨d, c, k2, v2, s⟩ : Frame K V) :: acc) := by
      intro d s
      cases acc with
      | nil => simpa [TopB] using hroot rfl
      | cons g gs => exact htop
    by_cases h1 : cmp k k2
    · rw [if_pos h1] at h
      exact ihl _ _ h (hnewtop Dir.left r) (by simp)
    · rw [if_neg h1] at h
      by_cases h2 : cmp k2 k
      · rw [if_pos h2] at h
        exact ihr _ _ h (hnewtop Dir.right l) (by simp)
      · rw [if_neg h2] at h
        exact absurd h (by simp)

theorem ctxL_append (a b : List (Frame K V)) :
    ctxL (a ++ b) = ctxL b ++ ctxL a := by
  induction a with
  | nil => simp [ctxL]
  | cons f fs ih =>
    obtain ⟨d, c, k, v, s⟩ := f
    cases d <;> simp [ctxL, ih]

theorem ctxR_append (a b : List (Frame K V)) :
    ctxR (a ++ b) = ctxR a ++ ctxR b := by
  induction a with
  | nil => simp [ctxR]
  | cons f fs ih =>
    obtain ⟨d, c, k, v, s⟩ := f
    cases d <;> simp [ctxR, ih]

/-- every key passed on the way down is on the correct side of the
searched key. -/
theorem descend_inl_bounds {cmp : K → K → Bool} (k : K)
    (htr : ∀ a b c, cmp a b = true → cmp b c = true → cmp a c = true) :
    ∀ (t : Tree K V) (acc ctx : List (Frame K V)),
      descend cmp k t acc = Sum.inl ctx →
      BST cmp t →
      (∀ e ∈ ctxL acc, cmp e.1 k = true) →
      (∀ e ∈ ctxR acc, cmp k e.1 = true) →
      (∀ e ∈ ctxL ctx, cmp e.1 k = true) ∧
        (∀ e ∈ ctxR ctx, cmp k e.1 = true) := by
  intro t
  induction t with
  | nil =>
    intro acc ctx h _ hL hR
    rw [descend] at h
    simp at h
    rw [← h]
    exact ⟨hL, hR⟩
  | node c l k2 v2 r ihl ihr =>
    intro acc ctx h hbst hL hR
    obtain ⟨hal, har, hbl, hbr⟩ := hbst
    rw [descend] at h
    by_cases h1 : cmp k k2
    · rw [if_pos h1] at h
      refine ihl _ _ h hbl (by simpa [ctxL] using hL) ?_
      intro e he
      simp only [ctxR] at he
      rcases List.mem_cons.1 he with rfl | he2
      · exact h1
      · rcases List.mem_append.1 he2 with he3 | he3
        · have := (AllK_iff_mem _ r).1 har e he3
          exact htr _ _ _ h1 this
        · exact hR e he3
    · rw [if_neg h1] at h
      by_cases h2 : cmp k2 k
      · rw [if_pos h2] at h
        refine ihr _ _ h hbr ?_ (by simpa [ctxR] using hR)
        intro e he
        simp only [ctxL] at he
        rcases List.mem_append.1 he with he2 | he2
        · rcases List.mem_append.1 he2 with he3 | he3
          · exact hL e he3
          · have := (AllK_iff_mem _ l).1 hal e he3
            exact htr _ _ _ this h2
        · have he3 : e = (k2, v2) := by simpa using he2
          rw [he3]
          exact h2
      · rw [if_neg h2] at h
        exact absurd h (by simp)

/-- a successful equality stop of the descent: the met node carries an
equivalent key and sits at the hole of the collected frames. -/
theorem descend_inr_spec {cmp : K → K → Bool} (k : K) :
    ∀ (t : Tree K V) (acc ctx : List (Frame K V)) (k2 : K) (v2 : V),
      descend cmp k t acc = Sum.inr (ctx, k2, v2) →
      ∃ fs c2 l2 r2, ctx = fs ++ acc ∧
        plug (Tree.node c2 l2 k2 v2 r2) fs = t ∧
        cmp k k2 = false ∧ cmp k2 k = false := by
  intro t
  induction t with
  | nil =>
    intro acc ctx k2 v2 h
    rw [descend] at h
    exact absurd h (by simp)
  | node c l k0 v0 r ihl ihr =>
    intro acc ctx k2 v2 h
    rw [descend] at h
    by_cases h1 : cmp k k0
    · rw [if_pos h1] at h
      obtain ⟨fs, c2, l2, r2, hctx, hplug, e1, e2⟩ := ihl _ _ _ _ h
      refine ⟨fs ++ [⟨Dir.left, c, k0, v0, r⟩], c2, l2, r2, by simp [hctx],
        ?_, e1, e2⟩
      rw [plug_append, hplug]
      rfl
    · rw [if_neg h1] at h
      by_cases h2 : cmp k0 k
      · rw [if_pos h2] at h
        obtain ⟨fs, c2, l2, r2, hctx, hplug, e1, e2⟩ := ihr _ _ _ _ h
        refine ⟨fs ++ [⟨Dir.right, c, k0, v0, l⟩], c2, l2, r2, by simp [hctx],
          ?_, e1, e2⟩
        rw [plug_append, hplug]
        rfl
      · rw [if_neg h2] at h
        simp at h
        obtain ⟨ha, hk, hv3⟩ := h
        refine ⟨[], c, l, r, by simp [ha], ?_, ?_, ?_⟩
        · rw [← hk, ← hv3]
          rfl
        · rw [← hk]
          simpa using h1
        · rw [← hk]
          simpa using h2

/-- inserting a fresh middle element between correctly bounded halves
keeps the list pairwise sorted. -/
theorem pairwise_insert_mid {R : (K × V) → (K × V) → Prop}
    {L Rr : List (K × V)} {x : K × V}
    (h : List.Pairwise R (L ++ Rr))
    (hL : ∀ a ∈ L, R a x) (hR : ∀ b ∈ Rr, R x b) :
    List.Pairwise R (L ++ x :: Rr) := by
  rw [List.pairwise_append] at h
  obtain ⟨h1, h2, h3⟩ := h
  rw [List.pairwise_append]
  refine ⟨h1, List.Pairwise.cons hR h2, ?_⟩
  intro a ha b hb
  rcases List.mem_cons.1 hb with rfl | hb2
  · exact hL a ha
  · exact h3 a ha b hb2

/-- the common core of insert and operator[] on a missing key: the
freshly built tree is a red-black search tree whose in-order sequence
gains exactly the new entry at its sorted position, and whose entry
count grew by one. -/
theorem insert_fresh_props {cmp : K → K → Bool}
    (htr : ∀ a b c, cmp a b = true → cmp b c = true → cmp a c = true)
    (m : map K V) (k : K) (v : V) (ctx : List (Frame K V))
    (hv : Valid cmp m)
    (h : descend cmp k m.root [] = Sum.inl ctx) :
    Tree.RB (insert_fix (Tree.node true Tree.nil k v Tree.nil) ctx) ∧
    (insert_fix (Tree.node true Tree.nil k v Tree.nil) ctx).inorder =
      ctxL ctx ++ (k, v) :: ctxR ctx ∧
    m.root.inorder = ctxL ctx ++ ctxR ctx ∧
    sortedLt cmp
      (insert_fix (Tree.node true Tree.nil k v Tree.nil) ctx).inorder := by
  obtain ⟨⟨hrootred, hnr, hbh⟩, hsorted, hcount⟩ := hv
  obtain ⟨fs, hctx0, hplug⟩ := descend_inl_plug k m.root [] ctx h
  rw [List.append_nil] at hctx0
  subst hctx0
  have hold : m.root.inorder = ctxL ctx ++ ctxR ctx := by
    conv_lhs => rw [← hplug]
    simp [plug_inorder]
  have hrb : Tree.RB (insert_fix (Tree.node true Tree.nil k v Tree.nil) ctx) := by
    refine insert_fix_ok _ ctx rfl (by simp [Tree.BH]) (by simp [Tree.noRR]) ?_ ?_
    · have := descend_inl_ctxOk k m.root [] ctx h hnr hbh (by simp)
        (by intro _; rfl)
      simpa using this
    · exact descend_inl_topB k m.root [] ctx h trivial (fun _ => hrootred)
  have hin :
      (insert_fix (Tree.node true Tree.nil k v Tree.nil) ctx).inorder =
        ctxL ctx ++ (k, v) :: ctxR ctx := by
    rw [insert_fix_inorder, plug_inorder]
    simp
  refine ⟨hrb, hin, hold, ?_⟩
  rw [hin]
  obtain ⟨hbL, hbR⟩ := descend_inl_bounds k htr m.root [] ctx h
    (BST_of_sorted m.root hsorted) (by simp [ctxL]) (by simp [ctxR])
  refine pairwise_insert_mid ?_ (fun a ha => hbL a ha) (fun b hb => hbR b hb)
  rw [← hold]
  exact hsorted

/-- clone_subtree reproduces the source tree and adds its node count. -/
theorem clone_subtree_spec :
    ∀ (t : Tree K V) (n : Nat),
      (clone_subtree t n).1 = t ∧
        (clone_subtree t n).2 = n + t.inorder.length := by
  intro t
  induction t with
  | nil => intro n; simp [clone_subtree]
  | node c l k v r ihl ihr =>
    intro n
    simp only [clone_subtree]
    obtain ⟨hl1, hl2⟩ := ihl n
    obtain ⟨hr1, hr2⟩ := ihr (clone_subtree l n).2
    rw [hl1, hr1, hr2, hl2]
    simp
    omega

theorem insert_valid {cmp : K → K → Bool}
    (htr : ∀ a b c, cmp a b = true → cmp b c = true → cmp a c = true)
    (m : map K V) (k : K) (v : V) (hv : Valid cmp m) :
    Valid cmp (insert cmp m k v).1 := by
  rw [insert]
  rcases hd : descend cmp k m.root [] with ctx | ⟨ctx, k2, v2⟩
  · obtain ⟨hrb, hin, hold, hsorted⟩ := insert_fresh_props htr m k v ctx hv hd
    refine ⟨hrb, hsorted, ?_⟩
    simp only [hin, hold, List.length_append, List.length_cons]
    have := hv.2.2
    rw [hold] at this
    simp only [List.length_append] at this
    simp only [this]
    omega
  · exact hv

theorem op_index_valid {cmp : K → K → Bool}
    (htr : ∀ a b c, cmp a b = true → cmp b c = true → cmp a c = true)
    (m : map K V) (k : K) (dflt : V) (hv : Valid cmp m) :
    Valid cmp (op_index cmp dflt m k).1 := by
  rw [op_index]
  rcases hd : descend cmp k m.root [] with ctx | ⟨ctx, k2, v2⟩
  · obtain ⟨hrb, hin, hold, hsorted⟩ := insert_fresh_props htr m k dflt ctx hv hd
    refine ⟨hrb, hsorted, ?_⟩
    simp only [hin, hold, List.length_append, List.length_cons]
    have := hv.2.2
    rw [hold] at this
    simp only [List.length_append] at this
    simp only [this]
    omega
  · exact hv

theorem clearMap_valid {cmp : K → K → Bool} (m : map K V) :
    Valid cmp (clearMap m) := by
  exact ⟨⟨rfl, trivial, trivial⟩, List.Pairwise.nil, rfl⟩

/-! ### erase_fix: order preservation -/

theorem xIsLeft_cases {x : Tree K V} {f1 : Frame K V}
    (h : xIsLeft x f1 = true) :
    f1.dir = Dir.left ∨
      (f1.dir = Dir.right ∧ x = Tree.nil ∧ f1.sibling = Tree.nil) := by
  unfold xIsLeft at h
  cases hd : f1.dir with
  | left => exact Or.inl rfl
  | right =>
    rw [hd] at h
    simp at h
    exact Or.inr ⟨rfl, Tree.isNil_iff.1 h.1, Tree.isNil_iff.1 h.2⟩

theorem xIsLeft_dir_of_sibling {x : Tree K V} {f1 : Frame K V}
    (h : xIsLeft x f1 = true) (hs : f1.sibling.isNil = false) :
    f1.dir = Dir.left := by
  rcases xIsLeft_cases h with h1 | ⟨_, _, h3⟩
  · exact h1
  · rw [h3] at hs
    simp at hs

theorem not_xIsLeft_dir {x : Tree K V} {f1 : Frame K V}
    (h : xIsLeft x f1 = false) : f1.dir = Dir.right := by
  unfold xIsLeft at h
  cases hd : f1.dir with
  | left => rw [hd] at h; simp at h
  | right => rfl

theorem rebuild_inorder_xIsLeft {x : Tree K V} {f1 : Frame K V}
    (h : xIsLeft x f1 = true) :
    (rebuild f1 x).inorder =
      x.inorder ++ (f1.key, f1.val) :: f1.sibling.inorder := by
  rcases xIsLeft_cases h with h1 | ⟨h1, h2, h3⟩
  · obtain ⟨d, c, k, v, s⟩ := f1
    simp only at h1
    subst h1
    simp [rebuild]
  · obtain ⟨d, c, k, v, s⟩ := f1
    simp only at h1 h3
    subst h1
    subst h2
    subst h3
    simp [rebuild]

theorem rebuild_inorder_not_xIsLeft {x : Tree K V} {f1 : Frame K V}
    (h : xIsLeft x f1 = false) :
    (rebuild f1 x).inorder =
      f1.sibling.inorder ++ (f1.key, f1.val) :: x.inorder := by
  have hd := not_xIsLeft_dir h
  obtain ⟨d, c, k, v, s⟩ := f1
  simp only at hd
  subst hd
  simp [rebuild]

@[simp] theorem case2L_inorder (x : Tree K V) (f1 : Frame K V) :
    (case2L x f1).inorder =
      x.inorder ++ (f1.key, f1.val) :: f1.sibling.inorder := by
  simp [case2L]

@[simp] theorem case2R_inorder (x : Tree K V) (f1 : Frame K V) :
    (case2R x f1).inorder =
      f1.sibling.inorder ++ (f1.key, f1.val) :: x.inorder := by
  simp [case2R]

@[simp] theorem case3L_inorder (w : Tree K V) :
    (case3L w).inorder = w.inorder := by
  unfold case3L
  split <;> simp

@[simp] theorem case3R_inorder (w : Tree K V) :
    (case3R w).inorder = w.inorder := by
  unfold case3R
  split <;> simp

theorem case4L_inorder (x : Tree K V) (f1 : Frame K V) (w : Tree K V)
    (rest : List (Frame K V)) :
    (case4L x f1 w rest).inorder =
      ctxL rest ++ (x.inorder ++ (f1.key, f1.val) :: w.inorder) ++
        ctxR rest := by
  cases w <;> simp [case4L, plug_inorder]

theorem case4R_inorder (x : Tree K V) (f1 : Frame K V) (w : Tree K V)
    (rest : List (Frame K V)) :
    (case4R x f1 w rest).inorder =
      ctxL rest ++ (w.inorder ++ (f1.key, f1.val) :: x.inorder) ++
        ctxR rest := by
  cases w <;> simp [case4R, plug_inorder]

theorem eraseStepL_inl_inorder {x : Tree K V} {f1 : Frame K V}
    {rest : List (Frame K V)} {y : Tree K V}
    (h : eraseStepL x f1 rest = Sum.inl y) :
    y.inorder = x.inorder ++ (f1.key, f1.val) :: f1.sibling.inorder := by
  unfold eraseStepL at h
  dsimp only at h
  split at h
  · rw [← Sum.inl.inj h]
    simp
  · split at h <;> exact absurd h (by simp)

theorem eraseStepL_inr_inorder {x : Tree K V} {f1 : Frame K V}
    {rest : List (Frame K V)} {t : Tree K V}
    (h : eraseStepL x f1 rest = Sum.inr t) :
    t.inorder =
      ctxL rest ++ (x.inorder ++ (f1.key, f1.val) :: f1.sibling.inorder) ++
        ctxR rest := by
  unfold eraseStepL at h
  dsimp only at h
  split at h
  · exact absurd h (by simp)
  · split at h <;>
      (rw [← Sum.inr.inj h, case4L_inorder]; try simp)

theorem eraseStepR_inl_inorder {x : Tree K V} {f1 : Frame K V}
    {rest : List (Frame K V)} {y : Tree K V}
    (h : eraseStepR x f1 rest = Sum.inl y) :
    y.inorder = f1.sibling.inorder ++ (f1.key, f1.val) :: x.inorder := by
  unfold eraseStepR at h
  dsimp only at h
  split at h
  · rw [← Sum.inl.inj h]
    simp
  · split at h <;> exact absurd h (by simp)

theorem eraseStepR_inr_inorder {x : Tree K V} {f1 : Frame K V}
    {rest : List (Frame K V)} {t : Tree K V}
    (h : eraseStepR x f1 rest = Sum.inr t) :
    t.inorder =
      ctxL rest ++ (f1.sibling.inorder ++ (f1.key, f1.val) :: x.inorder) ++
        ctxR rest := by
  unfold eraseStepR at h
  dsimp only at h
  split at h
  · exact absurd h (by simp)
  · split at h <;>
      (rw [← Sum.inr.inj h, case4R_inorder]; try simp)

theorem plug_step_eqL {x : Tree K V} {f1 : Frame K V}
    (hxl : xIsLeft x f1 = true) (rest : List (Frame K V)) :
    ctxL rest ++ (x.inorder ++ (f1.key, f1.val) :: f1.sibling.inorder) ++
        ctxR rest = (plug x (f1 :: rest)).inorder := by
  rw [plug_cons, plug_inorder, rebuild_inorder_xIsLeft hxl]

theorem plug_step_eqR {x : Tree K V} {f1 : Frame K V}
    (hxl : xIsLeft x f1 = false) (rest : List (Frame K V)) :
    ctxL rest ++ (f1.sibling.inorder ++ (f1.key, f1.val) :: x.inorder) ++
        ctxR rest = (plug x (f1 :: rest)).inorder := by
  rw [plug_cons, plug_inorder, rebuild_inorder_not_xIsLeft hxl]

theorem erase_fix_loop_inorder :
    ∀ (fuel : Nat) (x : Tree K V) (fs : List (Frame K V)),
      (erase_fix_loop fuel x fs).inorder = (plug x fs).inorder := by
  intro fuel
  induction fuel with
  | zero => intro x fs; rfl
  | succ fuel ih =>
    intro x fs
    cases fs with
    | nil => simp [erase_fix_loop]
    | cons f1 rest =>
      rw [erase_fix_loop]
      by_cases hred : x.isRed = true
      · rw [if_pos hred]
        exact plug_inorder_congr _ (by simp)
      · rw [if_neg hred]
        by_cases hxl : xIsLeft x f1 = true
        · rw [if_pos hxl]
          rcases hsib : f1.sibling with _ | ⟨wc, wl, wk, wv, wr⟩
          · rcases hstep : eraseStepL x f1 rest with y | t
            · simp only [hstep]
              rw [ih, plug_inorder, eraseStepL_inl_inorder hstep,
                ← plug_step_eqL hxl rest]
            · simp only [hstep]
              rw [eraseStepL_inr_inorder hstep, ← plug_step_eqL hxl rest]
          · cases wc with
            | true =>
              rcases hstep : eraseStepL x
                  ⟨Dir.left, true, f1.key, f1.val, wl⟩
                  (⟨Dir.left, false, wk, wv, wr⟩ :: rest) with y | t
              · simp only [hstep]
                rw [ih, plug_cons]
                simp only [rebuild]
                rw [plug_inorder]
                simp only [Tree.inorder_node]
                rw [eraseStepL_inl_inorder hstep, ← plug_step_eqL hxl rest,
                  hsib]
                simp
              · simp only [hstep]
                rw [eraseStepL_inr_inorder hstep,
                  ← plug_step_eqL hxl rest, hsib]
                simp [ctxL, ctxR]
            | false =>
              rcases hstep : eraseStepL x f1 rest with y | t
              · simp only [hstep]
                rw [ih, plug_inorder, eraseStepL_inl_inorder hstep,
                  ← plug_step_eqL hxl rest]
              · simp only [hstep]
                rw [eraseStepL_inr_inorder hstep, ← plug_step_eqL hxl rest]
        · simp only [hxl, Bool.false_eq_true, if_false]
          have hxl2 : xIsLeft x f1 = false := by simpa using hxl
          rcases hsib : f1.sibling with _ | ⟨wc, wl, wk, wv, wr⟩
          · rcases hstep : eraseStepR x f1 rest with y | t
            · simp only [hstep]
              rw [ih, plug_inorder, eraseStepR_inl_inorder hstep,
                ← plug_step_eqR hxl2 rest]
            · simp only [hstep]
              rw [eraseStepR_inr_inorder hstep, ← plug_step_eqR hxl2 rest]
          · cases wc with
            | true =>
              rcases hstep : eraseStepR x
                  ⟨Dir.right, true, f1.key, f1.val, wr⟩
                  (⟨Dir.right, false, wk, wv, wl⟩ :: rest) with y | t
              · simp only [hstep]
                rw [ih, plug_cons]
                simp only [rebuild]
                rw [plug_inorder]
                simp only [Tree.inorder_node]
                rw [eraseStepR_inl_inorder hstep, ← plug_step_eqR hxl2 rest,
                  hsib]
                simp
              · simp only [hstep]
                rw [eraseStepR_inr_inorder hstep,
                  ← plug_step_eqR hxl2 rest, hsib]
                simp [ctxL, ctxR]
            | false =>
              rcases hstep : eraseStepR x f1 rest with y | t
              · simp only [hstep]
                rw [ih, plug_inorder, eraseStepR_inl_inorder hstep,
                  ← plug_step_eqR hxl2 rest]
              · simp only [hstep]
                rw [eraseStepR_inr_inorder hstep, ← plug_step_eqR hxl2 rest]

theorem erase_fix_inorder (x : Tree K V) (fs : List (Frame K V)) :
    (erase_fix x fs).inorder = (plug x fs).inorder := by
  unfold erase_fix
  exact erase_fix_loop_inorder _ x fs

/-! ### erase_fix: red-black restoration -/

theorem eraseStepL_inl_eq {x : Tree K V} {f1 : Frame K V}
    {rest : List (Frame K V)} {y : Tree K V}
    (h : eraseStepL x f1 rest = Sum.inl y) :
    y = case2L x f1 ∧ f1.sibling.leftc.isRed = false ∧
      f1.sibling.rightc.isRed = false := by
  unfold eraseStepL at h
  dsimp only at h
  split at h
  · rename_i hcond
    simp only [Bool.and_eq_true, Bool.not_eq_true'] at hcond
    exact ⟨(Sum.inl.inj h).symm, hcond.1, hcond.2⟩
  · split at h <;> exact absurd h (by simp)

theorem eraseStepR_inl_eq {x : Tree K V} {f1 : Frame K V}
    {rest : List (Frame K V)} {y : Tree K V}
    (h : eraseStepR x f1 rest = Sum.inl y) :
    y = case2R x f1 ∧ f1.sibling.leftc.isRed = false ∧
      f1.sibling.rightc.isRed = false := by
  unfold eraseStepR at h
  dsimp only at h
  split at h
  · rename_i hcond
    simp only [Bool.and_eq_true, Bool.not_eq_true'] at hcond
    exact ⟨(Sum.inl.inj h).symm, hcond.2, hcond.1⟩
  · split at h <;> exact absurd h (by simp)

theorem eraseStepL_inr_eq {x : Tree K V} {f1 : Frame K V}
    {rest : List (Frame K V)} {t : Tree K V}
    (h : eraseStepL x f1 rest = Sum.inr t) :
    (f1.sibling.leftc.isRed = true ∨ f1.sibling.rightc.isRed = true) ∧
      ((f1.sibling.rightc.isRed = false ∧
          t = case4L x f1 (case3L f1.sibling) rest) ∨
        (f1.sibling.rightc.isRed = true ∧ t = case4L x f1 f1.sibling rest)) := by
  unfold eraseStepL at h
  dsimp only at h
  split at h
  · exact absurd h (by simp)
  · rename_i hcond
    simp only [Bool.and_eq_true, Bool.not_eq_true', not_and] at hcond
    constructor
    · by_cases h1 : f1.sibling.leftc.isRed = true
      · exact Or.inl h1
      · refine Or.inr ?_
        by_cases h2 : f1.sibling.rightc.isRed = true
        · exact h2
        · exact absurd ((by simpa using h2 : _)) (hcond (by simpa using h1))
    · split at h
      · rename_i h2
        simp only [Bool.not_eq_true'] at h2
        exact Or.inl ⟨h2, (Sum.inr.inj h).symm⟩
      · rename_i h2
        simp only [Bool.not_eq_true', Bool.not_eq_false] at h2
        exact Or.inr ⟨by simpa using h2, (Sum.inr.inj h).symm⟩

theorem eraseStepR_inr_eq {x : Tree K V} {f1 : Frame K V}
    {rest : List (Frame K V)} {t : Tree K V}
    (h : eraseStepR x f1 rest = Sum.inr t) :
    (f1.sibling.leftc.isRed = true ∨ f1.sibling.rightc.isRed = true) ∧
      ((f1.sibling.leftc.isRed = false ∧
          t = case4R x f1 (case3R f1.sibling) rest) ∨
        (f1.sibling.leftc.isRed = true ∧ t = case4R x f1 f1.sibling rest)) := by
  unfold eraseStepR at h
  dsimp only at h
  split at h
  · exact absurd h (by simp)
  · rename_i hcond
    simp only [Bool.and_eq_true, Bool.not_eq_true', not_and] at hcond
    constructor
    · by_cases h1 : f1.sibling.rightc.isRed = true
      · exact Or.inr h1
      · refine Or.inl ?_
        by_cases h2 : f1.sibling.leftc.isRed = true
        · exact h2
        · exact absurd ((by simpa using h2 : _)) (hcond (by simpa using h1))
    · split at h
      · rename_i h2
        simp only [Bool.not_eq_true'] at h2
        exact Or.inl ⟨h2, (Sum.inr.inj h).symm⟩
      · rename_i h2
        simp only [Bool.not_eq_true', Bool.not_eq_false] at h2
        exact Or.inr ⟨by simpa using h2, (Sum.inr.inj h).symm⟩

/-- case 2 keeps the deficit but moves it one level up: the rebuilt
parent is consistent, internally red-red free apart from its root, one
black level short of what its position requires, and colored like the
old parent. -/
theorem eraseStepL_inl_ok {x : Tree K V} {f1 : Frame K V}
    {rest : List (Frame K V)} {y : Tree K V}
    (hstep : eraseStepL x f1 rest = Sum.inl y)
    (hbx : Tree.BH x) (hnx : Tree.noRR x)
    (hs : f1.sibling.bh = x.bh + 1) (hbs : Tree.BH f1.sibling)
    (hns : Tree.noRR f1.sibling) (hsblack : f1.sibling.isRed = false) :
    Tree.BH y ∧ Tree.AlmostNoRR y ∧ y.bh = x.bh + wt f1.color ∧
      y.isRed = f1.color := by
  obtain ⟨hy, hL, hR⟩ := eraseStepL_inl_eq hstep
  rcases hsib2 : f1.sibling with _ | ⟨sc, sl, sk, sv, sr⟩
  · rw [hsib2] at hs
    simp at hs
  · rw [hsib2] at hs hbs hns hsblack hL hR
    have hsc : sc = false := by simpa [Tree.isRed] using hsblack
    subst hsc
    obtain ⟨hbsl, hbsr, hslr⟩ := hbs
    obtain ⟨hnsl, hnsr, _⟩ := hns
    simp only [Tree.leftc, Tree.rightc] at hL hR
    have hsl : sl.bh = x.bh := by
      simp only [Tree.bh_node_black] at hs
      omega
    subst hy
    unfold case2L
    rw [hsib2]
    simp only [Tree.paint_node]
    refine ⟨⟨hbx, ⟨hbsl, hbsr, hslr⟩, by simp [hsl]⟩,
      ⟨hnx, ⟨hnsl, hnsr, fun _ => ⟨hL, hR⟩⟩⟩, ?_, rfl⟩
    cases hfc : f1.color <;> simp [wt, Tree.bh, hsl]

theorem eraseStepR_inl_ok {x : Tree K V} {f1 : Frame K V}
    {rest : List (Frame K V)} {y : Tree K V}
    (hstep : eraseStepR x f1 rest = Sum.inl y)
    (hbx : Tree.BH x) (hnx : Tree.noRR x)
    (hs : f1.sibling.bh = x.bh + 1) (hbs : Tree.BH f1.sibling)
    (hns : Tree.noRR f1.sibling) (hsblack : f1.sibling.isRed = false) :
    Tree.BH y ∧ Tree.AlmostNoRR y ∧ y.bh = x.bh + wt f1.color ∧
      y.isRed = f1.color := by
  obtain ⟨hy, hL, hR⟩ := eraseStepR_inl_eq hstep
  rcases hsib2 : f1.sibling with _ | ⟨sc, sl, sk, sv, sr⟩
  · rw [hsib2] at hs
    simp at hs
  · rw [hsib2] at hs hbs hns hsblack hL hR
    have hsc : sc = false := by simpa [Tree.isRed] using hsblack
    subst hsc
    obtain ⟨hbsl, hbsr, hslr⟩ := hbs
    obtain ⟨hnsl, hnsr, _⟩ := hns
    simp only [Tree.leftc, Tree.rightc] at hL hR
    have hsl : sl.bh = x.bh := by
      simp only [Tree.bh_node_black] at hs
      omega
    subst hy
    unfold case2R
    rw [hsib2]
    simp only [Tree.paint_node]
    refine ⟨⟨⟨hbsl, hbsr, hslr⟩, hbx, by simp [hsl]⟩,
      ⟨⟨hnsl, hnsr, fun _ => ⟨hL, hR⟩⟩, hnx⟩, ?_, rfl⟩
    cases hfc : f1.color <;> simp [wt, Tree.bh, hsl]

/-- cases 3 and 4 terminate the loop with a fully repaired tree: the
deficit is absorbed by the rotation, and the final root blackening
leaves a consistent, red-red free tree. -/
theorem eraseStepL_inr_ok {x : Tree K V} {f1 : Frame K V}
    {rest : List (Frame K V)} {t : Tree K V}
    (hstep : eraseStepL x f1 rest = Sum.inr t)
    (hbx : Tree.BH x) (hnx : Tree.noRR x)
    (hs : f1.sibling.bh = x.bh + 1) (hbs : Tree.BH f1.sibling)
    (hns : Tree.noRR f1.sibling) (hsblack : f1.sibling.isRed = false)
    (hrest : CtxOk rest (x.bh + 1 + wt f1.color))
    (hrc : f1.color = true → hdBlack rest = true) :
    Tree.BH t ∧ Tree.noRR t := by
  obtain ⟨hor, hcases⟩ := eraseStepL_inr_eq hstep
  rcases hsib2 : f1.sibling with _ | ⟨sc, wl, wk, wv, wr⟩
  · rw [hsib2] at hs
    simp at hs
  · rw [hsib2] at hs hbs hns hsblack hor hcases
    have hsc : sc = false := by simpa [Tree.isRed] using hsblack
    subst hsc
    obtain ⟨hbwl, hbwr, hwlr⟩ := hbs
    obtain ⟨hnwl, hnwr, _⟩ := hns
    simp only [Tree.leftc, Tree.rightc] at hor hcases
    have hwl : wl.bh = x.bh := by
      simp only [Tree.bh_node_black] at hs
      omega
    have hwr : wr.bh = x.bh := by omega
    rcases hcases with ⟨hwrb, ht⟩ | ⟨hwrr, ht⟩
    · -- far child black, so the near child is red: case 3 then case 4
      have hwlred : wl.isRed = true := by
        rcases hor with h | h
        · exact h
        · rw [h] at hwrb
          exact absurd hwrb (by simp)
      obtain ⟨a, lk, lv, b, rfl⟩ := Tree.isRed_node_inv hwlred
      obtain ⟨hba, hbb, hab⟩ := hbwl
      obtain ⟨hna, hnb, hrrwl⟩ := hnwl
      obtain ⟨hra, hrb⟩ := hrrwl rfl
      have hbha : a.bh = x.bh := by simpa using hwl
      subst ht
      simp only [case3L, right_rotate, case4L, left_rotate, Tree.paint_node]
      have hplug := plug_ok rest
        (Tree.node f1.color (Tree.node false x f1.key f1.val a) lk lv
          (Tree.node false b wk wv wr))
        (x.bh + 1 + wt f1.color) hrest
        (by cases f1.color <;> simp [wt, Tree.bh] <;> omega)
        ⟨⟨hbx, hba, by omega⟩, ⟨hbb, hbwr, by omega⟩, by simp; omega⟩
        ⟨⟨hnx, hna, by simp⟩, ⟨hnb, hnwr, by simp⟩, fun _ => ⟨rfl, rfl⟩⟩
        (fun h => hrc (by simpa using h))
      exact ⟨Tree.BH_paint false hplug.1,
        Tree.noRR_paint_false (Tree.noRR_almost hplug.2)⟩
    · -- far child red: case 4 directly
      obtain ⟨b2, rk, rv, c2, rfl⟩ := Tree.isRed_node_inv hwrr
      obtain ⟨hbb2, hbc2, hb2c2⟩ := hbwr
      obtain ⟨hnb2, hnc2, _⟩ := hnwr
      have hbhb2 : b2.bh = x.bh := by simpa using hwr
      subst ht
      simp only [case4L, left_rotate, Tree.paint_node]
      have hplug := plug_ok rest
        (Tree.node f1.color (Tree.node false x f1.key f1.val wl) wk wv
          (Tree.node false b2 rk rv c2))
        (x.bh + 1 + wt f1.color) hrest
        (by cases f1.color <;> simp [wt, Tree.bh] <;> omega)
        ⟨⟨hbx, hbwl, by omega⟩, ⟨hbb2, hbc2, by omega⟩, by simp; omega⟩
        ⟨⟨hnx, hnwl, by simp⟩, ⟨hnb2, hnc2, by simp⟩, fun _ => ⟨rfl, rfl⟩⟩
        (fun h => hrc (by simpa using h))
      exact ⟨Tree.BH_paint false hplug.1,
        Tree.noRR_paint_false (Tree.noRR_almost hplug.2)⟩

theorem eraseStepR_inr_ok {x : Tree K V} {f1 : Frame K V}
    {rest : List (Frame K V)} {t : Tree K V}
    (hstep : eraseStepR x f1 rest = Sum.inr t)
    (hbx : Tree.BH x) (hnx : Tree.noRR x)
    (hs : f1.sibling.bh = x.bh + 1) (hbs : Tree.BH f1.sibling)
    (hns : Tree.noRR f1.sibling) (hsblack : f1.sibling.isRed = false)
    (hrest : CtxOk rest (x.bh + 1 + wt f1.color))
    (hrc : f1.color = true → hdBlack rest = true) :
    Tree.BH t ∧ Tree.noRR t := by
  obtain ⟨hor, hcases⟩ := eraseStepR_inr_eq hstep
  rcases hsib2 : f1.sibling with _ | ⟨sc, wl, wk, wv, wr⟩
  · rw [hsib2] at hs
    simp at hs
  · rw [hsib2] at hs hbs hns hsblack hor hcases
    have hsc : sc = false := by simpa [Tree.isRed] using hsblack
    subst hsc
    obtain ⟨hbwl, hbwr, hwlr⟩ := hbs
    obtain ⟨hnwl, hnwr, _⟩ := hns
    simp only [Tree.leftc, Tree.rightc] at hor hcases
    have hwl : wl.bh = x.bh := by
      simp only [Tree.bh_node_black] at hs
      omega
    have hwr : wr.bh = x.bh := by omega
    rcases hcases with ⟨hwlb, ht⟩ | ⟨hwlred, ht⟩
    · -- far child black, so the near child is red: case 3 then case 4
      have hwrred : wr.isRed = true := by
        rcases hor with h | h
        · rw [h] at hwlb
          exact absurd hwlb (by simp)
        · exact h
      obtain ⟨a, rk, rv, b, rfl⟩ := Tree.isRed_node_inv hwrred
      obtain ⟨hba, hbb, hab⟩ := hbwr
      obtain ⟨hna, hnb, hrrwr⟩ := hnwr
      obtain ⟨hra, hrb⟩ := hrrwr rfl
      have hbha : a.bh = x.bh := by simpa using hwr
      subst ht
      simp only [case3R, left_rotate, case4R, right_rotate, Tree.paint_node]
      have hplug := plug_ok rest
        (Tree.node f1.color (Tree.node false wl wk wv a) rk rv
          (Tree.node false b f1.key f1.val x))
        (x.bh + 1 + wt f1.color) hrest
        (by cases f1.color <;> simp [wt, Tree.bh] <;> omega)
        ⟨⟨hbwl, hba, by omega⟩, ⟨hbb, hbx, by omega⟩, by simp; omega⟩
        ⟨⟨hnwl, hna, by simp⟩, ⟨hnb, hnx, by simp⟩, fun _ => ⟨rfl, rfl⟩⟩
        (fun h => hrc (by simpa using h))
      exact ⟨Tree.BH_paint false hplug.1,
        Tree.noRR_paint_false (Tree.noRR_almost hplug.2)⟩
    · -- far child red: case 4 directly
      obtain ⟨a2, lk, lv, b2, rfl⟩ := Tree.isRed_node_inv hwlred
      obtain ⟨hba2, hbb2, ha2b2⟩ := hbwl
      obtain ⟨hna2, hnb2, _⟩ := hnwl
      have hbha2 : a2.bh = x.bh := by simpa using hwl
      subst ht
      simp only [case4R, right_rotate, Tree.paint_node]
      have hplug := plug_ok rest
        (Tree.node f1.color (Tree.node false a2 lk lv b2) wk wv
          (Tree.node false wr f1.key f1.val x))
        (x.bh + 1 + wt f1.color) hrest
        (by cases f1.color <;> simp [wt, Tree.bh] <;> omega)
        ⟨⟨hba2, hbb2, by omega⟩, ⟨hbwr, hbx, by omega⟩, by simp; omega⟩
        ⟨⟨hna2, hnb2, by simp⟩, ⟨hnwr, hnx, by simp⟩, fun _ => ⟨rfl, rfl⟩⟩
        (fun h => hrc (by simpa using h))
      exact ⟨Tree.BH_paint false hplug.1,
        Tree.noRR_paint_false (Tree.noRR_almost hplug.2)⟩

/-- the erase-fixup loop invariant: x is one black level short of what
its position requires (the removed node was black), internally
consistent and red-red free below its root; the loop then yields a
consistent, red-red free tree.  The required fuel exceeds the loop
measure, so the out-of-fuel branch is never taken. -/
theorem erase_fix_loop_ok :
    ∀ (fuel : Nat) (x : Tree K V) (fs : List (Frame K V)),
      2 * fs.length + (if x.isRed = true then 0 else 1) < fuel →
      Tree.BH x → Tree.AlmostNoRR x → CtxOk fs (x.bh + 1) →
      Tree.BH (erase_fix_loop fuel x fs) ∧
        Tree.noRR (erase_fix_loop fuel x fs) := by
  intro fuel
  induction fuel with
  | zero =>
    intro x fs hfuel
    exact absurd hfuel (by omega)
  | succ fuel ih =>
    intro x fs hfuel hbx hax hctx
    cases fs with
    | nil =>
      simp only [erase_fix_loop]
      exact ⟨Tree.BH_paint false hbx, Tree.noRR_paint_false hax⟩
    | cons f1 rest =>
      rw [erase_fix_loop]
      by_cases hxr : x.isRed = true
      · rw [if_pos hxr]
        refine plug_ok (f1 :: rest) (x.paint false) (x.bh + 1) hctx ?_
          (Tree.BH_paint false hbx) (Tree.noRR_paint_false hax) ?_
        · rw [Tree.bh_paint_false, hxr]
          simp
        · intro h
          rw [Tree.isRed_paint_false] at h
          exact absurd h (by simp)
      · rw [if_neg hxr]
        have hxb : x.isRed = false := by simpa using hxr
        have hnx : Tree.noRR x := Tree.almost_noRR_of_black hax hxb
        obtain ⟨hs, hbs, hns, hrcond, hrest⟩ := hctx
        simp only [hxb, Bool.false_eq_true, if_false, List.length_cons]
          at hfuel
        by_cases hxl : xIsLeft x f1 = true
        · rw [if_pos hxl]
          rcases hsib : f1.sibling with _ | ⟨wc, wl, wk, wv, wr⟩
          · rw [hsib] at hs
            simp at hs
          · cases wc with
            | false =>
              rcases hstep : eraseStepL x f1 rest with y | t
              · simp only [hstep]
                have hsb : f1.sibling.isRed = false := by rw [hsib]; rfl
                obtain ⟨hby, hay, hbhy, hcy⟩ :=
                  eraseStepL_inl_ok hstep hbx hnx hs hbs hns hsb
                refine ih y rest ?_ hby hay ?_
                · cases hyc : y.isRed <;> simp <;> omega
                · have he : y.bh + 1 = x.bh + 1 + wt f1.color := by
                    rw [hbhy]
                    omega
                  rw [he]
                  exact hrest
              · simp only [hstep]
                exact eraseStepL_inr_ok hstep hbx hnx hs hbs hns
                  (by rw [hsib]; rfl) hrest (fun h => (hrcond h).2)
            | true =>
              have hcolf : f1.color = false := by
                by_contra hcc
                have := (hrcond (by simpa using hcc)).1
                rw [hsib] at this
                simp [Tree.isRed] at this
              rw [hsib] at hs hbs hns
              obtain ⟨hbwl, hbwr, hwlwr⟩ := hbs
              obtain ⟨hnwl, hnwr, hrrw⟩ := hns
              obtain ⟨hwlb, hwrb⟩ := hrrw rfl
              have hwlbh : wl.bh = x.bh + 1 := by simpa using hs
              have hwrbh : wr.bh = x.bh + 1 := by omega
              rw [hcolf] at hrest
              simp only [wt, Bool.false_eq_true, if_false] at hrest
              have hctx2 : CtxOk
                  ((⟨Dir.left, false, wk, wv, wr⟩ : Frame K V) :: rest)
                  (x.bh + 1) := by
                refine ⟨hwrbh, hbwr, hnwr, by simp, ?_⟩
                simp only [wt, Bool.false_eq_true, if_false]
                exact hrest
              rcases hstep : eraseStepL x
                  ⟨Dir.left, true, f1.key, f1.val, wl⟩
                  (⟨Dir.left, false, wk, wv, wr⟩ :: rest) with y | t
              · simp only [hstep]
                obtain ⟨hby, hay, hbhy, hcy⟩ :=
                  eraseStepL_inl_ok hstep hbx hnx hwlbh hbwl hnwl hwlb
                simp only [wt, if_true] at hbhy
                refine ih y _ ?_ hby hay ?_
                · simp only at hcy
                  rw [hcy]
                  simp
                  omega
                · have he : y.bh + 1 = x.bh + 1 := by omega
                  rw [he]
                  exact hctx2
              · simp only [hstep]
                refine eraseStepL_inr_ok hstep hbx hnx hwlbh hbwl hnwl hwlb
                  ?_ (fun _ => rfl)
                simp only [wt, if_true, Nat.add_zero]
                exact hctx2
        · rw [if_neg hxl]
          rcases hsib : f1.sibling with _ | ⟨wc, wl, wk, wv, wr⟩
          · rw [hsib] at hs
            simp at hs
          · cases wc with
            | false =>
              rcases hstep : eraseStepR x f1 rest with y | t
              · simp only [hstep]
                have hsb : f1.sibling.isRed = false := by rw [hsib]; rfl
                obtain ⟨hby, hay, hbhy, hcy⟩ :=
                  eraseStepR_inl_ok hstep hbx hnx hs hbs hns hsb
                refine ih y rest ?_ hby hay ?_
                · cases hyc : y.isRed <;> simp <;> omega
                · have he : y.bh + 1 = x.bh + 1 + wt f1.color := by
                    rw [hbhy]
                    omega
                  rw [he]
                  exact hrest
              · simp only [hstep]
                exact eraseStepR_inr_ok hstep hbx hnx hs hbs hns
                  (by rw [hsib]; rfl) hrest (fun h => (hrcond h).2)
            | true =>
              have hcolf : f1.color = false := by
                by_contra hcc
                have := (hrcond (by simpa using hcc)).1
                rw [hsib] at this
                simp [Tree.isRed] at this
              rw [hsib] at hs hbs hns
              obtain ⟨hbwl, hbwr, hwlwr⟩ := hbs
              obtain ⟨hnwl, hnwr, hrrw⟩ := hns
              obtain ⟨hwlb, hwrb⟩ := hrrw rfl
              have hwlbh : wl.bh = x.bh + 1 := by simpa using hs
              have hwrbh : wr.bh = x.bh + 1 := by omega
              rw [hcolf] at hrest
              simp only [wt, Bool.false_eq_true, if_false] at hrest
              have hctx2 : CtxOk
                  ((⟨Dir.right, false, wk, wv, wl⟩ : Frame K V) :: rest)
                  (x.bh + 1) := by
                refine ⟨hwlbh, hbwl, hnwl, by simp, ?_⟩
                simp only [wt, Bool.false_eq_true, if_false]
                exact hrest
              rcases hstep : eraseStepR x
                  ⟨Dir.right, true, f1.key, f1.val, wr⟩
                  (⟨Dir.right, false, wk, wv, wl⟩ :: rest) with y | t
              · simp only [hstep]
                obtain ⟨hby, hay, hbhy, hcy⟩ :=
                  eraseStepR_inl_ok hstep hbx hnx hwrbh hbwr hnwr hwrb
                simp only [wt, if_true] at hbhy
                refine ih y _ ?_ hby hay ?_
                · simp only at hcy
                  rw [hcy]
                  simp
                  omega
                · have he : y.bh + 1 = x.bh + 1 := by omega
                  rw [he]
                  exact hctx2
              · simp only [hstep]
                refine eraseStepR_inr_ok hstep hbx hnx hwrbh hbwr hnwr hwrb
                  ?_ (fun _ => rfl)
                simp only [wt, if_true, Nat.add_zero]
                exact hctx2

/-- erase_fix repairs the tree left one black level short by the
removal of a black node. -/
theorem erase_fix_ok (x : Tree K V) (fs : List (Frame K V))
    (hbx : Tree.BH x) (hax : Tree.AlmostNoRR x)
    (hctx : CtxOk fs (x.bh + 1)) :
    Tree.BH (erase_fix x fs) ∧ Tree.noRR (erase_fix x fs) := by
  unfold erase_fix
  refine erase_fix_loop_ok _ x fs ?_ hbx hax hctx
  cases x.isRed <;> simp <;> omega

/-! ### Contexts collected by zipTo and delMin -/

theorem ctxW_append (a b : List (Frame K V)) :
    ctxW (a ++ b) = ctxW a + ctxW b := by
  induction a with
  | nil => simp [ctxW]
  | cons f fs ih => simp [ctxW, ih]; omega

theorem lastRed_append_one (fs : List (Frame K V)) (f : Frame K V) :
    lastRed (fs ++ [f]) = f.color := by
  induction fs with
  | nil => rfl
  | cons g gs ih =>
    cases gs with
    | nil => simpa using ih
    | cons g2 gs2 => simpa using ih

theorem lastRed_cons_ne {f : Frame K V} {fs : List (Frame K V)}
    (h : fs ≠ []) : lastRed (f :: fs) = lastRed fs := by
  cases fs with
  | nil => exact absurd rfl h
  | cons g gs => rfl

/-- appending contexts: the inner one first, the outer one continuing
at the accumulated height, with a blackness condition at the seam. -/
theorem ctxOk_append :
    ∀ (fs gs : List (Frame K V)) (n : Nat), CtxOk fs n →
      CtxOk gs (n + ctxW fs) →
      (lastRed fs = true → hdBlack gs = true) →
      CtxOk (fs ++ gs) n := by
  intro fs
  induction fs with
  | nil =>
    intro gs n _ h2 _
    simpa [ctxW] using h2
  | cons g gs0 ih =>
    intro gs n h1 h2 hseam
    obtain ⟨ha, hb, hc, hd, he⟩ := h1
    refine ⟨ha, hb, hc, ?_, ?_⟩
    · intro hgc
      obtain ⟨h5, h6⟩ := hd hgc
      refine ⟨h5, ?_⟩
      cases gs0 with
      | nil =>
        cases gs with
        | nil => rfl
        | cons q qs => exact hseam (by simpa [lastRed] using hgc)
      | cons q qs => simpa using h6
    · refine ih gs (n + wt g.color) he ?_ ?_
      · have : n + wt g.color + ctxW gs0 = n + ctxW (g :: gs0) := by
          simp [ctxW]
          omega
        rw [this]
        exact h2
      · intro hl
        refine hseam ?_
        cases gs0 with
        | nil => simp [lastRed] at hl
        | cons q qs => rwa [lastRed_cons_ne (by simp)]

theorem zipTo_fst :
    ∀ (t : Tree K V) (p : List Dir),
      (zipTo t p).map Prod.fst = Tree.subtreeAt t p := by
  intro t p
  induction p generalizing t with
  | nil => cases t <;> rfl
  | cons d p ih =>
    cases t with
    | nil => rfl
    | node c l k v r =>
      cases d with
      | left =>
        rw [zipTo, Tree.subtreeAt, ← ih l]
        cases zipTo l p <;> rfl
      | right =>
        rw [zipTo, Tree.subtreeAt, ← ih r]
        cases zipTo r p <;> rfl

/-- zipTo decomposes the tree: the focus plugs back, and under the
red-black invariant the collected context is valid for the focus. -/
theorem zipTo_spec :
    ∀ (p : List Dir) (t z : Tree K V) (ctx : List (Frame K V)),
      zipTo t p = some (z, ctx) →
      plug z ctx = t ∧
      (Tree.noRR t → Tree.BH t →
        Tree.BH z ∧ Tree.noRR z ∧ CtxOk ctx z.bh ∧
          (z.isRed = true → hdBlack ctx = true) ∧
          z.bh + ctxW ctx = t.bh ∧
          (ctx ≠ [] → lastRed ctx = t.isRed)) := by
  intro p
  induction p with
  | nil =>
    intro t z ctx h
    rw [zipTo] at h
    have hpair : (t, ([] : List (Frame K V))) = (z, ctx) := Option.some.inj h
    cases hpair
    exact ⟨rfl, fun hn hb => ⟨hb, hn, trivial, fun _ => rfl, by simp [ctxW],
      fun hne => absurd rfl hne⟩⟩
  | cons d p ih =>
    intro t z ctx h
    cases t with
    | nil => rw [zipTo] at h; exact absurd h (by simp)
    | node c l k v r =>
      cases d with
      | left =>
        rw [zipTo] at h
        rcases hz : zipTo l p with _ | ⟨z0, fs⟩
        · rw [hz] at h; exact absurd h (by simp)
        · rw [hz] at h
          have hpair : (z0, fs ++ [(⟨Dir.left, c, k, v, r⟩ : Frame K V)]) =
              (z, ctx) := Option.some.inj h
          cases hpair
          obtain ⟨hplug, hcol⟩ := ih l z fs hz
          constructor
          · rw [plug_append, hplug]
            rfl
          · rintro ⟨hnl, hnr, hcc⟩ ⟨hbl, hbr, hlr⟩
            obtain ⟨hbz, hnz, hctx, hhd, hw, hlast⟩ := hcol hnl hbl
            refine ⟨hbz, hnz, ?_, ?_, ?_, ?_⟩
            · refine ctxOk_append fs [⟨Dir.left, c, k, v, r⟩] z.bh hctx
                ⟨by simp only; omega, hbr, hnr, ?_, trivial⟩ ?_
              · intro hcc2
                exact ⟨(hcc hcc2).2, rfl⟩
              · intro hl
                cases hfs : fs with
                | nil => rw [hfs] at hl; simp [lastRed] at hl
                | cons q qs =>
                  rw [hfs] at hl hlast
                  rw [hlast (by simp)] at hl
                  simp only [hdBlack]
                  cases hcn : c with
                  | false => rfl
                  | true => exact absurd hl (by simp [(hcc hcn).1])
            · intro hzr
              cases hfs : fs with
              | nil =>
                subst hfs
                have hzl : z = l := hplug
                rw [hzl] at hzr
                simp only [List.nil_append, hdBlack]
                cases hcn : c with
                | false => rfl
                | true => exact absurd hzr (by simp [(hcc hcn).1])
              | cons q qs =>
                subst hfs
                exact hhd hzr
            · rw [ctxW_append, ← Nat.add_assoc, hw]
              cases c <;> simp [ctxW, wt, Tree.bh]
            · intro _
              rw [lastRed_append_one]
              rfl
      | right =>
        rw [zipTo] at h
        rcases hz : zipTo r p with _ | ⟨z0, fs⟩
        · rw [hz] at h; exact absurd h (by simp)
        · rw [hz] at h
          have hpair : (z0, fs ++ [(⟨Dir.right, c, k, v, l⟩ : Frame K V)]) =
              (z, ctx) := Option.some.inj h
          cases hpair
          obtain ⟨hplug, hcol⟩ := ih r z fs hz
          constructor
          · rw [plug_append, hplug]
            rfl
          · rintro ⟨hnl, hnr, hcc⟩ ⟨hbl, hbr, hlr⟩
            obtain ⟨hbz, hnz, hctx, hhd, hw, hlast⟩ := hcol hnr hbr
            refine ⟨hbz, hnz, ?_, ?_, ?_, ?_⟩
            · refine ctxOk_append fs [⟨Dir.right, c, k, v, l⟩] z.bh hctx
                ⟨by simp only; omega, hbl, hnl, ?_, trivial⟩ ?_
              · intro hcc2
                exact ⟨(hcc hcc2).1, rfl⟩
              · intro hl
                cases hfs : fs with
                | nil => rw [hfs] at hl; simp [lastRed] at hl
                | cons q qs =>
                  rw [hfs] at hl hlast
                  rw [hlast (by simp)] at hl
                  simp only [hdBlack]
                  cases hcn : c with
                  | false => rfl
                  | true => exact absurd hl (by simp [(hcc hcn).2])
            · intro hzr
              cases hfs : fs with
              | nil =>
                subst hfs
                have hzl : z = r := hplug
                rw [hzl] at hzr
                simp only [List.nil_append, hdBlack]
                cases hcn : c with
                | false => rfl
                | true => exact absurd hzr (by simp [(hcc hcn).2])
              | cons q qs =>
                subst hfs
                exact hhd hzr
            · rw [ctxW_append, ← Nat.add_assoc, hw]
              cases c <;> simp [ctxW, wt, Tree.bh, hlr]
            · intro _
              rw [lastRed_append_one]
              rfl

theorem delMin_none : ∀ t : Tree K V, delMin t = none → t = Tree.nil := by
  intro t h
  cases t with
  | nil => rfl
  | node c l k v r =>
    rw [delMin] at h
    rcases hdl : delMin l with _ | ⟨yc, yk, yv, x, fs⟩ <;>
      rw [hdl] at h <;> simp at h

/-- delMin finds the leftmost entry: its context has nothing to its
left, removing it drops exactly the first entry of the inorder
sequence, and under the red-black invariant the context is valid for
the fixup target at the height left behind. -/
theorem delMin_spec :
    ∀ (t : Tree K V) (yc : Bool) (yk : K) (yv : V) (x : Tree K V)
      (fs : List (Frame K V)),
      delMin t = some (yc, yk, yv, x, fs) →
      ctxL fs = [] ∧
      (yk, yv) :: (x.inorder ++ ctxR fs) = t.inorder ∧
      (Tree.noRR t → Tree.BH t →
        Tree.BH x ∧ Tree.noRR x ∧
        CtxOk fs (x.bh + wt yc) ∧
        x.bh + wt yc + ctxW fs = t.bh ∧
        (fs ≠ [] → lastRed fs = t.isRed) ∧
        (yc = true → x.isRed = false)) := by
  intro t
  induction t with
  | nil => intro yc yk yv x fs h; exact absurd h (by rw [delMin]; simp)
  | node c l k v r ihl ihr =>
    intro yc yk yv x fs h
    rw [delMin] at h
    rcases hdl : delMin l with _ | ⟨yc0, yk0, yv0, x0, fs0⟩
    · rw [hdl] at h
      have hpair : ((c, k, v, r, ([] : List (Frame K V))) :
          Bool × K × V × Tree K V × List (Frame K V)) = (yc, yk, yv, x, fs) :=
        Option.some.inj h
      cases hpair
      have hlnil : l = Tree.nil := delMin_none l hdl
      subst hlnil
      refine ⟨rfl, by simp [ctxR, Tree.inorder], ?_⟩
      rintro ⟨hnl, hnr, hcc⟩ ⟨hbl, hbr, hlr⟩
      simp only [Tree.bh] at hlr
      refine ⟨hbr, hnr, trivial, ?_, fun hne => absurd rfl hne,
        fun hc => (hcc hc).2⟩
      cases c <;> simp [wt, ctxW, Tree.bh] <;> omega
    · rw [hdl] at h
      have hpair : ((yc0, yk0, yv0, x0,
          fs0 ++ [(⟨Dir.left, c, k, v, r⟩ : Frame K V)]) :
          Bool × K × V × Tree K V × List (Frame K V)) = (yc, yk, yv, x, fs) :=
        Option.some.inj h
      cases hpair
      obtain ⟨hctxL, hino, hcol⟩ := ihl yc yk yv x fs0 hdl
      refine ⟨?_, ?_, ?_⟩
      · rw [ctxL_append]
        simp [ctxL, hctxL]
      · rw [ctxR_append]
        simp only [Tree.inorder]
        rw [← hino]
        simp [ctxR]
      · rintro ⟨hnl, hnr, hcc⟩ ⟨hbl, hbr, hlr⟩
        obtain ⟨hbx, hnx, hctx, hw, hlast, hycx⟩ := hcol hnl hbl
        refine ⟨hbx, hnx, ?_, ?_, ?_, hycx⟩
        · refine ctxOk_append fs0 [⟨Dir.left, c, k, v, r⟩] _ hctx
            ⟨by simp only; omega, hbr, hnr,
              fun hc => ⟨(hcc hc).2, rfl⟩, trivial⟩ ?_
          intro hl
          cases hfs : fs0 with
          | nil => rw [hfs] at hl; simp [lastRed] at hl
          | cons q qs =>
            rw [hfs] at hl hlast
            rw [hlast (by simp)] at hl
            simp only [hdBlack]
            cases hcn : c with
            | false => rfl
            | true => exact absurd hl (by simp [(hcc hcn).1])
        · rw [ctxW_append]
          cases c <;> cases yc <;> simp [ctxW, wt, Tree.bh] at hw ⊢ <;> omega
        · intro _
          rw [lastRed_append_one]
          rfl

/-- erase_at at a found node removes exactly that entry from the
in-order sequence. -/
theorem erase_at_found {t : Tree K V} {p : List Dir} {zc : Bool}
    {zl : Tree K V} {zk : K} {zv : V} {zr : Tree K V}
    {ctx : List (Frame K V)}
    (h : zipTo t p = some (Tree.node zc zl zk zv zr, ctx)) :
    t.inorder =
      ctxL ctx ++ zl.inorder ++ (zk, zv) :: zr.inorder ++ ctxR ctx ∧
    (erase_at t p).inorder =
      ctxL ctx ++ zl.inorder ++ zr.inorder ++ ctxR ctx := by
  obtain ⟨hplug, -⟩ := zipTo_spec p t _ ctx h
  refine ⟨by rw [← hplug, plug_inorder]; simp, ?_⟩
  unfold erase_at
  rw [h]
  dsimp only
  by_cases hzl : zl.isNil
  · rw [if_pos hzl]
    rw [Tree.isNil_iff] at hzl
    subst hzl
    cases zc <;>
      simp [erase_fix_inorder, plug_inorder]
  · rw [if_neg hzl]
    by_cases hzr : zr.isNil
    · rw [if_pos hzr]
      rw [Tree.isNil_iff] at hzr
      subst hzr
      cases zc <;>
        simp [erase_fix_inorder, plug_inorder]
    · rw [if_neg hzr]
      rcases hdm : delMin zr with _ | ⟨yc, yk, yv, x, fs⟩
      · rw [delMin_none zr hdm] at hzr
        exact absurd rfl hzr
      · dsimp only
        obtain ⟨hctxL, hino, -⟩ := delMin_spec zr yc yk yv x fs hdm
        have hgoal :
            (plug x (fs ++ ⟨Dir.right, zc, yk, yv, zl⟩ :: ctx)).inorder =
              ctxL ctx ++ zl.inorder ++ zr.inorder ++ ctxR ctx := by
          rw [plug_inorder, ctxL_append, ctxR_append, hctxL, ← hino]
          simp [ctxL, ctxR]
        cases yc <;>
          simp only [Bool.false_eq_true, if_false, if_true,
            Tree.inorder_paint, erase_fix_inorder, hgoal]

/-- erase_at preserves the red-black invariant. -/
theorem erase_at_rb (t : Tree K V) (p : List Dir) (hrb : Tree.RB t) :
    Tree.RB (erase_at t p) := by
  obtain ⟨hroot, hn, hb⟩ := hrb
  unfold erase_at
  rcases hz : zipTo t p with _ | ⟨z, ctx⟩
  · exact ⟨hroot, hn, hb⟩
  · cases z with
    | nil => exact ⟨hroot, hn, hb⟩
    | node zc zl zk zv zr =>
      obtain ⟨hplug, hcol⟩ := zipTo_spec p t _ ctx hz
      obtain ⟨⟨hbl, hbr, hlr⟩, ⟨hnl, hnr, hcc⟩, hctx, hhd, hw, hlast⟩ :=
        hcol hn hb
      dsimp only
      by_cases hzl : zl.isNil = true
      · rw [if_pos hzl]
        cases zc with
        | true =>
          simp only [if_true]
          have hctx2 : CtxOk ctx zr.bh := by
            have he : zr.bh = (Tree.node true zl zk zv zr).bh := by
              simp [Tree.bh]
              omega
            rw [he]
            exact hctx
          have hok := plug_ok ctx zr zr.bh hctx2 rfl hbr hnr
            (fun h2 => absurd h2 (by simp [(hcc rfl).2]))
          exact ⟨Tree.isRed_paint_false _,
            Tree.noRR_paint_false (Tree.noRR_almost hok.2),
            Tree.BH_paint false hok.1⟩
        | false =>
          simp only [Bool.false_eq_true, if_false]
          have hctx2 : CtxOk ctx (zr.bh + 1) := by
            have he : zr.bh + 1 = (Tree.node false zl zk zv zr).bh := by
              simp [Tree.bh]
              omega
            rw [he]
            exact hctx
          have hok := erase_fix_ok zr ctx hbr (Tree.noRR_almost hnr) hctx2
          exact ⟨Tree.isRed_paint_false _,
            Tree.noRR_paint_false (Tree.noRR_almost hok.2),
            Tree.BH_paint false hok.1⟩
      · rw [if_neg hzl]
        by_cases hzr : zr.isNil = true
        · rw [if_pos hzr]
          cases zc with
          | true =>
            simp only [if_true]
            have hctx2 : CtxOk ctx zl.bh := by
              have he : zl.bh = (Tree.node true zl zk zv zr).bh := by
                simp [Tree.bh]
              rw [he]
              exact hctx
            have hok := plug_ok ctx zl zl.bh hctx2 rfl hbl hnl
              (fun h2 => absurd h2 (by simp [(hcc rfl).1]))
            exact ⟨Tree.isRed_paint_false _,
              Tree.noRR_paint_false (Tree.noRR_almost hok.2),
              Tree.BH_paint false hok.1⟩
          | false =>
            simp only [Bool.false_eq_true, if_false]
            have hctx2 : CtxOk ctx (zl.bh + 1) := by
              have he : zl.bh + 1 = (Tree.node false zl zk zv zr).bh := by
                simp [Tree.bh]
              rw [he]
              exact hctx
            have hok := erase_fix_ok zl ctx hbl (Tree.noRR_almost hnl) hctx2
            exact ⟨Tree.isRed_paint_false _,
              Tree.noRR_paint_false (Tree.noRR_almost hok.2),
              Tree.BH_paint false hok.1⟩
        · rw [if_neg hzr]
          rcases hdm : delMin zr with _ | ⟨yc, yk, yv, x, fs⟩
          · rw [delMin_none zr hdm] at hzr
            exact absurd rfl hzr
          · dsimp only
            obtain ⟨-, -, hcol2⟩ := delMin_spec zr yc yk yv x fs hdm
            obtain ⟨hbx, hnx, hctxf, hwf, hlastf, hycx⟩ := hcol2 hnr hbr
            have hmid : CtxOk
                ((⟨Dir.right, zc, yk, yv, zl⟩ : Frame K V) :: ctx)
                (x.bh + wt yc + ctxW fs) := by
              rw [hwf]
              refine ⟨hlr, hbl, hnl, fun hc => ⟨(hcc hc).1, hhd hc⟩, ?_⟩
              have he : zr.bh + wt zc = (Tree.node zc zl zk zv zr).bh := by
                cases zc <;> simp [wt, Tree.bh] <;> omega
              rw [he]
              exact hctx
            have hseam : lastRed fs = true →
                hdBlack ((⟨Dir.right, zc, yk, yv, zl⟩ : Frame K V) :: ctx) =
                  true := by
              intro hl
              cases hfs : fs with
              | nil => rw [hfs] at hl; simp [lastRed] at hl
              | cons q qs =>
                rw [hfs] at hl hlastf
                rw [hlastf (by simp)] at hl
                simp only [hdBlack]
                cases hcn : zc with
                | false => rfl
                | true => exact absurd hl (by simp [(hcc hcn).2])
            have hctx2 := ctxOk_append fs
              ((⟨Dir.right, zc, yk, yv, zl⟩ : Frame K V) :: ctx)
              (x.bh + wt yc) hctxf hmid hseam
            cases yc with
            | true =>
              simp only [if_true]
              simp only [wt, if_true, Nat.add_zero] at hctx2
              have hok := plug_ok _ x x.bh hctx2 rfl hbx hnx
                (fun h2 => absurd h2 (by simp [hycx rfl]))
              exact ⟨Tree.isRed_paint_false _,
                Tree.noRR_paint_false (Tree.noRR_almost hok.2),
                Tree.BH_paint false hok.1⟩
            | false =>
              simp only [Bool.false_eq_true, if_false]
              simp only [wt, Bool.false_eq_true, if_false] at hctx2
              have hok := erase_fix_ok x _ hbx (Tree.noRR_almost hnx) hctx2
              exact ⟨Tree.isRed_paint_false _,
                Tree.noRR_paint_false (Tree.noRR_almost hok.2),
                Tree.BH_paint false hok.1⟩

theorem copyMap_valid {cmp : K → K → Bool} (m : map K V) (hv : Valid cmp m) :
    Valid cmp (copyMap m) := by
  obtain ⟨h1, h2⟩ := clone_subtree_spec m.root 0
  exact ⟨by simpa [copyMap, h1] using hv.1,
    by simpa [copyMap, h1] using hv.2.1,
    by simp [copyMap, h1, h2]⟩

/-- a cursor holding an entry denotes a real node, which zipTo finds. -/
theorem nodeAt_isSome_zipTo {t : Tree K V} {p : List Dir}
    (h : (Tree.nodeAt t p).isSome = true) :
    ∃ zc zl zk zv zr ctx,
      zipTo t p = some (Tree.node zc zl zk zv zr, ctx) ∧
      Tree.nodeAt t p = some (zk, zv) := by
  unfold Tree.nodeAt at h ⊢
  rcases hs : Tree.subtreeAt t p with _ | z
  · rw [hs] at h
    simp at h
  · rw [hs] at h
    cases z with
    | nil => simp at h
    | node zc zl zk zv zr =>
      have hz := zipTo_fst t p
      rw [hs] at hz
      rcases hzz : zipTo t p with _ | ⟨z2, ctx⟩
      · rw [hzz] at hz
        simp at hz
      · rw [hzz] at hz
        have hz2 : z2 = Tree.node zc zl zk zv zr := by simpa using hz
        exact ⟨zc, zl, zk, zv, zr, ctx, by rw [hz2], rfl⟩

/-- erase at a valid cursor keeps the representation invariant. -/
theorem erase_map_valid {cmp : K → K → Bool} {m : map K V} {p : List Dir}
    (hv : Valid cmp m) (h : (Tree.nodeAt m.root p).isSome = true) :
    Valid cmp (erase_map m p) := by
  obtain ⟨hrb, hsort, hcount⟩ := hv
  obtain ⟨zc, zl, zk, zv, zr, ctx, hz, hat⟩ := nodeAt_isSome_zipTo h
  obtain ⟨hold, hnew⟩ := erase_at_found hz
  refine ⟨erase_at_rb _ _ hrb, ?_, ?_⟩
  · show sortedLt cmp (erase_at m.root p).inorder
    rw [hnew]
    have hsub : (ctxL ctx ++ zl.inorder ++ zr.inorder ++ ctxR ctx).Sublist
        (ctxL ctx ++ zl.inorder ++ (zk, zv) :: zr.inorder ++ ctxR ctx) :=
      ((List.Sublist.refl _).append
        (List.sublist_cons_self _ _)).append (List.Sublist.refl _)
    rw [hold] at hsort
    exact hsort.sublist hsub
  · show m.node_count - 1 = (erase_at m.root p).inorder.length
    rw [hnew, hcount, hold]
    simp [List.length_append]
    omega

/-- the red-black part of the insert postcondition, needing no
assumption on the comparison predicate. -/
theorem insert_rb {cmp : K → K → Bool} (m : map K V) (k : K) (v : V)
    (h : Tree.RB m.root) : Tree.RB (insert cmp m k v).1.root := by
  rw [insert]
  rcases hd : descend cmp k m.root [] with ctx | ⟨ctx, k2, v2⟩
  · obtain ⟨hrootred, hnr, hbh⟩ := h
    refine insert_fix_ok _ ctx rfl (by simp [Tree.BH]) (by simp [Tree.noRR])
      ?_ ?_
    · have := descend_inl_ctxOk k m.root [] ctx hd hnr hbh (by simp)
        (by intro _; rfl)
      simpa using this
    · exact descend_inl_topB k m.root [] ctx hd trivial (fun _ => hrootred)
  · exact h

/-- the red-black part of the operator[] postcondition. -/
theorem op_index_rb {cmp : K → K → Bool} (m : map K V) (k : K) (dflt : V)
    (h : Tree.RB m.root) : Tree.RB (op_index cmp dflt m k).1.root := by
  rw [op_index]
  rcases hd : descend cmp k m.root [] with ctx | ⟨ctx, k2, v2⟩
  · obtain ⟨hrootred, hnr, hbh⟩ := h
    refine insert_fix_ok _ ctx rfl (by simp [Tree.BH]) (by simp [Tree.noRR])
      ?_ ?_
    · have := descend_inl_ctxOk k m.root [] ctx hd hnr hbh (by simp)
        (by intro _; rfl)
      simpa using this
    · exact descend_inl_topB k m.root [] ctx hd trivial (fun _ => hrootred)
  · exact h

/-- every reachable map is a red-black tree, with no assumption at all
on the comparison predicate. -/
theorem reachable_rb {cmp : K → K → Bool} {m : map K V}
    (h : Reachable cmp m) : Tree.RB m.root := by
  induction h with
  | empty => exact ⟨rfl, trivial, trivial⟩
  | ins m k v _ ih => exact insert_rb m k v ih
  | idx m k dflt _ ih => exact op_index_rb m k dflt ih
  | ers m p hp _ ih => exact erase_at_rb m.root p ih
  | clr m _ _ => exact ⟨rfl, trivial, trivial⟩
  | cpy m _ ih =>
    show Tree.RB (clone_subtree m.root 0).1
    rw [(clone_subtree_spec m.root 0).1]
    exact ih

/-- every reachable map satisfies the full representation invariant,
assuming only transitivity of the comparison predicate. -/
theorem reachable_valid {cmp : K → K → Bool}
    (htr : ∀ a b c, cmp a b = true → cmp b c = true → cmp a c = true)
    {m : map K V} (h : Reachable cmp m) : Valid cmp m := by
  induction h with
  | empty => exact ⟨⟨rfl, trivial, trivial⟩, List.Pairwise.nil, rfl⟩
  | ins m k v _ ih => exact insert_valid htr m k v ih
  | idx m k dflt _ ih => exact op_index_valid htr m k dflt ih
  | ers m p hp _ ih => exact erase_map_valid ih hp
  | clr m _ _ => exact clearMap_valid m
  | cpy m _ ih => exact copyMap_valid m ih

/-! ### The iterator walk visits the nodes in in-order -/

theorem climbR_append :
    ∀ a b : List Dir, climbR (a ++ b) =
      match climbR a with
      | none => climbR b
      | some q => some (q ++ b) := by
  intro a
  induction a with
  | nil => intro b; rfl
  | cons d a ih =>
    intro b
    cases d with
    | left => rfl
    | right => simpa [climbR] using ih b

theorem climbL_append :
    ∀ a b : List Dir, climbL (a ++ b) =
      match climbL a with
      | none => climbL b
      | some q => some (q ++ b) := by
  intro a
  induction a with
  | nil => intro b; rfl
  | cons d a ih =>
    intro b
    cases d with
    | right => rfl
    | left => simpa [climbL] using ih b

theorem nodeAt_cons_left (c : Bool) (l : Tree K V) (k : K) (v : V)
    (r : Tree K V) (p : List Dir) :
    Tree.nodeAt (Tree.node c l k v r) (Dir.left :: p) = Tree.nodeAt l p := rfl

theorem nodeAt_cons_right (c : Bool) (l : Tree K V) (k : K) (v : V)
    (r : Tree K V) (p : List Dir) :
    Tree.nodeAt (Tree.node c l k v r) (Dir.right :: p) = Tree.nodeAt r p :=
  rfl

theorem nodeAt_nil_path (c : Bool) (l : Tree K V) (k : K) (v : V)
    (r : Tree K V) :
    Tree.nodeAt (Tree.node c l k v r) [] = some (k, v) := rfl

/-- stepping the successor walk inside the left subtree: the in-subtree
successor if it has one, else the root of this node. -/
theorem next_node_left {l : Tree K V} {p : List Dir}
    (c : Bool) (k : K) (v : V) (r : Tree K V)
    (h : (Tree.nodeAt l p).isSome = true) :
    next_node (Tree.node c l k v r) (Dir.left :: p) =
      match next_node l p with
      | some q => some (Dir.left :: q)
      | none => some [] := by
  unfold Tree.nodeAt at h
  rcases hs : Tree.subtreeAt l p with _ | z
  · rw [hs] at h; simp at h
  · rw [hs] at h
    cases z with
    | nil => simp at h
    | node c2 l2 k2 v2 r2 =>
      unfold next_node
      have hs2 : Tree.subtreeAt (Tree.node c l k v r) (Dir.left :: p) =
          Tree.subtreeAt l p := rfl
      rw [hs2, hs]
      dsimp only
      by_cases hr2 : r2.isNil = true
      · rw [if_pos hr2, if_pos hr2]
        rw [List.reverse_cons, climbR_append]
        rcases hc : climbR p.reverse with _ | q
        · simp [climbR]
        · simp [List.reverse_append]
      · rw [if_neg hr2, if_neg hr2]
        simp

/-- stepping the successor walk inside the right subtree: exactly the
in-subtree successor, or the end when there is none. -/
theorem next_node_right {r : Tree K V} {p : List Dir}
    (c : Bool) (l : Tree K V) (k : K) (v : V)
    (h : (Tree.nodeAt r p).isSome = true) :
    next_node (Tree.node c l k v r) (Dir.right :: p) =
      (next_node r p).map (Dir.right :: ·) := by
  unfold Tree.nodeAt at h
  rcases hs : Tree.subtreeAt r p with _ | z
  · rw [hs] at h; simp at h
  · rw [hs] at h
    cases z with
    | nil => simp at h
    | node c2 l2 k2 v2 r2 =>
      unfold next_node
      have hs2 : Tree.subtreeAt (Tree.node c l k v r) (Dir.right :: p) =
          Tree.subtreeAt r p := rfl
      rw [hs2, hs]
      dsimp only
      by_cases hr2 : r2.isNil = true
      · rw [if_pos hr2, if_pos hr2]
        rw [List.reverse_cons, climbR_append]
        rcases hc : climbR p.reverse with _ | q
        · simp [climbR]
        · simp [List.reverse_append]
      · rw [if_neg hr2, if_neg hr2]
        simp

theorem Tree.inorder_eq_nil_iff {t : Tree K V} :
    t.inorder = [] ↔ t = Tree.nil := by
  cases t <;> simp [Tree.inorder]

theorem inorderPaths_eq_nil_iff {t : Tree K V} :
    inorderPaths t = [] ↔ t = Tree.nil := by
  cases t <;> simp [inorderPaths]

theorem inorderPaths_length :
    ∀ t : Tree K V, (inorderPaths t).length = t.inorder.length := by
  intro t
  induction t with
  | nil => rfl
  | node c l k v r ihl ihr => simp [inorderPaths, Tree.inorder, ihl, ihr]

theorem inorderPaths_valid :
    ∀ t : Tree K V, ∀ p ∈ inorderPaths t, (Tree.nodeAt t p).isSome = true := by
  intro t
  induction t with
  | nil => intro p hp; simp [inorderPaths] at hp
  | node c l k v r ihl ihr =>
    intro p hp
    simp only [inorderPaths, List.mem_append, List.mem_map,
      List.mem_singleton] at hp
    rcases hp with (⟨q, hq, rfl⟩ | rfl) | ⟨q, hq, rfl⟩
    · rw [nodeAt_cons_left]
      exact ihl q hq
    · rw [nodeAt_nil_path]
      rfl
    · rw [nodeAt_cons_right]
      exact ihr q hq

theorem inorderPaths_entries :
    ∀ t : Tree K V, (inorderPaths t).filterMap (Tree.nodeAt t) = t.inorder := by
  intro t
  induction t with
  | nil => rfl
  | node c l k v r ihl ihr =>
    simp only [inorderPaths, Tree.inorder, List.filterMap_append,
      List.filterMap_map]
    rw [show ((Tree.nodeAt (Tree.node c l k v r)) ∘ (Dir.left :: ·)) =
        Tree.nodeAt l from rfl,
      show ((Tree.nodeAt (Tree.node c l k v r)) ∘ (Dir.right :: ·)) =
        Tree.nodeAt r from rfl, ihl, ihr]
    simp [List.filterMap, nodeAt_nil_path]

theorem inorderPaths_head :
    ∀ t : Tree K V, t.isNil = false →
      (inorderPaths t).head? = some t.minPath := by
  intro t
  induction t with
  | nil => intro h; simp at h
  | node c l k v r ihl ihr =>
    intro _
    cases hl : l with
    | nil => simp [inorderPaths, Tree.minPath]
    | node c2 l2 k2 v2 r2 =>
      rw [← hl]
      have hln : l.isNil = false := by rw [hl]; rfl
      have := ihl hln
      rcases hL : inorderPaths l with _ | ⟨q, rest⟩
      · rw [hL] at this; simp at this
      · rw [hL] at this
        simp only [List.head?] at this
        have hq : q = l.minPath := by simpa using this
        simp [inorderPaths, hL, hq, Tree.minPath, hln]

theorem chain'_imp_mem {α : Type} {R S : α → α → Prop} :
    ∀ ps : List α, (∀ p ∈ ps, ∀ q ∈ ps, R p q → S p q) →
      List.Chain' R ps → List.Chain' S ps := by
  intro ps
  induction ps with
  | nil => intro _ _; exact List.chain'_nil
  | cons a l ih =>
    intro hmem hch
    cases l with
    | nil => exact List.chain'_singleton a
    | cons b l2 =>
      rw [List.chain'_cons] at hch ⊢
      refine ⟨hmem a (by simp) b (by simp) hch.1, ?_⟩
      exact ih (fun p hp q hq h => hmem p (by simp [hp]) q (by simp [hq]) h)
        hch.2

theorem getLast?_append_ne {α : Type} :
    ∀ (a b : List α), b ≠ [] → (a ++ b).getLast? = b.getLast? := by
  intro a
  induction a with
  | nil => intro b _; rfl
  | cons x a ih =>
    intro b hb
    rcases hab : a ++ b with _ | ⟨y, l⟩
    · exact absurd (List.append_eq_nil.1 hab).2 hb
    · rw [List.cons_append, hab, List.getLast?_cons_cons, ← hab, ih b hb]

theorem mem_of_getLast?_eq {α : Type} :
    ∀ (l : List α) (a : α), l.getLast? = some a → a ∈ l := by
  intro l
  induction l with
  | nil => intro a h; simp at h
  | cons x l ih =>
    intro a h
    cases l with
    | nil =>
      have : x = a := by simpa using h
      simp [this]
    | cons y l2 =>
      rw [List.getLast?_cons_cons] at h
      exact List.mem_cons_of_mem x (ih a h)

/-- the in-order path list is exactly the orbit of next_node: each
entry steps to the one after it, and the last one steps to the end. -/
theorem inorderPaths_chain :
    ∀ t : Tree K V,
      List.Chain' (fun p q => next_node t p = some q) (inorderPaths t) ∧
      (∀ p, (inorderPaths t).getLast? = some p → next_node t p = none) := by
  intro t
  induction t with
  | nil => exact ⟨List.chain'_nil, fun p h => by simp [inorderPaths] at h⟩
  | node c l k v r ihl ihr =>
    obtain ⟨chl, lastl⟩ := ihl
    obtain ⟨chr, lastr⟩ := ihr
    constructor
    · rw [inorderPaths, List.chain'_append]
      refine ⟨?_, ?_, ?_⟩
      · rw [List.chain'_append]
        refine ⟨?_, List.chain'_singleton _, ?_⟩
        · rw [List.chain'_map]
          refine chain'_imp_mem _ ?_ chl
          intro p hp q hq hpq
          rw [next_node_left c k v r (inorderPaths_valid l p hp), hpq]
        · intro x hx y hy
          have hy2 : ([] : List Dir) = y := by simpa using hy
          subst hy2
          rw [Option.mem_def, List.getLast?_map] at hx
          rcases hgl : (inorderPaths l).getLast? with _ | pl
          · rw [hgl] at hx; simp at hx
          · rw [hgl] at hx
            have hx2 : Dir.left :: pl = x := by simpa using hx
            subst hx2
            rw [next_node_left c k v r
              (inorderPaths_valid l pl (mem_of_getLast?_eq _ _ hgl))]
            rw [lastl pl hgl]
      · rw [List.chain'_map]
        refine chain'_imp_mem _ ?_ chr
        intro p hp q hq hpq
        rw [next_node_right c l k v (inorderPaths_valid r p hp), hpq]
        rfl
      · intro x hx y hy
        rw [Option.mem_def, getLast?_append_ne _ _ (by simp)] at hx
        have hx2 : x = [] := by simpa using hx
        subst hx2
        rw [Option.mem_def, List.head?_map] at hy
        rcases hh : (inorderPaths r).head? with _ | q0
        · rw [hh] at hy; simp at hy
        · rw [hh] at hy
          have hrn : r.isNil = false := by
            cases hr0 : r with
            | nil => rw [hr0] at hh; simp [inorderPaths] at hh
            | node c2 l2 k2 v2 r2 => rfl
          rw [inorderPaths_head r hrn] at hh
          have hq0 : r.minPath = q0 := by simpa using hh
          have hy2 : Dir.right :: r.minPath = y := by
            rw [hq0]
            simpa using hy
          subst hy2
          unfold next_node
          have hs : Tree.subtreeAt (Tree.node c l k v r) [] =
              some (Tree.node c l k v r) := rfl
          rw [hs]
          dsimp only
          rw [if_neg (by simp [hrn])]
          rfl
    · intro p hp
      rw [inorderPaths] at hp
      rcases hr : inorderPaths r with _ | ⟨q0, rest⟩
      · rw [hr] at hp
        simp only [List.map_nil, List.append_nil] at hp
        rw [getLast?_append_ne _ _ (by simp)] at hp
        have hp2 : p = [] := by simpa using hp
        subst hp2
        have hrnil : r = Tree.nil := inorderPaths_eq_nil_iff.1 hr
        subst hrnil
        rfl
      · rw [hr] at hp
        have hne : ((q0 :: rest).map (Dir.right :: ·)) ≠ [] := by simp
        rw [getLast?_append_ne _ _ hne, List.getLast?_map] at hp
        rcases hgl : (q0 :: rest).getLast? with _ | pr
        · rw [hgl] at hp; simp at hp
        · rw [hgl] at hp
          have hp2 : Dir.right :: pr = p := by simpa using hp
          subst hp2
          have hpr_mem : pr ∈ inorderPaths r := by
            rw [hr]
            exact mem_of_getLast?_eq _ _ hgl
          have hgl2 : (inorderPaths r).getLast? = some pr := by rw [hr, hgl]
          rw [next_node_right c l k v (inorderPaths_valid r pr hpr_mem),
            lastr pr hgl2]
          rfl

/-- the dereference-and-advance loop along a chain of successor steps
collects exactly the entries at the listed positions. -/
theorem visitFrom_chain (t : Tree K V) :
    ∀ (ps : List (List Dir)) (fuel : Nat), ps.length < fuel →
      List.Chain' (fun p q => next_node t p = some q) ps →
      (∀ p ∈ ps, (Tree.nodeAt t p).isSome = true) →
      (∀ p, ps.getLast? = some p → next_node t p = none) →
      visitFrom t ps.head? fuel = ps.filterMap (Tree.nodeAt t) := by
  intro ps
  induction ps with
  | nil =>
    intro fuel hf _ _ _
    cases fuel with
    | zero => omega
    | succ n => rfl
  | cons p rest ih =>
    intro fuel hf hch hval hlast
    cases fuel with
    | zero => omega
    | succ n =>
      have hv := hval p (by simp)
      rcases he : Tree.nodeAt t p with _ | e
      · rw [he] at hv; simp at hv
      · rw [show (p :: rest).head? = some p from rfl, visitFrom, he]
        dsimp only
        have hnext : next_node t p = rest.head? := by
          cases rest with
          | nil => exact hlast p rfl
          | cons q rest2 => exact (List.chain'_cons.1 hch).1
        rw [hnext, ih n (by simp at hf ⊢; omega) hch.tail
          (fun q hq => hval q (List.mem_cons_of_mem p hq))
          (fun q hq => hlast q (by
            cases rest with
            | nil => simp at hq
            | cons a b => rw [List.getLast?_cons_cons]; exact hq))]
        simp [List.filterMap_cons, he]

/-- iterating from begin() to end() by operator++ yields precisely the
in-order entry sequence. -/
theorem traversal_eq_inorder (t : Tree K V) : traversal t = t.inorder := by
  unfold traversal
  cases ht : t.isNil with
  | true =>
    rw [if_pos rfl]
    have h2 : t = Tree.nil := Tree.isNil_iff.1 ht
    subst h2
    rfl
  | false =>
    rw [if_neg (by simp)]
    have hh := inorderPaths_head t ht
    obtain ⟨hch, hlast⟩ := inorderPaths_chain t
    have hv := visitFrom_chain t (inorderPaths t) (t.inorder.length + 1)
      (by rw [inorderPaths_length]; omega) hch (inorderPaths_valid t) hlast
    rw [hh] at hv
    rw [hv, inorderPaths_entries]

/-! ### find and the insertion descent against the stored entries -/

theorem find_data_sound {cmp : K → K → Bool} (k : K) :
    ∀ (t : Tree K V) (k2 : K) (v2 : V),
      find_data cmp t k = some (k2, v2) →
      (k2, v2) ∈ t.inorder ∧ cmp k k2 = false ∧ cmp k2 k = false := by
  intro t
  induction t with
  | nil => intro k2 v2 h; rw [find_data] at h; simp at h
  | node c l k0 v0 r ihl ihr =>
    intro k2 v2 h
    rw [find_data] at h
    by_cases h1 : cmp k k0
    · rw [if_pos h1] at h
      obtain ⟨hm, he⟩ := ihl k2 v2 h
      exact ⟨by simp [Tree.inorder, hm], he⟩
    · rw [if_neg h1] at h
      by_cases h2 : cmp k0 k
      · rw [if_pos h2] at h
        obtain ⟨hm, he⟩ := ihr k2 v2 h
        exact ⟨by simp [Tree.inorder, hm], he⟩
      · rw [if_neg h2] at h
        simp at h
        obtain ⟨hk, hv⟩ := h
        subst hk
        subst hv
        exact ⟨by simp [Tree.inorder], by simpa using h1, by simpa using h2⟩

theorem find_data_complete {cmp : K → K → Bool} (hsw : IsSWO cmp)
    (k k2 : K) :
    ∀ (t : Tree K V) (v : V),
      sortedLt cmp t.inorder → (k2, v) ∈ t.inorder →
      cmp k k2 = false → cmp k2 k = false →
      (find_data cmp t k).isSome = true := by
  intro t
  induction t with
  | nil => intro v _ hm _ _; simp [Tree.inorder] at hm
  | node c l k0 v0 r ihl ihr =>
    intro v hs hm he1 he2
    rw [Tree.inorder] at hm
    rw [sortedLt, Tree.inorder, List.pairwise_append] at hs
    obtain ⟨hsl, hsr0, hcross⟩ := hs
    have hsr := List.pairwise_cons.1 hsr0
    rw [find_data]
    rcases List.mem_append.1 hm with hml | hmr
    · have hlt : cmp k2 k0 = true := hcross _ hml (k0, v0) (by simp)
      have hkk0 : cmp k k0 = true := by
        cases h1 : cmp k k0 with
        | true => rfl
        | false =>
          cases h2 : cmp k0 k with
          | true => exact absurd (hsw.trans _ _ _ hlt h2) (by simp [he2])
          | false =>
            have := hsw.incomp_trans k2 k k0 he2 he1 h1 h2
            exact absurd this.1 (by simp [hlt])
      rw [if_pos hkk0]
      exact ihl v hsl hml he1 he2
    · rcases List.mem_cons.1 hmr with heq | hmr2
      · have hk20 : k2 = k0 := by
          have := congrArg Prod.fst heq
          simpa using this
        rw [if_neg (by rw [← hk20]; simp [he1]),
          if_neg (by rw [← hk20]; simp [he2])]
        rfl
      · have hlt : cmp k0 k2 = true := hsr.1 _ hmr2
        have h1 : cmp k k0 = false := by
          cases h1 : cmp k k0 with
          | false => rfl
          | true => exact absurd (hsw.trans _ _ _ h1 hlt) (by simp [he1])
        have h2 : cmp k0 k = true := by
          cases h2 : cmp k0 k with
          | true => rfl
          | false =>
            have := hsw.incomp_trans k0 k k2 h2 h1 he1 he2
            exact absurd this.1 (by simp [hlt])
        rw [if_neg (by simp [h1]), if_pos h2]
        exact ihr v hsr.2 hmr2 he1 he2

theorem find_node_isSome_eq {cmp : K → K → Bool} (k : K) :
    ∀ t : Tree K V,
      (find_node cmp t k).isSome = (find_data cmp t k).isSome := by
  intro t
  induction t with
  | nil => rfl
  | node c l k0 v0 r ihl ihr =>
    rw [find_node, find_data]
    by_cases h1 : cmp k k0
    · rw [if_pos h1, if_pos h1]
      cases hx : find_node cmp l k <;>
        cases hy : find_data cmp l k <;>
          simp [hx, hy] at ihl ⊢ <;> simp [ihl]
    · rw [if_neg h1, if_neg h1]
      by_cases h2 : cmp k0 k
      · rw [if_pos h2, if_pos h2]
        cases hx : find_node cmp r k <;>
          cases hy : find_data cmp r k <;>
            simp [hx, hy] at ihr ⊢ <;> simp [ihr]
      · rw [if_neg h2, if_neg h2]
        rfl

theorem find_node_sound {cmp : K → K → Bool} (k : K) :
    ∀ (t : Tree K V) (p : List Dir), find_node cmp t k = some p →
      ∃ k2 v2, Tree.nodeAt t p = some (k2, v2) ∧
        find_data cmp t k = some (k2, v2) := by
  intro t
  induction t with
  | nil => intro p h; rw [find_node] at h; simp at h
  | node c l k0 v0 r ihl ihr =>
    intro p h
    rw [find_node] at h
    rw [find_data]
    by_cases h1 : cmp k k0
    · rw [if_pos h1] at h
      rw [if_pos h1]
      rcases hfn : find_node cmp l k with _ | p0
      · rw [hfn] at h; simp at h
      · rw [hfn] at h
        have hp : Dir.left :: p0 = p := by simpa using h
        subst hp
        obtain ⟨k2, v2, hna, hfd⟩ := ihl p0 hfn
        exact ⟨k2, v2, by rw [nodeAt_cons_left]; exact hna, hfd⟩
    · rw [if_neg h1] at h
      rw [if_neg h1]
      by_cases h2 : cmp k0 k
      · rw [if_pos h2] at h
        rw [if_pos h2]
        rcases hfn : find_node cmp r k with _ | p0
        · rw [hfn] at h; simp at h
        · rw [hfn] at h
          have hp : Dir.right :: p0 = p := by simpa using h
          subst hp
          obtain ⟨k2, v2, hna, hfd⟩ := ihr p0 hfn
          exact ⟨k2, v2, by rw [nodeAt_cons_right]; exact hna, hfd⟩
      · rw [if_neg h2] at h
        rw [if_neg h2]
        have hp : ([] : List Dir) = p := by simpa using h
        subst hp
        exact ⟨k0, v0, rfl, rfl⟩

theorem descend_inl_find_data_none {cmp : K → K → Bool} (k : K) :
    ∀ (t : Tree K V) (acc ctx : List (Frame K V)),
      descend cmp k t acc = Sum.inl ctx → find_data cmp t k = none := by
  intro t
  induction t with
  | nil => intro acc ctx _; rfl
  | node c l k0 v0 r ihl ihr =>
    intro acc ctx h
    rw [descend] at h
    rw [find_data]
    by_cases h1 : cmp k k0
    · rw [if_pos h1] at h
      rw [if_pos h1]
      exact ihl _ _ h
    · rw [if_neg h1] at h
      rw [if_neg h1]
      by_cases h2 : cmp k0 k
      · rw [if_pos h2] at h
        rw [if_pos h2]
        exact ihr _ _ h
      · rw [if_neg h2] at h
        simp at h

theorem descend_inr_find_data {cmp : K → K → Bool} (k : K) :
    ∀ (t : Tree K V) (acc ctx : List (Frame K V)) (k2 : K) (v2 : V),
      descend cmp k t acc = Sum.inr (ctx, k2, v2) →
      find_data cmp t k = some (k2, v2) := by
  intro t
  induction t with
  | nil => intro acc ctx k2 v2 h; rw [descend] at h; simp at h
  | node c l k0 v0 r ihl ihr =>
    intro acc ctx k2 v2 h
    rw [descend] at h
    rw [find_data]
    by_cases h1 : cmp k k0
    · rw [if_pos h1] at h
      rw [if_pos h1]
      exact ihl _ _ _ _ h
    · rw [if_neg h1] at h
      rw [if_neg h1]
      by_cases h2 : cmp k0 k
      · rw [if_pos h2] at h
        rw [if_pos h2]
        exact ihr _ _ _ _ h
      · rw [if_neg h2] at h
        rw [if_neg h2]
        simp at h
        obtain ⟨-, hk, hv⟩ := h
        rw [hk, hv]

/-! ### Order-theoretic consequences of sortedness under a strict weak
ordering -/

/-- once the unique entry equivalent to k is removed from a sorted
sequence, every remaining entry compares strictly with k. -/
theorem no_equiv_of_sorted_remove {cmp : K → K → Bool} (hsw : IsSWO cmp)
    {A B : List (K × V)} {zk : K} {zv : V} {k : K}
    (hs : sortedLt cmp (A ++ (zk, zv) :: B))
    (hk1 : cmp k zk = false) (hk2 : cmp zk k = false) :
    ∀ e ∈ A ++ B, cmp k e.1 = true ∨ cmp e.1 k = true := by
  rw [sortedLt, List.pairwise_append] at hs
  obtain ⟨hsA, hsB0, hcross⟩ := hs
  have hsB := List.pairwise_cons.1 hsB0
  intro e he
  rcases List.mem_append.1 he with heA | heB
  · have hlt : cmp e.1 zk = true := hcross _ heA (zk, zv) (by simp)
    cases h1 : cmp e.1 k with
    | true => exact Or.inr rfl
    | false =>
      cases h2 : cmp k e.1 with
      | true => exact Or.inl rfl
      | false =>
        have := hsw.incomp_trans e.1 k zk h1 h2 hk1 hk2
        exact absurd this.1 (by simp [hlt])
  · have hlt : cmp zk e.1 = true := hsB.1 _ heB
    cases h1 : cmp k e.1 with
    | true => exact Or.inl rfl
    | false =>
      cases h2 : cmp e.1 k with
      | true => exact Or.inr rfl
      | false =>
        have := hsw.incomp_trans zk k e.1 hk2 hk1 h1 h2
        exact absurd this.1 (by simp [hlt])

/-- the last entry of a sorted sequence is not below any entry. -/
theorem sorted_getLast_max {cmp : K → K → Bool}
    (hirr : ∀ a, cmp a a = false)
    (htr : ∀ a b c, cmp a b = true → cmp b c = true → cmp a c = true) :
    ∀ (l : List (K × V)) (em : K × V), sortedLt cmp l →
      l.getLast? = some em → ∀ e ∈ l, cmp em.1 e.1 = false := by
  intro l
  induction l with
  | nil => intro em _ h; simp at h
  | cons x rest ih =>
    intro em hs hl e he
    cases rest with
    | nil =>
      have hx : x = em := by simpa using hl
      have he2 : e = x := by simpa using he
      rw [he2, ← hx]
      exact hirr x.1
    | cons y rest2 =>
      rw [List.getLast?_cons_cons] at hl
      have hs2 := List.pairwise_cons.1 hs
      have hmem : em ∈ y :: rest2 := mem_of_getLast?_eq _ _ hl
      rcases List.mem_cons.1 he with he2 | he2
      · have hxe : cmp x.1 em.1 = true := hs2.1 _ hmem
        subst he2
        cases hc : cmp em.1 e.1 with
        | false => rfl
        | true => exact absurd (htr _ _ _ hc hxe) (by simp [hirr])
      · exact ih em hs2.2 hl e he2

/-- no two entries of a sorted sequence are equivalent. -/
theorem sorted_no_equiv_pair {cmp : K → K → Bool} {l : List (K × V)}
    (hs : sortedLt cmp l) :
    l.Pairwise (fun a b => cmp a.1 b.1 = true ∨ cmp b.1 a.1 = true) :=
  hs.imp (fun h => Or.inl h)

/-! ### The boundary moves of the cursor -/

theorem minPath_all_left :
    ∀ t : Tree K V, ∀ d ∈ t.minPath, d = Dir.left := by
  intro t
  induction t with
  | nil => intro d hd; simp [Tree.minPath] at hd
  | node c l k v r ihl ihr =>
    intro d hd
    rw [Tree.minPath] at hd
    by_cases hl : l.isNil = true
    · rw [if_pos hl] at hd
      simp at hd
    · rw [if_neg hl] at hd
      rcases List.mem_cons.1 hd with rfl | hd2
      · rfl
      · exact ihl d hd2

theorem climbL_none_of_all_left :
    ∀ p : List Dir, (∀ d ∈ p, d = Dir.left) → climbL p = none := by
  intro p
  induction p with
  | nil => intro _; rfl
  | cons d p ih =>
    intro h
    have hd : d = Dir.left := h d (by simp)
    subst hd
    rw [climbL]
    exact ih (fun d2 hd2 => h d2 (by simp [hd2]))

theorem subtreeAt_minPath :
    ∀ t : Tree K V, t.isNil = false →
      ∃ c k v r, Tree.subtreeAt t t.minPath =
        some (Tree.node c Tree.nil k v r) := by
  intro t
  induction t with
  | nil => intro h; simp at h
  | node c l k v r ihl ihr =>
    intro _
    rw [Tree.minPath]
    by_cases hl : l.isNil = true
    · rw [if_pos hl]
      rw [Tree.isNil_iff] at hl
      subst hl
      exact ⟨c, k, v, r, rfl⟩
    · rw [if_neg hl]
      obtain ⟨c2, k2, v2, r2, h2⟩ := ihl (by simpa using hl)
      refine ⟨c2, k2, v2, r2, ?_⟩
      rw [show Tree.subtreeAt (Tree.node c l k v r) (Dir.left :: l.minPath) =
        Tree.subtreeAt l l.minPath from rfl]
      exact h2

/-- the minimum node has no predecessor: prev_node from begin() is
null. -/
theorem prev_node_minPath (t : Tree K V) (h : t.isNil = false) :
    prev_node t t.minPath = none := by
  obtain ⟨c, k, v, r, hs⟩ := subtreeAt_minPath t h
  unfold prev_node
  rw [hs]
  dsimp only
  rw [if_pos (show (Tree.nil : Tree K V).isNil = true from rfl)]
  have hcl : climbL t.minPath.reverse = none :=
    climbL_none_of_all_left _
      (fun d hd => minPath_all_left t d (List.mem_reverse.1 hd))
  rw [hcl]
  rfl

/-- max_node holds the last in-order entry. -/
theorem nodeAt_maxPath :
    ∀ t : Tree K V, t.isNil = false →
      Tree.nodeAt t t.maxPath = t.inorder.getLast? := by
  intro t
  induction t with
  | nil => intro h; simp at h
  | node c l k v r ihl ihr =>
    intro _
    rw [Tree.maxPath]
    by_cases hr : r.isNil = true
    · rw [if_pos hr]
      rw [Tree.isNil_iff] at hr
      subst hr
      rw [nodeAt_nil_path, Tree.inorder,
        getLast?_append_ne _ _ (by simp)]
      rfl
    · rw [if_neg hr]
      rw [nodeAt_cons_right, ihr (by simpa using hr)]
      rw [Tree.inorder, getLast?_append_ne _ _ (by simp)]
      have hio : r.inorder ≠ [] := by
        rw [Ne, Tree.inorder_eq_nil_iff]
        intro h2
        rw [h2] at hr
        simp at hr
      rcases hio2 : r.inorder with _ | ⟨a, b⟩
      · exact absurd hio2 hio
      · rw [List.getLast?_cons_cons]

/-! ### Freshness of the nodes allocated by the copy -/

theorem clone_alloc_spec :
    ∀ (a : ATree K V) (f : Nat),
      (ATree.clone_alloc a f).1.strip = a.strip ∧
      f ≤ (ATree.clone_alloc a f).2 ∧
      (∀ x ∈ (ATree.clone_alloc a f).1.addrs,
        f ≤ x ∧ x < (ATree.clone_alloc a f).2) := by
  intro a
  induction a with
  | nil =>
    intro f
    exact ⟨rfl, Nat.le_refl f,
      by intro x hx; simp [ATree.clone_alloc, ATree.addrs] at hx⟩
  | node ad c l k v r ihl ihr =>
    intro f
    obtain ⟨hl1, hl2, hl3⟩ := ihl (f + 1)
    obtain ⟨hr1, hr2, hr3⟩ := ihr (ATree.clone_alloc l (f + 1)).2
    have e1 : (ATree.clone_alloc (ATree.node ad c l k v r) f).1 =
        ATree.node f c (ATree.clone_alloc l (f + 1)).1 k v
          (ATree.clone_alloc r (ATree.clone_alloc l (f + 1)).2).1 := rfl
    have e2 : (ATree.clone_alloc (ATree.node ad c l k v r) f).2 =
        (ATree.clone_alloc r (ATree.clone_alloc l (f + 1)).2).2 := rfl
    refine ⟨?_, ?_, ?_⟩
    · rw [e1]
      simp only [ATree.strip]
      rw [hl1, hr1]
    · rw [e2]
      omega
    · intro x hx
      rw [e1] at hx
      simp only [ATree.addrs, List.mem_cons, List.mem_append] at hx
      rw [e2]
      rcases hx with rfl | hx2 | hx3
      · omega
      · have := hl3 x hx2
        omega
      · have := hr3 x hx3
        omega

/-- cloning above the source watermark shares no node with the
source. -/
theorem clone_alloc_disjoint {a : ATree K V} {f : Nat}
    (h : ∀ x ∈ a.addrs, x < f) :
    ∀ x ∈ a.addrs, x ∉ (ATree.clone_alloc a f).1.addrs := by
  intro x hx hx2
  have h1 := (clone_alloc_spec a f).2.2 x hx2
  have h2 := h x hx
  omega

theorem natLt_swo : IsSWO natLt := by
  constructor
  · intro a
    simp [natLt]
  · intro a b c h1 h2
    simp [natLt] at h1 h2 ⊢
    omega
  · intro a b c h1 h2 h3 h4
    simp [natLt] at h1 h2 h3 h4 ⊢
    omega

/-- black-height consistency makes every root-to-null black count equal
to the canonical black height. -/
theorem blackHeights_const :
    ∀ t : Tree K V, Tree.BH t → ∀ n ∈ t.blackHeights, n = t.bh := by
  intro t
  induction t with
  | nil =>
    intro _ n hn
    simp [Tree.blackHeights] at hn
    simp [hn, Tree.bh]
  | node c l k v r ihl ihr =>
    rintro ⟨hbl, hbr, hlr⟩ n hn
    simp only [Tree.blackHeights, List.mem_map, List.mem_append] at hn
    obtain ⟨m2, hm2, rfl⟩ := hn
    rcases hm2 with h | h
    · rw [ihl hbl m2 h]
      simp [Tree.bh]
    · rw [ihr hbr m2 h, ← hlr]
      simp [Tree.bh]

theorem pairwise_mem_ne {α : Type} {R : α → α → Prop} :
    ∀ l : List α, List.Pairwise R l → ∀ a ∈ l, ∀ b ∈ l, a ≠ b →
      R a b ∨ R b a := by
  intro l
  induction l with
  | nil => intro _ a ha; simp at ha
  | cons x rest ih =>
    intro hp a ha b hb hne
    have hp2 := List.pairwise_cons.1 hp
    rcases List.mem_cons.1 ha with rfl | ha2
    · rcases List.mem_cons.1 hb with rfl | hb2
      · exact absurd rfl hne
      · exact Or.inl (hp2.1 b hb2)
    · rcases List.mem_cons.1 hb with rfl | hb2
      · exact Or.inr (hp2.1 a ha2)
      · exact ih hp2.2 a ha2 b hb2 hne

/-- two entries of a sorted sequence with equivalent keys coincide. -/
theorem sorted_equiv_unique {cmp : K → K → Bool} {l : List (K × V)}
    (hs : sortedLt cmp l) {a b : K × V} (ha : a ∈ l) (hb : b ∈ l)
    (h1 : cmp a.1 b.1 = false) (h2 : cmp b.1 a.1 = false) : a = b := by
  by_contra hne
  rcases pairwise_mem_ne l hs a ha b hb hne with h | h
  · exact absurd h (by simp [h1])
  · exact absurd h (by simp [h2])

theorem sorted_nodup {cmp : K → K → Bool} (hirr : ∀ a, cmp a a = false)
    {l : List (K × V)} (hs : sortedLt cmp l) : l.Nodup := by
  refine hs.imp ?_
  intro a b h heq
  rw [heq] at h
  exact absurd h (by simp [hirr])

/-! ### The claims -/

/-- C1: every map reachable from the empty map by the public mutating
operations (insert, operator[], erase at a valid cursor, clear, copy)
satisfies the red-black invariants after the operation returns: the
root, if present, is black; no red node has a red parent; and every
root-to-null path passes the same number of black nodes. -/
theorem C1_reachable_red_black {cmp : K → K → Bool} {m : map K V}
    (h : Reachable cmp m) :
    m.root.isRed = false ∧ Tree.noRR m.root ∧
      (∀ n ∈ m.root.blackHeights, n = m.root.bh) := by
  obtain ⟨h1, h2, h3⟩ := reachable_rb h
  exact ⟨h1, h2, blackHeights_const m.root h3⟩

theorem C1_witness :
    (insert natLt (⟨Tree.nil, 0⟩ : map Nat Nat) 1 10).1.root.isRed = false ∧
    Tree.noRR (insert natLt (⟨Tree.nil, 0⟩ : map Nat Nat) 1 10).1.root ∧
    (∀ n ∈ (insert natLt
        (⟨Tree.nil, 0⟩ : map Nat Nat) 1 10).1.root.blackHeights,
      n = (insert natLt (⟨Tree.nil, 0⟩ : map Nat Nat) 1 10).1.root.bh) :=
  C1_reachable_red_black (Reachable.ins _ 1 10 Reachable.empty)

/-- C2: on every reachable map, iterating from begin() to end() by
successive increments visits exactly the stored entries, each exactly
once, in strictly increasing key order under the predicate; no two
stored keys are equivalent; and size() equals the number of visited
entries. -/
theorem C2_traversal_sorted {cmp : K → K → Bool} (hsw : IsSWO cmp)
    {m : map K V} (h : Reachable cmp m) :
    traversal m.root = m.root.inorder ∧
    (traversal m.root).Nodup ∧
    sortedLt cmp (traversal m.root) ∧
    (traversal m.root).Pairwise
      (fun a b => cmp a.1 b.1 = true ∨ cmp b.1 a.1 = true) ∧
    size m = (traversal m.root).length := by
  obtain ⟨hrb, hsort, hcount⟩ := reachable_valid hsw.trans h
  rw [traversal_eq_inorder]
  exact ⟨rfl, sorted_nodup hsw.irrefl hsort, hsort,
    sorted_no_equiv_pair hsort, hcount⟩

theorem C2_witness :
    traversal (insert natLt
        (insert natLt (⟨Tree.nil, 0⟩ : map Nat Nat) 2 20).1 1 10).1.root =
      (insert natLt
        (insert natLt
          (⟨Tree.nil, 0⟩ : map Nat Nat) 2 20).1 1 10).1.root.inorder ∧
    (traversal (insert natLt
        (insert natLt
          (⟨Tree.nil, 0⟩ : map Nat Nat) 2 20).1 1 10).1.root).Nodup ∧
    sortedLt natLt (traversal (insert natLt
        (insert natLt (⟨Tree.nil, 0⟩ : map Nat Nat) 2 20).1 1 10).1.root) ∧
    (traversal (insert natLt
        (insert natLt
          (⟨Tree.nil, 0⟩ : map Nat Nat) 2 20).1 1 10).1.root).Pairwise
      (fun a b => natLt a.1 b.1 = true ∨ natLt b.1 a.1 = true) ∧
    size (insert natLt
        (insert natLt (⟨Tree.nil, 0⟩ : map Nat Nat) 2 20).1 1 10).1 =
      (traversal (insert natLt
        (insert natLt
          (⟨Tree.nil, 0⟩ : map Nat Nat) 2 20).1 1 10).1.root).length :=
  C2_traversal_sorted natLt_swo
    (Reachable.ins _ 1 10 (Reachable.ins _ 2 20 Reachable.empty))

/-- C3: inserting an already-stored key returns inserted=false together
with a cursor at the pre-existing entry, and returns the map object
itself, so size(), the stored value, and every other entry are
unchanged. -/
theorem C3_duplicate_insert {cmp : K → K → Bool} (hsw : IsSWO cmp)
    {m : map K V} {k : K} {v0 : V} (vnew : V) (hv : Valid cmp m)
    (hmem : (k, v0) ∈ m.root.inorder) :
    (insert cmp m k vnew).1 = m ∧
    (insert cmp m k vnew).2.2 = false ∧
    ∃ p, (insert cmp m k vnew).2.1 = some p ∧
      Tree.nodeAt m.root p = some (k, v0) := by
  rcases hd : descend cmp k m.root [] with ctx | ⟨ctx, k2, v2⟩
  · have hnone := descend_inl_find_data_none k m.root [] ctx hd
    have hsome := find_data_complete hsw k k m.root v0 hv.2.1 hmem
      (hsw.irrefl k) (hsw.irrefl k)
    rw [hnone] at hsome
    simp at hsome
  · rw [insert, hd]
    refine ⟨rfl, rfl, pathOfFrames ctx, rfl, ?_⟩
    obtain ⟨fs, c2, l2, r2, hctx, hplug, he1, he2⟩ :=
      descend_inr_spec k m.root [] ctx k2 v2 hd
    rw [List.append_nil] at hctx
    subst hctx
    have hna : Tree.nodeAt m.root (pathOfFrames ctx) = some (k2, v2) := by
      rw [← hplug]
      unfold Tree.nodeAt
      rw [subtreeAt_plug]
    have hmem2 : (k2, v2) ∈ m.root.inorder := by
      rw [← hplug, plug_inorder]
      simp
    have heq : ((k2, v2) : K × V) = (k, v0) :=
      sorted_equiv_unique hv.2.1 hmem2 hmem he2 he1
    rw [hna, heq]

theorem C3_witness :
    (insert natLt (insert natLt (⟨Tree.nil, 0⟩ : map Nat Nat) 1 10).1
        1 99).1 = (insert natLt (⟨Tree.nil, 0⟩ : map Nat Nat) 1 10).1 ∧
    (insert natLt (insert natLt (⟨Tree.nil, 0⟩ : map Nat Nat) 1 10).1
        1 99).2.2 = false ∧
    ∃ p, (insert natLt (insert natLt (⟨Tree.nil, 0⟩ : map Nat Nat) 1 10).1
        1 99).2.1 = some p ∧
      Tree.nodeAt (insert natLt
        (⟨Tree.nil, 0⟩ : map Nat Nat) 1 10).1.root p = some (1, 10) :=
  C3_duplicate_insert natLt_swo 99
    (reachable_valid natLt_swo.trans (Reachable.ins _ 1 10 Reachable.empty))
    (by decide)

/-- C4: after erasing the entry for key k through the cursor find
returned for it, find yields the end cursor, count yields 0, at
signals the missing-key error, and size() is exactly one less. -/
theorem C4_erase_lookup {cmp : K → K → Bool} (hsw : IsSWO cmp)
    {m : map K V} {k : K} {p : List Dir} (hv : Valid cmp m)
    (hf : find cmp m k = some p) :
    find cmp (erase_map m p) k = none ∧
    count cmp (erase_map m p) k = 0 ∧
    at' cmp (erase_map m p) k = Except.error MapError.index_out_of_bound ∧
    size (erase_map m p) + 1 = size m := by
  obtain ⟨k2, v2, hna, hfd⟩ := find_node_sound k m.root p hf
  obtain ⟨hmem, he1, he2⟩ := find_data_sound k m.root k2 v2 hfd
  have hns : (Tree.nodeAt m.root p).isSome = true := by rw [hna]; rfl
  obtain ⟨zc, zl, zk, zv, zr, ctx, hz, hat⟩ := nodeAt_isSome_zipTo hns
  rw [hat] at hna
  simp at hna
  obtain ⟨hzk, hzv⟩ := hna
  obtain ⟨hold, hnew⟩ := erase_at_found hz
  have hold2 : m.root.inorder =
      (ctxL ctx ++ zl.inorder) ++ (zk, zv) :: (zr.inorder ++ ctxR ctx) := by
    rw [hold]
    simp
  have hnew2 : (erase_at m.root p).inorder =
      (ctxL ctx ++ zl.inorder) ++ (zr.inorder ++ ctxR ctx) := by
    rw [hnew]
    simp
  have hsorted := hv.2.1
  rw [hold2] at hsorted
  have hno := no_equiv_of_sorted_remove hsw hsorted
    (by rw [hzk]; exact he1) (by rw [hzk]; exact he2)
  have hfd2 : find_data cmp (erase_map m p).root k = none := by
    rcases hx : find_data cmp (erase_map m p).root k with _ | e
    · rfl
    · obtain ⟨hmem3, hx1, hx2⟩ := find_data_sound k _ e.1 e.2 hx
      rw [show (erase_map m p).root = erase_at m.root p from rfl,
        hnew2] at hmem3
      rcases hno e hmem3 with h | h
      · rw [hx1] at h
        simp at h
      · rw [hx2] at h
        simp at h
  refine ⟨?_, ?_, ?_, ?_⟩
  · have hiso := @find_node_isSome_eq K V cmp k (erase_map m p).root
    rw [hfd2] at hiso
    rcases hfn : find_node cmp (erase_map m p).root k with _ | q
    · exact hfn
    · rw [hfn] at hiso
      simp at hiso
  · show (match find_data cmp (erase_map m p).root k with
      | none => 0
      | some _ => 1) = 0
    rw [hfd2]
  · show (match find_data cmp (erase_map m p).root k with
      | none => Except.error MapError.index_out_of_bound
      | some e => Except.ok e.2) = Except.error MapError.index_out_of_bound
    rw [hfd2]
  · have hc := hv.2.2
    rw [hold2] at hc
    show m.node_count - 1 + 1 = m.node_count
    simp [List.length_append] at hc
    omega

theorem C4_witness :
    find natLt (erase_map
        (insert natLt (⟨Tree.nil, 0⟩ : map Nat Nat) 1 10).1 []) 1 = none ∧
    count natLt (erase_map
        (insert natLt (⟨Tree.nil, 0⟩ : map Nat Nat) 1 10).1 []) 1 = 0 ∧
    at' natLt (erase_map
        (insert natLt (⟨Tree.nil, 0⟩ : map Nat Nat) 1 10).1 []) 1 =
      Except.error MapError.index_out_of_bound ∧
    size (erase_map
        (insert natLt (⟨Tree.nil, 0⟩ : map Nat Nat) 1 10).1 []) + 1 =
      size (insert natLt (⟨Tree.nil, 0⟩ : map Nat Nat) 1 10).1 :=
  C4_erase_lookup natLt_swo
    (reachable_valid natLt_swo.trans (Reachable.ins _ 1 10 Reachable.empty))
    (by decide)

/-- C5: operator[] on a present key returns the stored value and the
map itself; on an absent key it creates exactly one entry holding the
default-constructed value, raising size() by one and making count
return 1.  No other public operation silently creates entries: clear
leaves none, copy reproduces only the source entries, and erase at a
valid cursor only removes. -/
theorem C5_index_access {cmp : K → K → Bool} (hsw : IsSWO cmp)
    {m : map K V} (k : K) (dflt : V) (hv : Valid cmp m) :
    (∀ k2 v2, find_data cmp m.root k = some (k2, v2) →
      op_index cmp dflt m k = (m, v2)) ∧
    (find_data cmp m.root k = none →
      (op_index cmp dflt m k).2 = dflt ∧
      size (op_index cmp dflt m k).1 = size m + 1 ∧
      count cmp (op_index cmp dflt m k).1 k = 1 ∧
      (k, dflt) ∈ (op_index cmp dflt m k).1.root.inorder) ∧
    (clearMap m).root.inorder = [] ∧
    (∀ e ∈ (copyMap m).root.inorder, e ∈ m.root.inorder) ∧
    (∀ p, (Tree.nodeAt m.root p).isSome = true →
      ∀ e ∈ (erase_map m p).root.inorder, e ∈ m.root.inorder) := by
  refine ⟨?_, ?_, rfl, ?_, ?_⟩
  · intro k2 v2 hfd
    rcases hd : descend cmp k m.root [] with ctx | ⟨ctx, k2x, v2x⟩
    · rw [descend_inl_find_data_none k m.root [] ctx hd] at hfd
      simp at hfd
    · have h2 := descend_inr_find_data k m.root [] ctx k2x v2x hd
      rw [h2] at hfd
      simp at hfd
      rw [op_index, hd]
      dsimp only
      rw [hfd.2]
  · intro hnone
    rcases hd : descend cmp k m.root [] with ctx | ⟨ctx, k2x, v2x⟩
    · obtain ⟨hrb, hin, hold, hsorted⟩ :=
        insert_fresh_props hsw.trans m k dflt ctx hv hd
      rw [op_index, hd]
      dsimp only
      have hmem2 : (k, dflt) ∈
          (insert_fix (Tree.node true Tree.nil k dflt Tree.nil)
            ctx).inorder := by
        rw [hin]
        simp
      refine ⟨rfl, rfl, ?_, hmem2⟩
      have hsome := find_data_complete hsw k k
        (insert_fix (Tree.node true Tree.nil k dflt Tree.nil) ctx) dflt
        hsorted hmem2 (hsw.irrefl k) (hsw.irrefl k)
      rcases hx : find_data cmp
          (insert_fix (Tree.node true Tree.nil k dflt Tree.nil) ctx) k
        with _ | e
      · rw [hx] at hsome
        simp at hsome
      · show (match find_data cmp
            (insert_fix (Tree.node true Tree.nil k dflt Tree.nil) ctx) k with
          | none => 0
          | some _ => 1) = 1
        rw [hx]
    · have h2 := descend_inr_find_data k m.root [] ctx k2x v2x hd
      rw [hnone] at h2
      simp at h2
  · intro e he
    rw [show (copyMap m).root = (clone_subtree m.root 0).1 from rfl,
      (clone_subtree_spec m.root 0).1] at he
    exact he
  · intro p hp e he
    obtain ⟨zc, zl, zk, zv, zr, ctx, hz, hat⟩ := nodeAt_isSome_zipTo hp
    obtain ⟨hold, hnew⟩ := erase_at_found hz
    rw [show (erase_map m p).root = erase_at m.root p from rfl, hnew] at he
    rw [hold]
    simp only [List.mem_append, List.mem_cons] at he ⊢
    tauto

theorem C5_witness :
    (∀ k2 v2, find_data natLt (⟨Tree.nil, 0⟩ : map Nat Nat).root 1 =
        some (k2, v2) →
      op_index natLt 0 (⟨Tree.nil, 0⟩ : map Nat Nat) 1 =
        ((⟨Tree.nil, 0⟩ : map Nat Nat), v2)) ∧
    (find_data natLt (⟨Tree.nil, 0⟩ : map Nat Nat).root 1 = none →
      (op_index natLt 0 (⟨Tree.nil, 0⟩ : map Nat Nat) 1).2 = 0 ∧
      size (op_index natLt 0 (⟨Tree.nil, 0⟩ : map Nat Nat) 1).1 =
        size (⟨Tree.nil, 0⟩ : map Nat Nat) + 1 ∧
      count natLt (op_index natLt 0 (⟨Tree.nil, 0⟩ : map Nat Nat) 1).1 1 =
        1 ∧
      (1, 0) ∈ (op_index natLt 0
        (⟨Tree.nil, 0⟩ : map Nat Nat) 1).1.root.inorder) ∧
    (clearMap (⟨Tree.nil, 0⟩ : map Nat Nat)).root.inorder = [] ∧
    (∀ e ∈ (copyMap (⟨Tree.nil, 0⟩ : map Nat Nat)).root.inorder,
      e ∈ (⟨Tree.nil, 0⟩ : map Nat Nat).root.inorder) ∧
    (∀ p, (Tree.nodeAt
        (⟨Tree.nil, 0⟩ : map Nat Nat).root p).isSome = true →
      ∀ e ∈ (erase_map (⟨Tree.nil, 0⟩ : map Nat Nat) p).root.inorder,
        e ∈ (⟨Tree.nil, 0⟩ : map Nat Nat).root.inorder) :=
  C5_index_access natLt_swo 1 0
    (reachable_valid natLt_swo.trans Reachable.empty)

theorem getLast?_isSome_of_ne {α : Type} :
    ∀ l : List α, l ≠ [] → ∃ a, l.getLast? = some a := by
  intro l
  induction l with
  | nil => intro h; exact absurd rfl h
  | cons x rest ih =>
    intro _
    cases rest with
    | nil => exact ⟨x, rfl⟩
    | cons y l2 =>
      obtain ⟨a, ha⟩ := ih (by simp)
      refine ⟨a, ?_⟩
      rw [List.getLast?_cons_cons]
      exact ha

/-- C6: dereferencing the end cursor signals invalid-operation, as does
incrementing it; decrementing begin() of a non-empty map signals
invalid-operation, as does decrementing end() of an empty map;
decrementing end() of a non-empty map yields the cursor of the
maximum-keyed entry. -/
theorem C6_cursor_boundaries {cmp : K → K → Bool} (hsw : IsSWO cmp)
    {m : map K V} (mid : Nat) (hv : Valid cmp m) :
    iter_deref m.root (end' mid) = Except.error MapError.invalid_iterator ∧
    iter_inc m.root (end' mid) = Except.error MapError.invalid_iterator ∧
    (m.root.isNil = false →
      iter_dec m.root (begin mid m.root) =
        Except.error MapError.invalid_iterator) ∧
    (m.root.isNil = true →
      iter_dec m.root (end' mid) = Except.error MapError.invalid_iterator) ∧
    (m.root.isNil = false →
      iter_dec m.root (end' mid) =
        Except.ok ⟨some mid, some m.root.maxPath⟩ ∧
      ∃ e, Tree.nodeAt m.root m.root.maxPath = some e ∧
        e ∈ m.root.inorder ∧
        ∀ e2 ∈ m.root.inorder, cmp e.1 e2.1 = false) := by
  refine ⟨rfl, rfl, ?_, ?_, ?_⟩
  · intro hne
    show iter_dec m.root (⟨some mid,
        if m.root.isNil then none else some m.root.minPath⟩ : iterator) =
      Except.error MapError.invalid_iterator
    rw [if_neg (by simp [hne])]
    show (match prev_node m.root m.root.minPath with
      | none => Except.error MapError.invalid_iterator
      | some q => Except.ok (⟨some mid, some q⟩ : iterator)) =
      Except.error MapError.invalid_iterator
    rw [prev_node_minPath m.root hne]
  · intro hnil
    show (if m.root.isNil then Except.error MapError.invalid_iterator
        else Except.ok (⟨some mid, some m.root.maxPath⟩ : iterator)) =
      Except.error MapError.invalid_iterator
    rw [if_pos hnil]
  · intro hne
    constructor
    · show (if m.root.isNil then Except.error MapError.invalid_iterator
          else Except.ok (⟨some mid, some m.root.maxPath⟩ : iterator)) =
        Except.ok (⟨some mid, some m.root.maxPath⟩ : iterator)
      rw [if_neg (by simp [hne])]
    · have hgl := nodeAt_maxPath m.root hne
      have hio : m.root.inorder ≠ [] := by
        rw [Ne, Tree.inorder_eq_nil_iff]
        intro h2
        rw [h2] at hne
        simp at hne
      obtain ⟨e, hgle⟩ := getLast?_isSome_of_ne m.root.inorder hio
      exact ⟨e, by rw [hgl, hgle], mem_of_getLast?_eq _ _ hgle,
        sorted_getLast_max hsw.irrefl hsw.trans m.root.inorder e
          hv.2.1 hgle⟩

theorem C6_witness :
    iter_deref (insert natLt (⟨Tree.nil, 0⟩ : map Nat Nat) 1 10).1.root
        (end' 0) = Except.error MapError.invalid_iterator ∧
    iter_inc (insert natLt (⟨Tree.nil, 0⟩ : map Nat Nat) 1 10).1.root
        (end' 0) = Except.error MapError.invalid_iterator ∧
    ((insert natLt (⟨Tree.nil, 0⟩ : map Nat Nat) 1 10).1.root.isNil =
        false →
      iter_dec (insert natLt (⟨Tree.nil, 0⟩ : map Nat Nat) 1 10).1.root
          (begin 0 (insert natLt
            (⟨Tree.nil, 0⟩ : map Nat Nat) 1 10).1.root) =
        Except.error MapError.invalid_iterator) ∧
    ((insert natLt (⟨Tree.nil, 0⟩ : map Nat Nat) 1 10).1.root.isNil =
        true →
      iter_dec (insert natLt (⟨Tree.nil, 0⟩ : map Nat Nat) 1 10).1.root
          (end' 0) = Except.error MapError.invalid_iterator) ∧
    ((insert natLt (⟨Tree.nil, 0⟩ : map Nat Nat) 1 10).1.root.isNil =
        false →
      iter_dec (insert natLt (⟨Tree.nil, 0⟩ : map Nat Nat) 1 10).1.root
          (end' 0) =
        Except.ok ⟨some 0, some (insert natLt
          (⟨Tree.nil, 0⟩ : map Nat Nat) 1 10).1.root.maxPath⟩ ∧
      ∃ e, Tree.nodeAt
          (insert natLt (⟨Tree.nil, 0⟩ : map Nat Nat) 1 10).1.root
          (insert natLt
            (⟨Tree.nil, 0⟩ : map Nat Nat) 1 10).1.root.maxPath = some e ∧
        e ∈ (insert natLt
          (⟨Tree.nil, 0⟩ : map Nat Nat) 1 10).1.root.inorder ∧
        ∀ e2 ∈ (insert natLt
          (⟨Tree.nil, 0⟩ : map Nat Nat) 1 10).1.root.inorder,
          natLt e.1 e2.1 = false) :=
  C6_cursor_boundaries natLt_swo 0
    (reachable_valid natLt_swo.trans (Reachable.ins _ 1 10 Reachable.empty))

/-- C7: erase(cursor) signals the invalid-operation error exactly when
the cursor belongs to a different map object (or none) or holds no
node (the end position); in the error case no map is produced and the
map is untouched, and otherwise exactly the referenced entry is
removed. -/
theorem C7_erase_cursor {cmp : K → K → Bool} {m : map K V} (mid : Nat)
    (it : iterator) (hv : Valid cmp m) :
    (erase_iter mid m it = Except.error MapError.invalid_iterator ↔
      (it.owner ≠ some mid ∨ it.cur = none)) ∧
    (∀ p, it.cur = some p → it.owner = some mid →
      erase_iter mid m it = Except.ok (erase_map m p) ∧
      ((Tree.nodeAt m.root p).isSome = true →
        ∃ e A B, Tree.nodeAt m.root p = some e ∧
          m.root.inorder = A ++ e :: B ∧
          (erase_map m p).root.inorder = A ++ B ∧
          size (erase_map m p) + 1 = size m)) := by
  obtain ⟨io, ic⟩ := it
  constructor
  · cases ic with
    | none =>
      constructor
      · intro _
        exact Or.inr rfl
      · intro _
        rfl
    | some p =>
      by_cases ho : io = some mid
      · subst ho
        show (if (some mid : Option Nat) = some mid then
            Except.ok (erase_map m p)
          else Except.error MapError.invalid_iterator) =
            Except.error MapError.invalid_iterator ↔
          ((some mid : Option Nat) ≠ some mid ∨
            (some p : Option (List Dir)) = none)
        rw [if_pos rfl]
        simp
      · show (if io = some mid then Except.ok (erase_map m p)
          else Except.error MapError.invalid_iterator) =
            Except.error MapError.invalid_iterator ↔
          (io ≠ some mid ∨ (some p : Option (List Dir)) = none)
        rw [if_neg ho]
        simp [ho]
  · intro p hp ho
    have hp2 : ic = some p := hp
    have ho2 : io = some mid := ho
    subst hp2
    subst ho2
    constructor
    · show (if (some mid : Option Nat) = some mid then
          Except.ok (erase_map m p)
        else Except.error MapError.invalid_iterator) =
        Except.ok (erase_map m p)
      rw [if_pos rfl]
    · intro hns
      obtain ⟨zc, zl, zk, zv, zr, ctx, hz, hat⟩ := nodeAt_isSome_zipTo hns
      obtain ⟨hold, hnew⟩ := erase_at_found hz
      refine ⟨(zk, zv), ctxL ctx ++ zl.inorder, zr.inorder ++ ctxR ctx,
        hat, by rw [hold]; simp,
        by rw [show (erase_map m p).root = erase_at m.root p from rfl, hnew]
           simp, ?_⟩
      have hc := hv.2.2
      rw [hold] at hc
      show m.node_count - 1 + 1 = m.node_count
      simp [List.length_append] at hc
      omega

theorem C7_witness :
    (erase_iter 0 (insert natLt (⟨Tree.nil, 0⟩ : map Nat Nat) 1 10).1
        (⟨some 0, some []⟩ : iterator) =
        Except.error MapError.invalid_iterator ↔
      ((⟨some 0, some []⟩ : iterator).owner ≠ some 0 ∨
        (⟨some 0, some []⟩ : iterator).cur = none)) ∧
    (∀ p, (⟨some 0, some []⟩ : iterator).cur = some p →
      (⟨some 0, some []⟩ : iterator).owner = some 0 →
      erase_iter 0 (insert natLt (⟨Tree.nil, 0⟩ : map Nat Nat) 1 10).1
          (⟨some 0, some []⟩ : iterator) =
        Except.ok (erase_map
          (insert natLt (⟨Tree.nil, 0⟩ : map Nat Nat) 1 10).1 p) ∧
      ((Tree.nodeAt
          (insert natLt
            (⟨Tree.nil, 0⟩ : map Nat Nat) 1 10).1.root p).isSome = true →
        ∃ e A B, Tree.nodeAt (insert natLt
            (⟨Tree.nil, 0⟩ : map Nat Nat) 1 10).1.root p = some e ∧
          (insert natLt
            (⟨Tree.nil, 0⟩ : map Nat Nat) 1 10).1.root.inorder =
            A ++ e :: B ∧
          (erase_map (insert natLt
            (⟨Tree.nil, 0⟩ : map Nat Nat) 1 10).1 p).root.inorder =
            A ++ B ∧
          size (erase_map
            (insert natLt (⟨Tree.nil, 0⟩ : map Nat Nat) 1 10).1 p) + 1 =
            size (insert natLt (⟨Tree.nil, 0⟩ : map Nat Nat) 1 10).1)) :=
  C7_erase_cursor 0 (⟨some 0, some []⟩ : iterator)
    (reachable_valid natLt_swo.trans (Reachable.ins _ 1 10 Reachable.empty))

/-- C8 (counterexample to the claim as stated): operator-> is declared
noexcept and performs no check at all, so on a default-constructed
cursor it does not signal the invalid-operation error: it hands back
the null position unconditionally. -/
theorem C8_counterexample :
    iter_arrow iterDefault = Except.ok none ∧
    ∀ e : MapError, iter_arrow iterDefault ≠ Except.error e := by
  refine ⟨rfl, ?_⟩
  intro e h
  exact Except.noConfusion h

/-- C8 (amended): on a default-constructed cursor, dereference,
increment and decrement signal the invalid-operation error, while
arrow-dereference performs no check and signals nothing. -/
theorem C8_default_cursor (t : Tree K V) :
    iter_deref t iterDefault = Except.error MapError.invalid_iterator ∧
    iter_inc t iterDefault = Except.error MapError.invalid_iterator ∧
    iter_dec t iterDefault = Except.error MapError.invalid_iterator ∧
    iter_arrow iterDefault = Except.ok none :=
  ⟨rfl, rfl, rfl, rfl⟩

/-- C9: a copy (construction, and assignment, which coincides with it)
reproduces the source entries, traversal order and size exactly; the
clone allocates only fresh nodes above any watermark dominating the
source addresses, so source and copy share no node and a mutation
through either tree cannot reach the other. -/
theorem C9_copy_independent {cmp : K → K → Bool} {m : map K V}
    (hv : Valid cmp m) (m2 : map K V) (a : ATree K V) (f : Nat)
    (hf : ∀ x ∈ a.addrs, x < f) :
    (copyMap m).root.inorder = m.root.inorder ∧
    traversal (copyMap m).root = traversal m.root ∧
    size (copyMap m) = size m ∧
    assignMap m2 m = copyMap m ∧
    (ATree.clone_alloc a f).1.strip = a.strip ∧
    (∀ x ∈ a.addrs, x ∉ (ATree.clone_alloc a f).1.addrs) := by
  have hr : (copyMap m).root = m.root := by
    rw [show (copyMap m).root = (clone_subtree m.root 0).1 from rfl,
      (clone_subtree_spec m.root 0).1]
  refine ⟨by rw [hr], by rw [hr], ?_, rfl, (clone_alloc_spec a f).1,
    clone_alloc_disjoint hf⟩
  show (clone_subtree m.root 0).2 = m.node_count
  rw [(clone_subtree_spec m.root 0).2, hv.2.2]
  omega

theorem C9_witness :
    (copyMap (insert natLt
        (⟨Tree.nil, 0⟩ : map Nat Nat) 1 10).1).root.inorder =
      (insert natLt (⟨Tree.nil, 0⟩ : map Nat Nat) 1 10).1.root.inorder ∧
    traversal (copyMap (insert natLt
        (⟨Tree.nil, 0⟩ : map Nat Nat) 1 10).1).root =
      traversal (insert natLt (⟨Tree.nil, 0⟩ : map Nat Nat) 1 10).1.root ∧
    size (copyMap (insert natLt (⟨Tree.nil, 0⟩ : map Nat Nat) 1 10).1) =
      size (insert natLt (⟨Tree.nil, 0⟩ : map Nat Nat) 1 10).1 ∧
    assignMap (⟨Tree.nil, 0⟩ : map Nat Nat)
        (insert natLt (⟨Tree.nil, 0⟩ : map Nat Nat) 1 10).1 =
      copyMap (insert natLt (⟨Tree.nil, 0⟩ : map Nat Nat) 1 10).1 ∧
    (ATree.clone_alloc
        (ATree.node 0 false ATree.nil 1 10 ATree.nil) 1).1.strip =
      (ATree.node 0 false (ATree.nil : ATree Nat Nat) 1 10
        ATree.nil).strip ∧
    (∀ x ∈ (ATree.node 0 false (ATree.nil : ATree Nat Nat) 1 10
        ATree.nil).addrs,
      x ∉ (ATree.clone_alloc
        (ATree.node 0 false ATree.nil 1 10 ATree.nil) 1).1.addrs) :=
  C9_copy_independent
    (reachable_valid natLt_swo.trans (Reachable.ins _ 1 10 Reachable.empty))
    (⟨Tree.nil, 0⟩ : map Nat Nat)
    (ATree.node 0 false ATree.nil 1 10 ATree.nil) 1 (by decide)

/-- C10: the const overload of operator[] forwards to at: on a key
with no equivalent stored entry it signals the missing-key error — it
is a read-only operation producing no map, so it inserts nothing — and
on every map and key it returns exactly what at returns. -/
theorem C10_const_index {cmp : K → K → Bool} {m : map K V} {k : K}
    (habs : ∀ e ∈ m.root.inorder, cmp k e.1 = true ∨ cmp e.1 k = true) :
    op_index_const cmp m k = Except.error MapError.index_out_of_bound ∧
    (∀ (m2 : map K V) (k2 : K),
      op_index_const cmp m2 k2 = at' cmp m2 k2) := by
  refine ⟨?_, fun m2 k2 => rfl⟩
  show at' cmp m k = Except.error MapError.index_out_of_bound
  rcases hx : find_data cmp m.root k with _ | e
  · show (match find_data cmp m.root k with
      | none => Except.error MapError.index_out_of_bound
      | some e => Except.ok e.2) = Except.error MapError.index_out_of_bound
    rw [hx]
  · obtain ⟨hmem, h1, h2⟩ := find_data_sound k m.root e.1 e.2 hx
    rcases habs e hmem with h | h
    · rw [h1] at h
      simp at h
    · rw [h2] at h
      simp at h

theorem C10_witness :
    op_index_const natLt
        (insert natLt (⟨Tree.nil, 0⟩ : map Nat Nat) 1 10).1 2 =
      Except.error MapError.index_out_of_bound ∧
    (∀ (m2 : map Nat Nat) (k2 : Nat),
      op_index_const natLt m2 k2 = at' natLt m2 k2) :=
  C10_const_index (by decide)

end sjtu
